import Mathlib

/-!
# Cache simulator (`cache-sim.c`, `cache-sim.h`, `csim.c`)

A shallow embedding of the set-associative LRU cache simulator.

Conventions of the embedding.

* `unsigned int` and `unsigned long long` values are natural numbers; every
  place where the C code can wrap or truncate carries an explicit
  `% 2 ^ 32`.
* `line_t.valid` is an `unsigned char` that only ever receives `0` or `1`;
  it is a `Bool` here (`valid == 1` is `valid = true`, `valid == 0` is
  `valid = false`).
* Arrays are lists.  A read of `sets[set_index]` outside the array, a write
  to `lines[line_index]` outside the array and the use of the local
  `line_index` of `findVictimLine` while it was never assigned have no
  defined behaviour in C: `cache` answers `none` there.  The value the C
  function returns does not depend on that index; it is `cache.status`.
* `int` line indices are integers, `NOT_FOUND` is `-1`; the loops count with
  natural numbers (exact as long as `lines_per_set < 2 ^ 31`).
-/

namespace CacheSim

/-! ## Data model (cache-sim.h) -/

/-- The macro `NOT_FOUND` of `cache-sim.h`. -/
def NOT_FOUND : Int := -1

/-- The enumeration `status_t` of `cache-sim.h`. -/
inductive status_t where
  | MISS_AND_REPLACE
  | MISS
  | HIT
deriving DecidableEq, Repr

/-- The integer value of an enumerator of `status_t`. -/
def status_t.toInt : status_t → Int
  | .MISS_AND_REPLACE => -1
  | .MISS => 0
  | .HIT => 1

/-- The struct `line_t`. -/
structure line_t where
  tag : Nat
  order : Nat
  valid : Bool
deriving DecidableEq, Repr

/-- The struct `set_t`. -/
structure set_t where
  most_recent_order : Nat
  lines : List line_t
deriving DecidableEq, Repr

/-- The struct `cache_t`. -/
structure cache_t where
  sets : List set_t
  set_number : Nat
  set_bits : Nat
  lines_per_set : Nat
  block_bits : Nat
  block_size : Nat
deriving DecidableEq, Repr

/-- The content of a line slot that was never written (only met by a read
outside the array, which the well-formedness hypotheses exclude). -/
def line_t.zero : line_t := { tag := 0, order := 0, valid := false }

/-- The lines array `cache_ptr->sets[set_index].lines`. -/
def linesOf (cache_ptr : cache_t) (set_index : Nat) : List line_t :=
  match cache_ptr.sets[set_index]? with
  | some st => st.lines
  | none => []

/-- The clock `cache_ptr->sets[set_index].most_recent_order`. -/
def clockOf (cache_ptr : cache_t) (set_index : Nat) : Nat :=
  match cache_ptr.sets[set_index]? with
  | some st => st.most_recent_order
  | none => 0

/-! ## createCache -/

/-- The function `createCache`: `1 << s` sets (as an `unsigned int`), each
with clock `0` and `E` lines, every line with `tag = 0`, `valid = 0`,
`order = 0`.  (For `s ≥ 32` or `b ≥ 32` the C shift is not defined; the
embedding takes the truncated value.) -/
def createCache (s E b : Nat) : cache_t :=
  { block_bits := b
    block_size := (1 <<< b) % 2 ^ 32
    lines_per_set := E
    set_bits := s
    set_number := (1 <<< s) % 2 ^ 32
    sets := List.replicate ((1 <<< s) % 2 ^ 32)
      { most_recent_order := 0
        lines := List.replicate E { tag := 0, valid := false, order := 0 } } }

/-! ## Address decoding: parseAddressInfo -/

/-- The `int` expression `~(-1 << n)` as a 32-bit two's complement pattern:
`-1` is `2 ^ 32 - 1`, the shift keeps the low 32 bits, `~` flips them. -/
def lowMask32 (n : Nat) : Nat :=
  2 ^ 32 - 1 - ((2 ^ 32 - 1) * 2 ^ n) % 2 ^ 32

/-- Conversion of a 32-bit `int` pattern to `unsigned long long` (sign
extension), as the usual arithmetic conversions do for the `&`. -/
def sext64 (x : Nat) : Nat :=
  if x < 2 ^ 31 then x else x + (2 ^ 64 - 2 ^ 32)

/-- The function `parseAddressInfo`: the pair `(*set_index, *tag)`.  Both
are stored through `unsigned int *`, hence the `% 2 ^ 32`; the sum
`set_bits + block_bits` is an `unsigned int` sum.  The shifts are the
mathematical ones: they are the shifts of the C code where C defines them,
for `set_bits ≤ 30` and `set_bits + block_bits ≤ 63`. -/
def parseAddressInfo (cache_ptr : cache_t) (address : Nat) : Nat × Nat :=
  ( ((address >>> cache_ptr.block_bits) &&& sext64 (lowMask32 cache_ptr.set_bits)) % 2 ^ 32,
    (address >>> ((cache_ptr.set_bits + cache_ptr.block_bits) % 2 ^ 32)) % 2 ^ 32 )

/-! ## The three scans -/

/-- The loop of `isLineExist`: `n` iterations remain, `i` is the loop
variable. -/
def isLineExist.loop (lines : List line_t) (tag : Nat) : Nat → Nat → Int
  | 0, _ => NOT_FOUND
  | n + 1, i =>
    if (lines.getD i line_t.zero).tag = tag ∧ (lines.getD i line_t.zero).valid = true then
      (i : Int)
    else
      isLineExist.loop lines tag n (i + 1)

/-- The function `isLineExist`. -/
def isLineExist (cache_ptr : cache_t) (set_index tag : Nat) : Int :=
  isLineExist.loop (linesOf cache_ptr set_index) tag cache_ptr.lines_per_set 0

/-- The loop of `findEmptyLine`. -/
def findEmptyLine.loop (lines : List line_t) : Nat → Nat → Int
  | 0, _ => NOT_FOUND
  | n + 1, i =>
    if (lines.getD i line_t.zero).valid = false then
      (i : Int)
    else
      findEmptyLine.loop lines n (i + 1)

/-- The function `findEmptyLine`. -/
def findEmptyLine (cache_ptr : cache_t) (set_index : Nat) : Int :=
  findEmptyLine.loop (linesOf cache_ptr set_index) cache_ptr.lines_per_set 0

/-- The loop of `findVictimLine`; `order` is the running minimum and
`line_index` the local of that name, `none` while it is unassigned. -/
def findVictimLine.loop (lines : List line_t) : Nat → Nat → Nat → Option Int → Option Int
  | 0, _, _, line_index => line_index
  | n + 1, i, order, line_index =>
    if (lines.getD i line_t.zero).order < order then
      findVictimLine.loop lines n (i + 1) (lines.getD i line_t.zero).order (some (i : Int))
    else
      findVictimLine.loop lines n (i + 1) order line_index

/-- The function `findVictimLine`.  `order` starts at
`most_recent_order + 1` (`unsigned int` arithmetic; the comparison with the
`unsigned int` field `order` is unsigned as well). -/
def findVictimLine (cache_ptr : cache_t) (set_index : Nat) : Option Int :=
  findVictimLine.loop (linesOf cache_ptr set_index) cache_ptr.lines_per_set 0
    ((clockOf cache_ptr set_index + 1) % 2 ^ 32) none

/-! ## cache -/

/-- The write `sets[set_index].lines[line_index] := f (old line)` together
with the store of the incremented clock. -/
def storeLine (cache_ptr : cache_t) (set_index : Nat) (line_index : Int) (clock : Nat)
    (f : line_t → line_t) : Option cache_t :=
  match cache_ptr.sets[set_index]? with
  | none => none
  | some st =>
    if 0 ≤ line_index ∧ line_index.toNat < st.lines.length then
      some { cache_ptr with
        sets := cache_ptr.sets.set set_index
          { most_recent_order := clock
            lines := st.lines.set line_index.toNat
              (f (st.lines.getD line_index.toNat line_t.zero)) } }
    else
      none

/-- The function `cache`: the returned status and the cache after the call.
There is no cache after the call (`none`) when the store has no defined
target: `set_index` outside the array, or a full set in which the scan of
`findVictimLine` assigned no index.  The returned status alone is
`cache.status`. -/
def cache (cache_ptr : cache_t) (set_index tag : Nat) : Option (status_t × cache_t) :=
  let clock := (clockOf cache_ptr set_index + 1) % 2 ^ 32
  if isLineExist cache_ptr set_index tag = NOT_FOUND then
    if findEmptyLine cache_ptr set_index = NOT_FOUND then
      match findVictimLine cache_ptr set_index with
      | none => none
      | some line_index =>
        (storeLine cache_ptr set_index line_index clock
          (fun _ => { valid := true, tag := tag, order := clock })).map
          (fun c => (status_t.MISS_AND_REPLACE, c))
    else
      (storeLine cache_ptr set_index (findEmptyLine cache_ptr set_index) clock
        (fun _ => { valid := true, tag := tag, order := clock })).map
        (fun c => (status_t.MISS, c))
  else
    (storeLine cache_ptr set_index (isLineExist cache_ptr set_index tag) clock
      (fun l => { l with order := clock })).map
      (fun c => (status_t.HIT, c))

/-- The value `cache` returns (`return status`).  `status` is assigned from
the results of the two scans only: `HIT` when `isLineExist` found a line,
else `MISS` when `findEmptyLine` found one, else `MISS_AND_REPLACE`; the
index of `findVictimLine` and the stores to the line and to the clock do not
enter it. -/
def cache.status (cache_ptr : cache_t) (set_index tag : Nat) : status_t :=
  if isLineExist cache_ptr set_index tag = NOT_FOUND then
    if findEmptyLine cache_ptr set_index = NOT_FOUND then
      status_t.MISS_AND_REPLACE
    else
      status_t.MISS
  else
    status_t.HIT

/-! ## The driver: accessMemory -/

/-- One record of the trace file, as read by `fscanf(" %c %llx,%u")`. -/
structure event where
  op : Char
  address : Nat
  size : Nat
deriving DecidableEq, Repr

/-- The three counters `hit_count`, `miss_count`, `eviction_count` of
`main`, each an `unsigned int`. -/
structure counters where
  hit_count : Nat
  miss_count : Nat
  eviction_count : Nat
deriving DecidableEq, Repr

/-- The state of the driver: the cache, the counters and the statuses the
events were classified with so far, oldest first (what `verbose` prints). -/
structure driver where
  cache_ptr : cache_t
  count : counters
  log : List status_t
deriving DecidableEq, Repr

/-- The body of the `while` loop of `accessMemory` for one record. -/
def accessMemory.step (d : driver) (ev : event) : Option driver :=
  let set_index := (parseAddressInfo d.cache_ptr ev.address).1
  let tag := (parseAddressInfo d.cache_ptr ev.address).2
  if ev.op = 'M' then
    match cache d.cache_ptr set_index tag with
    | none => none
    | some (status, c) =>
      if status = status_t.HIT then
        some { cache_ptr := c, log := d.log ++ [status],
               count := { d.count with hit_count := (d.count.hit_count + 2) % 2 ^ 32 } }
      else if status = status_t.MISS then
        some { cache_ptr := c, log := d.log ++ [status],
               count := { d.count with
                 miss_count := (d.count.miss_count + 1) % 2 ^ 32
                 hit_count := (d.count.hit_count + 1) % 2 ^ 32 } }
      else if status = status_t.MISS_AND_REPLACE then
        some { cache_ptr := c, log := d.log ++ [status],
               count := { miss_count := (d.count.miss_count + 1) % 2 ^ 32
                          eviction_count := (d.count.eviction_count + 1) % 2 ^ 32
                          hit_count := (d.count.hit_count + 1) % 2 ^ 32 } }
      else
        some { d with cache_ptr := c, log := d.log ++ [status] }
  else if ev.op = 'L' ∨ ev.op = 'S' then
    match cache d.cache_ptr set_index tag with
    | none => none
    | some (status, c) =>
      if status.toInt = 1 then
        some { cache_ptr := c, log := d.log ++ [status],
               count := { d.count with hit_count := (d.count.hit_count + 1) % 2 ^ 32 } }
      else if status.toInt = 0 then
        some { cache_ptr := c, log := d.log ++ [status],
               count := { d.count with miss_count := (d.count.miss_count + 1) % 2 ^ 32 } }
      else if status = status_t.MISS_AND_REPLACE then
        some { cache_ptr := c, log := d.log ++ [status],
               count := { d.count with
                 miss_count := (d.count.miss_count + 1) % 2 ^ 32
                 eviction_count := (d.count.eviction_count + 1) % 2 ^ 32 } }
      else
        some { d with cache_ptr := c, log := d.log ++ [status] }
  else
    some d

/-- The function `accessMemory` on the records of the trace, in order. -/
def accessMemory : driver → List event → Option driver
  | d, [] => some d
  | d, ev :: trace =>
    match accessMemory.step d ev with
    | none => none
    | some d1 => accessMemory d1 trace

/-- The three counters after the body of the `while` loop of `accessMemory`
for one record: the `switch` on `op` and the `if` chains on the value
`cache` returned (`cache.status`), with the `unsigned int` additions of the
code. -/
def accessMemory.count (cache_ptr : cache_t) (count : counters) (ev : event) : counters :=
  let set_index := (parseAddressInfo cache_ptr ev.address).1
  let tag := (parseAddressInfo cache_ptr ev.address).2
  let status := cache.status cache_ptr set_index tag
  if ev.op = 'M' then
    if status = status_t.HIT then
      { count with hit_count := (count.hit_count + 2) % 2 ^ 32 }
    else if status = status_t.MISS then
      { count with
        miss_count := (count.miss_count + 1) % 2 ^ 32
        hit_count := (count.hit_count + 1) % 2 ^ 32 }
    else if status = status_t.MISS_AND_REPLACE then
      { miss_count := (count.miss_count + 1) % 2 ^ 32
        eviction_count := (count.eviction_count + 1) % 2 ^ 32
        hit_count := (count.hit_count + 1) % 2 ^ 32 }
    else
      count
  else if ev.op = 'L' ∨ ev.op = 'S' then
    if status.toInt = 1 then
      { count with hit_count := (count.hit_count + 1) % 2 ^ 32 }
    else if status.toInt = 0 then
      { count with miss_count := (count.miss_count + 1) % 2 ^ 32 }
    else if status = status_t.MISS_AND_REPLACE then
      { count with
        miss_count := (count.miss_count + 1) % 2 ^ 32
        eviction_count := (count.eviction_count + 1) % 2 ^ 32 }
    else
      count
  else
    count

/-- The driver state `main` starts from: the cache of `createCache` and the
three counters at `0`. -/
def driver.init (s E b : Nat) : driver :=
  { cache_ptr := createCache s E b
    count := { hit_count := 0, miss_count := 0, eviction_count := 0 }
    log := [] }

/-! ## Vocabulary of the statements -/

/-- The arrays of a cache have the sizes its fields announce: `set_number`
sets, each with `lines_per_set` lines. -/
def cache_t.allocated (c : cache_t) : Prop :=
  c.sets.length = c.set_number ∧ ∀ st ∈ c.sets, st.lines.length = c.lines_per_set

/-- Some valid line of the list holds `tag`. -/
def holdsTag (lines : List line_t) (tag : Nat) : Prop :=
  ∃ l ∈ lines, l.valid = true ∧ l.tag = tag

/-- Some line of the list is invalid. -/
def hasInvalid (lines : List line_t) : Prop :=
  ∃ l ∈ lines, l.valid = false

/-- Every line of the list is valid. -/
def allValid (lines : List line_t) : Prop :=
  ∀ l ∈ lines, l.valid = true

/-- The scan shared by `isLineExist` and `findEmptyLine`: the first index
from `i` on, among `n`, where `p` holds. -/
def firstIdx (p : Nat → Bool) : Nat → Nat → Int
  | 0, _ => NOT_FOUND
  | n + 1, i => if p i = true then (i : Int) else firstIdx p n (i + 1)

/-- The line `lines[j]` of set `set_index`. -/
def lineAt (c : cache_t) (set_index j : Nat) : line_t :=
  (linesOf c set_index).getD j line_t.zero

/-- The cache after line `k` of set `set_index` received the content `l` and
the clock of the set the value `clock`. -/
def touch (c : cache_t) (set_index k clock : Nat) (l : line_t) : cache_t :=
  { c with
    sets := c.sets.set set_index
      { most_recent_order := clock, lines := (linesOf c set_index).set k l } }

/-- The value `++most_recent_order` of set `set_index`. -/
def nextClock (c : cache_t) (set_index : Nat) : Nat :=
  (clockOf c set_index + 1) % 2 ^ 32

/-- A cache whose clock is about to wrap: one set, one line, the line valid
with tag `0`, clock and recency at `2 ^ 32 - 1` (the state after
`2 ^ 32 - 1` accesses with tag `0` to a fresh cache with `s = 0`, `E = 1`). -/
def wrappedCache : cache_t :=
  { sets := [{ most_recent_order := 4294967295,
               lines := [{ tag := 0, order := 4294967295, valid := true }] }]
    set_number := 1
    set_bits := 0
    lines_per_set := 1
    block_bits := 0
    block_size := 1 }

/-- The cache with one set and one line after `n ≥ 1` accesses with tag `0`:
the line is valid, clock and recency are `n mod 2^32`. -/
def hitState (n : Nat) : cache_t :=
  { sets := [{ most_recent_order := n % 2 ^ 32,
               lines := [{ tag := 0, order := n % 2 ^ 32, valid := true }] }]
    set_number := 1
    set_bits := 0
    lines_per_set := 1
    block_bits := 0
    block_size := 1 }

/-! ## The abstract LRU model -/

/-- The tags of the valid lines, in line order. -/
def validTags (L : List line_t) : List Nat :=
  (L.filter (fun l => l.valid)).map (fun l => l.tag)

/-- Every valid line with tag `t` was touched after every valid line with
tag `u`. -/
def orderedBy (L : List line_t) (t u : Nat) : Prop :=
  ∀ l1 ∈ L, ∀ l2 ∈ L, l1.valid = true → l2.valid = true →
    l1.tag = t → l2.tag = u → l2.order < l1.order

/-- The set `st` with `E` lines, after `n` accesses, represents the
most-recent-first list of tags `m`. -/
structure SetInv (E : Nat) (st : set_t) (m : List Nat) (n : Nat) : Prop where
  len : st.lines.length = E
  clock : st.most_recent_order = n
  le_clock : ∀ l ∈ st.lines, l.order ≤ n
  one_le : ∀ l ∈ st.lines, l.valid = true → 1 ≤ l.order
  nodup : m.Nodup
  perm : m.Perm (validTags st.lines)
  ordered : m.Pairwise (orderedBy st.lines)

/-- The abstract model of one set, in the words of the specification: a
most-recent-first list of at most `E` tags.  Tag in the list: `HIT`, move
to front; otherwise list shorter than `E`: `MISS`, push front; otherwise
`MISS_AND_REPLACE`, drop the last tag and push front. -/
def lruAccess (E : Nat) (m : List Nat) (tag : Nat) : status_t × List Nat :=
  if tag ∈ m then (status_t.HIT, tag :: m.erase tag)
  else if m.length < E then (status_t.MISS, tag :: m)
  else (status_t.MISS_AND_REPLACE, tag :: m.dropLast)

/-- The abstract model of the cache: one list per set index, and the
outcomes of a sequence of `(set_index, tag)` accesses. -/
def lruModel (E : Nat) : (Nat → List Nat) → List (Nat × Nat) → List status_t × (Nat → List Nat)
  | M, [] => ([], M)
  | M, a :: tr =>
    ((lruAccess E (M a.1) a.2).1 ::
        (lruModel E (Function.update M a.1 (lruAccess E (M a.1) a.2).2) tr).1,
      (lruModel E (Function.update M a.1 (lruAccess E (M a.1) a.2).2) tr).2)

/-- A sequence of calls `cache(cache_ptr, set_index, tag)`: the statuses in
order and the final cache. -/
def accesses : cache_t → List (Nat × Nat) → Option (List status_t × cache_t)
  | c, [] => some ([], c)
  | c, a :: tr =>
    match cache c a.1 a.2 with
    | none => none
    | some (status, c1) =>
      match accesses c1 tr with
      | none => none
      | some (out, c2) => some (status :: out, c2)

/-- The cache `c` represents the lists `M`, set by set, after `n j` accesses
to set `j`. -/
def Sim (c : cache_t) (M : Nat → List Nat) (n : Nat → Nat) : Prop :=
  c.sets.length = c.set_number ∧
  ∀ j (hj : j < c.sets.length), SetInv c.lines_per_set (c.sets.get ⟨j, hj⟩) (M j) (n j)

/-! ## Counting -/

/-- The number of valid lines of a set. -/
def validCount (L : List line_t) : Nat :=
  L.countP (fun l => l.valid)

/-- The number of distinct tags presented by a sequence of accesses. -/
def distinctTags (tr : List (Nat × Nat)) : Nat :=
  (tr.map (fun a => a.2)).dedup.length

/-- The valid tags of every set are free of duplicates, the valid tags of
set `si` were all presented (they are in `T`), and as long as set `si` has
an invalid line every presented tag is still held. -/
def SeenInv (c : cache_t) (si : Nat) (T : Finset Nat) : Prop :=
  (∀ j, (validTags (linesOf c j)).Nodup) ∧
  (∀ t ∈ validTags (linesOf c si), t ∈ T) ∧
  (hasInvalid (linesOf c si) → ∀ t ∈ T, t ∈ validTags (linesOf c si))

/-- The total number of valid lines of a cache. -/
def totalValid (c : cache_t) : Nat :=
  (c.sets.map (fun st => validCount st.lines)).sum

/-- The counters after an event whose call of `cache` returned `status`, as
`accessMemory` updates them (`modify` tells a Modify event from a Load or
Store). -/
def bump (modify : Bool) (k : counters) (status : status_t) : counters :=
  match modify, status with
  | true, .HIT => { k with hit_count := (k.hit_count + 2) % 2 ^ 32 }
  | true, .MISS =>
    { k with miss_count := (k.miss_count + 1) % 2 ^ 32
             hit_count := (k.hit_count + 1) % 2 ^ 32 }
  | true, .MISS_AND_REPLACE =>
    { miss_count := (k.miss_count + 1) % 2 ^ 32
      eviction_count := (k.eviction_count + 1) % 2 ^ 32
      hit_count := (k.hit_count + 1) % 2 ^ 32 }
  | false, .HIT => { k with hit_count := (k.hit_count + 1) % 2 ^ 32 }
  | false, .MISS => { k with miss_count := (k.miss_count + 1) % 2 ^ 32 }
  | false, .MISS_AND_REPLACE =>
    { k with miss_count := (k.miss_count + 1) % 2 ^ 32
             eviction_count := (k.eviction_count + 1) % 2 ^ 32 }

/-- The `(set_index, tag)` pairs `accessMemory` passes to `cache` for a
trace: one per Load, Store or Modify record, none for another op code. -/
def decodeTrace (c : cache_t) (tr : List event) : List (Nat × Nat) :=
  tr.filterMap (fun ev =>
    if ev.op = 'M' ∨ ev.op = 'L' ∨ ev.op = 'S' then some (parseAddressInfo c ev.address)
    else none)

/-- The number of misses (with or without eviction) in a log. -/
def missesIn (log : List status_t) : Nat :=
  log.countP (fun st => decide (st ≠ status_t.HIT))

/-- The number of evictions in a log. -/
def evictionsIn (log : List status_t) : Nat :=
  log.countP (fun st => decide (st = status_t.MISS_AND_REPLACE))

/-- The miss and eviction counters are the numbers of misses and evictions
of the log modulo `2 ^ 32`, and every miss that was not an eviction filled
one line that is valid since. -/
def LogInv (d : driver) : Prop :=
  d.cache_ptr.allocated ∧
  d.count.miss_count = missesIn d.log % 2 ^ 32 ∧
  d.count.eviction_count = evictionsIn d.log % 2 ^ 32 ∧
  missesIn d.log = evictionsIn d.log + totalValid d.cache_ptr

/-! ## The two-call driver of the specification -/

/-- The bookkeeping of the specification for one call of `access`: `Hit`
adds one hit, `Miss` one miss, `MissWithEviction` one miss and one
eviction. -/
def specCount (k : counters) (status : status_t) : counters :=
  match status with
  | .HIT => { k with hit_count := k.hit_count + 1 }
  | .MISS => { k with miss_count := k.miss_count + 1 }
  | .MISS_AND_REPLACE =>
    { k with miss_count := k.miss_count + 1, eviction_count := k.eviction_count + 1 }

/-- One event in the driver of the specification: a Load or a Store is one
call of `cache`, a Modify is two calls in a row with the same
`(set_index, tag)`, each call counted by `specCount`; the log keeps the
status of the first call of the event. -/
def twoCallStep (d : driver) (ev : event) : Option driver :=
  let set_index := (parseAddressInfo d.cache_ptr ev.address).1
  let tag := (parseAddressInfo d.cache_ptr ev.address).2
  if ev.op = 'M' then
    match cache d.cache_ptr set_index tag with
    | none => none
    | some (status1, c1) =>
      match cache c1 set_index tag with
      | none => none
      | some (status2, c2) =>
        some { cache_ptr := c2, count := specCount (specCount d.count status1) status2,
               log := d.log ++ [status1] }
  else if ev.op = 'L' ∨ ev.op = 'S' then
    match cache d.cache_ptr set_index tag with
    | none => none
    | some (status, c1) =>
      some { cache_ptr := c1, count := specCount d.count status, log := d.log ++ [status] }
  else
    some d

/-- The driver of the specification on the records of a trace, in order. -/
def twoCallDriver : driver → List event → Option driver
  | d, [] => some d
  | d, ev :: trace =>
    match twoCallStep d ev with
    | none => none
    | some d1 => twoCallDriver d1 trace

/-- Two caches with the same parameters that hold the same tags and valid
bits in the same lines, with recency stamps in the same relative order and
no stamp above the clock of its set. -/
structure Paired (c1 c2 : cache_t) : Prop where
  alloc1 : c1.allocated
  alloc2 : c2.allocated
  same_S : c2.set_number = c1.set_number
  same_E : c2.lines_per_set = c1.lines_per_set
  same_sb : c2.set_bits = c1.set_bits
  same_bb : c2.block_bits = c1.block_bits
  same_tv : ∀ j i, (lineAt c2 j i).tag = (lineAt c1 j i).tag ∧
    (lineAt c2 j i).valid = (lineAt c1 j i).valid
  same_ord : ∀ j i1 i2, (lineAt c1 j i1).order < (lineAt c1 j i2).order ↔
    (lineAt c2 j i1).order < (lineAt c2 j i2).order
  le1 : ∀ j i, (lineAt c1 j i).order ≤ clockOf c1 j
  le2 : ∀ j i, (lineAt c2 j i).order ≤ clockOf c2 j

/-- The driver of the code `d1` and the driver of the specification `d2` in
step after at most `n` events: caches in step, equal counters and logs, no
clock above `n` (one call per event) or `2 * n` (two calls per event). -/
def PairedDrivers (d1 d2 : driver) (n : Nat) : Prop :=
  Paired d1.cache_ptr d2.cache_ptr ∧ d1.count = d2.count ∧ d1.log = d2.log ∧
  (∀ j, clockOf d1.cache_ptr j ≤ n ∧ clockOf d2.cache_ptr j ≤ 2 * n) ∧
  d2.count.hit_count ≤ 2 * n ∧ d2.count.miss_count ≤ n ∧ d2.count.eviction_count ≤ n

/-! ## A set whose clock wraps under the two-call driver -/

/-- A cache with `s = 0`, `E = 2`, `b = 0`: one set with the clock `clock`
and the two lines `l0`, `l1`. -/
def pairCache (clock : Nat) (l0 l1 : line_t) : cache_t :=
  { sets := [(⟨clock, [l0, l1]⟩ : set_t)]
    set_number := 1
    set_bits := 0
    lines_per_set := 2
    block_bits := 0
    block_size := 1 }

/-- The cache `pairCache` after `n` calls in all, the last on tag `1`: line
`0` holds tag `0` with stamp `2`, line `1` holds tag `1` with the stamp of
the clock, `n` as an `unsigned int`. -/
def twoLine (n : Nat) : cache_t :=
  pairCache (n % 2 ^ 32) ⟨0, 2, true⟩ ⟨1, n % 2 ^ 32, true⟩

/-! ## Lemmas -/

theorem firstIdx_spec (p : Nat → Bool) (n i : Nat) :
    (firstIdx p n i = NOT_FOUND ∧ ∀ j, i ≤ j → j < i + n → p j = false) ∨
    (∃ k, i ≤ k ∧ k < i + n ∧ firstIdx p n i = (k : Int) ∧ p k = true ∧
      ∀ j, i ≤ j → j < k → p j = false) := by
  induction n generalizing i with
  | zero =>
    left
    refine ⟨rfl, ?_⟩
    intro j h1 h2
    omega
  | succ n ih =>
    by_cases hp : p i = true
    · right
      refine ⟨i, le_refl _, by omega, by simp [firstIdx, hp], hp, ?_⟩
      intro j h1 h2
      omega
    · have hstep : firstIdx p (n + 1) i = firstIdx p n (i + 1) := by simp [firstIdx, hp]
      rcases ih (i + 1) with ⟨h1, h2⟩ | ⟨k, h1, h2, h3, h4, h5⟩
      · left
        refine ⟨by rw [hstep, h1], ?_⟩
        intro j hj1 hj2
        rcases Nat.eq_or_lt_of_le hj1 with h | h
        · subst h
          simpa using hp
        · exact h2 j h (by omega)
      · right
        refine ⟨k, by omega, by omega, by rw [hstep, h3], h4, ?_⟩
        intro j hj1 hj2
        rcases Nat.eq_or_lt_of_le hj1 with h | h
        · subst h
          simpa using hp
        · exact h5 j h hj2

theorem natCast_ne_NOT_FOUND (k : Nat) : (k : Int) ≠ NOT_FOUND := by
  unfold NOT_FOUND
  omega

theorem isLineExist_loop_eq (lines : List line_t) (tag n i : Nat) :
    isLineExist.loop lines tag n i =
      firstIdx (fun j => decide ((lines.getD j line_t.zero).tag = tag ∧
        (lines.getD j line_t.zero).valid = true)) n i := by
  induction n generalizing i with
  | zero => rfl
  | succ n ih =>
    simp only [isLineExist.loop, firstIdx, ih, decide_eq_true_eq]

theorem findEmptyLine_loop_eq (lines : List line_t) (n i : Nat) :
    findEmptyLine.loop lines n i =
      firstIdx (fun j => decide ((lines.getD j line_t.zero).valid = false)) n i := by
  induction n generalizing i with
  | zero => rfl
  | succ n ih =>
    simp only [findEmptyLine.loop, firstIdx, ih, decide_eq_true_eq]

theorem findVictimLine_loop_spec (lines : List line_t) (n i order : Nat) (li : Option Int) :
    (findVictimLine.loop lines n i order li = li ∧
      ∀ j, i ≤ j → j < i + n → order ≤ (lines.getD j line_t.zero).order) ∨
    (∃ k, i ≤ k ∧ k < i + n ∧ findVictimLine.loop lines n i order li = some (k : Int) ∧
      (lines.getD k line_t.zero).order < order ∧
      (∀ j, i ≤ j → j < i + n →
        (lines.getD k line_t.zero).order ≤ (lines.getD j line_t.zero).order) ∧
      ∀ j, i ≤ j → j < k →
        (lines.getD k line_t.zero).order < (lines.getD j line_t.zero).order) := by
  induction n generalizing i order li with
  | zero =>
    left
    refine ⟨rfl, ?_⟩
    intro j h1 h2
    omega
  | succ n ih =>
    by_cases hlt : (lines.getD i line_t.zero).order < order
    · have hstep : findVictimLine.loop lines (n + 1) i order li =
          findVictimLine.loop lines n (i + 1) (lines.getD i line_t.zero).order
            (some (i : Int)) := by
        simp only [findVictimLine.loop, if_pos hlt]
      right
      rcases ih (i + 1) (lines.getD i line_t.zero).order (some (i : Int)) with
        ⟨h1, h2⟩ | ⟨k, h1, h2, h3, h4, h5, h6⟩
      · refine ⟨i, le_refl _, by omega, by rw [hstep, h1], hlt, ?_, ?_⟩
        · intro j hj1 hj2
          rcases Nat.eq_or_lt_of_le hj1 with h | h
          · subst h
            exact le_refl _
          · exact h2 j h (by omega)
        · intro j hj1 hj2
          omega
      · refine ⟨k, by omega, by omega, by rw [hstep, h3], by omega, ?_, ?_⟩
        · intro j hj1 hj2
          rcases Nat.eq_or_lt_of_le hj1 with h | h
          · subst h
            omega
          · exact h5 j h (by omega)
        · intro j hj1 hj2
          rcases Nat.eq_or_lt_of_le hj1 with h | h
          · subst h
            exact h4
          · exact h6 j h hj2
    · have hstep : findVictimLine.loop lines (n + 1) i order li =
          findVictimLine.loop lines n (i + 1) order li := by
        simp only [findVictimLine.loop, if_neg hlt]
      rcases ih (i + 1) order li with ⟨h1, h2⟩ | ⟨k, h1, h2, h3, h4, h5, h6⟩
      · left
        refine ⟨by rw [hstep, h1], ?_⟩
        intro j hj1 hj2
        rcases Nat.eq_or_lt_of_le hj1 with h | h
        · subst h
          omega
        · exact h2 j h (by omega)
      · right
        refine ⟨k, by omega, by omega, by rw [hstep, h3], h4, ?_, ?_⟩
        · intro j hj1 hj2
          rcases Nat.eq_or_lt_of_le hj1 with h | h
          · subst h
            omega
          · exact h5 j h (by omega)
        · intro j hj1 hj2
          rcases Nat.eq_or_lt_of_le hj1 with h | h
          · subst h
            omega
          · exact h6 j h hj2

theorem storeLine_natCast (c : cache_t) (si k clock : Nat) (f : line_t → line_t)
    (hsi : si < c.sets.length) (hk : k < (linesOf c si).length) :
    storeLine c si (k : Int) clock f = some (touch c si k clock (f (lineAt c si k))) := by
  have h1 : c.sets[si]? = some c.sets[si] := List.getElem?_eq_getElem hsi
  have h2 : linesOf c si = c.sets[si].lines := by simp [linesOf, h1]
  rw [h2] at hk
  simp only [storeLine, h1, touch, lineAt, h2, Int.toNat_ofNat]
  rw [if_pos ⟨Int.natCast_nonneg k, hk⟩]

/-- The four ways a call of `cache` can go, with the line it touches. -/
theorem cache_spec (c : cache_t) (si tag : Nat) (hsi : si < c.sets.length)
    (hlen : (linesOf c si).length = c.lines_per_set) :
    (∃ k, k < c.lines_per_set ∧
      ((lineAt c si k).tag = tag ∧ (lineAt c si k).valid = true) ∧
      (∀ j, j < k → ¬ ((lineAt c si j).tag = tag ∧ (lineAt c si j).valid = true)) ∧
      cache c si tag = some (status_t.HIT,
        touch c si k (nextClock c si) { lineAt c si k with order := nextClock c si })) ∨
    ((∀ j, j < c.lines_per_set →
        ¬ ((lineAt c si j).tag = tag ∧ (lineAt c si j).valid = true)) ∧
      ∃ k, k < c.lines_per_set ∧ (lineAt c si k).valid = false ∧
      (∀ j, j < k → (lineAt c si j).valid = true) ∧
      cache c si tag = some (status_t.MISS,
        touch c si k (nextClock c si)
          { valid := true, tag := tag, order := nextClock c si })) ∨
    ((∀ j, j < c.lines_per_set →
        ¬ ((lineAt c si j).tag = tag ∧ (lineAt c si j).valid = true)) ∧
      (∀ j, j < c.lines_per_set → (lineAt c si j).valid = true) ∧
      ∃ k, k < c.lines_per_set ∧ (lineAt c si k).order < nextClock c si ∧
      (∀ j, j < c.lines_per_set → (lineAt c si k).order ≤ (lineAt c si j).order) ∧
      (∀ j, j < k → (lineAt c si k).order < (lineAt c si j).order) ∧
      cache c si tag = some (status_t.MISS_AND_REPLACE,
        touch c si k (nextClock c si)
          { valid := true, tag := tag, order := nextClock c si })) ∨
    ((∀ j, j < c.lines_per_set →
        ¬ ((lineAt c si j).tag = tag ∧ (lineAt c si j).valid = true)) ∧
      (∀ j, j < c.lines_per_set → (lineAt c si j).valid = true) ∧
      (∀ j, j < c.lines_per_set → nextClock c si ≤ (lineAt c si j).order) ∧
      cache c si tag = none) := by
  rcases firstIdx_spec (fun j => decide ((lineAt c si j).tag = tag ∧
      (lineAt c si j).valid = true)) c.lines_per_set 0 with ⟨h1, h2⟩ | ⟨k, -, h2, h3, h4, h5⟩
  · have hnf : isLineExist c si tag = NOT_FOUND := by
      rw [isLineExist, isLineExist_loop_eq]
      exact h1
    have hno : ∀ j, j < c.lines_per_set →
        ¬ ((lineAt c si j).tag = tag ∧ (lineAt c si j).valid = true) := by
      intro j hj
      have := h2 j (Nat.zero_le _) (by omega)
      simpa using this
    right
    rcases firstIdx_spec (fun j => decide ((lineAt c si j).valid = false))
        c.lines_per_set 0 with ⟨e1, e2⟩ | ⟨k, -, e2, e3, e4, e5⟩
    · have hne : findEmptyLine c si = NOT_FOUND := by
        rw [findEmptyLine, findEmptyLine_loop_eq]
        exact e1
      have hall : ∀ j, j < c.lines_per_set → (lineAt c si j).valid = true := by
        intro j hj
        have := e2 j (Nat.zero_le _) (by omega)
        simpa using this
      right
      rcases findVictimLine_loop_spec (linesOf c si) c.lines_per_set 0
          (nextClock c si) none with ⟨v1, v2⟩ | ⟨k, -, v2, v3, v4, v5, v6⟩
      · right
        refine ⟨hno, hall, fun j hj => v2 j (Nat.zero_le _) (by omega), ?_⟩
        have hv : findVictimLine c si = none := v1
        simp only [cache, hnf, hne, hv, if_true]
      · left
        refine ⟨hno, hall, k, by omega, v4, fun j hj => v5 j (Nat.zero_le _) (by omega),
          fun j hj => v6 j (Nat.zero_le _) hj, ?_⟩
        have hv : findVictimLine c si = some (k : Int) := v3
        simp only [cache, hnf, hne, hv, if_true]
        rw [storeLine_natCast c si k _ _ hsi (by omega)]
        rfl
    · have hne : findEmptyLine c si = (k : Int) := by
        rw [findEmptyLine, findEmptyLine_loop_eq]
        exact e3
      left
      refine ⟨hno, k, by omega, by simpa using e4, ?_, ?_⟩
      · intro j hj
        have := e5 j (Nat.zero_le _) hj
        simpa using this
      · simp only [cache, hnf, hne, if_true, if_neg (natCast_ne_NOT_FOUND k)]
        rw [storeLine_natCast c si k _ _ hsi (by omega)]
        rfl
  · have hfo : isLineExist c si tag = (k : Int) := by
      rw [isLineExist, isLineExist_loop_eq]
      exact h3
    left
    refine ⟨k, by omega, by simpa using h4, ?_, ?_⟩
    · intro j hj
      have := h5 j (Nat.zero_le _) hj
      simpa using this
    · simp only [cache, hfo, if_neg (natCast_ne_NOT_FOUND k)]
      rw [storeLine_natCast c si k _ _ hsi (by omega)]
      rfl

theorem mem_iff_getD (L : List line_t) (l : line_t) :
    l ∈ L ↔ ∃ j, j < L.length ∧ L.getD j line_t.zero = l := by
  constructor
  · intro h
    obtain ⟨j, hj, rfl⟩ := List.mem_iff_getElem.mp h
    exact ⟨j, hj, List.getD_eq_getElem _ _ hj⟩
  · rintro ⟨j, hj, rfl⟩
    rw [List.getD_eq_getElem _ _ hj]
    exact List.getElem_mem hj

theorem allocated_lines (c : cache_t) (hc : c.allocated) (si : Nat) (hsi : si < c.set_number) :
    si < c.sets.length ∧ (linesOf c si).length = c.lines_per_set := by
  have h0 : si < c.sets.length := by rw [hc.1]; exact hsi
  have h1 : c.sets[si]? = some c.sets[si] := List.getElem?_eq_getElem h0
  refine ⟨h0, ?_⟩
  simp only [linesOf, h1]
  exact hc.2 _ (List.getElem_mem h0)

theorem holdsTag_iff (c : cache_t) (si tag : Nat)
    (hlen : (linesOf c si).length = c.lines_per_set) :
    holdsTag (linesOf c si) tag ↔
      ∃ j, j < c.lines_per_set ∧ (lineAt c si j).tag = tag ∧ (lineAt c si j).valid = true := by
  constructor
  · rintro ⟨l, hl, hv, ht⟩
    obtain ⟨j, hj, rfl⟩ := (mem_iff_getD _ _).mp hl
    exact ⟨j, by omega, ht, hv⟩
  · rintro ⟨j, hj, ht, hv⟩
    exact ⟨lineAt c si j, (mem_iff_getD _ _).mpr ⟨j, by omega, rfl⟩, hv, ht⟩

theorem hasInvalid_iff (c : cache_t) (si : Nat)
    (hlen : (linesOf c si).length = c.lines_per_set) :
    hasInvalid (linesOf c si) ↔
      ∃ j, j < c.lines_per_set ∧ (lineAt c si j).valid = false := by
  constructor
  · rintro ⟨l, hl, hv⟩
    obtain ⟨j, hj, rfl⟩ := (mem_iff_getD _ _).mp hl
    exact ⟨j, by omega, hv⟩
  · rintro ⟨j, hj, hv⟩
    exact ⟨lineAt c si j, (mem_iff_getD _ _).mpr ⟨j, by omega, rfl⟩, hv⟩

theorem allValid_iff (c : cache_t) (si : Nat)
    (hlen : (linesOf c si).length = c.lines_per_set) :
    allValid (linesOf c si) ↔
      ∀ j, j < c.lines_per_set → (lineAt c si j).valid = true := by
  constructor
  · intro h j hj
    exact h _ ((mem_iff_getD _ _).mpr ⟨j, by omega, rfl⟩)
  · intro h l hl
    obtain ⟨j, hj, rfl⟩ := (mem_iff_getD _ _).mp hl
    exact h j (by omega)

theorem not_holdsTag_iff (c : cache_t) (si tag : Nat)
    (hlen : (linesOf c si).length = c.lines_per_set) :
    ¬ holdsTag (linesOf c si) tag ↔
      ∀ j, j < c.lines_per_set →
        ¬ ((lineAt c si j).tag = tag ∧ (lineAt c si j).valid = true) := by
  rw [holdsTag_iff c si tag hlen]
  constructor
  · intro h j hj hm
    exact h ⟨j, hj, hm⟩
  · rintro h ⟨j, hj, hm⟩
    exact h j hj hm

/-- The status of a call in terms of the lines of the target set. -/
theorem cache_status (c : cache_t) (si tag : Nat) (hsi : si < c.sets.length)
    (hlen : (linesOf c si).length = c.lines_per_set) :
    (holdsTag (linesOf c si) tag ∧ ∃ c1, cache c si tag = some (status_t.HIT, c1)) ∨
    (¬ holdsTag (linesOf c si) tag ∧ hasInvalid (linesOf c si) ∧
      ∃ c1, cache c si tag = some (status_t.MISS, c1)) ∨
    (¬ holdsTag (linesOf c si) tag ∧ allValid (linesOf c si) ∧
      (∃ l ∈ linesOf c si, l.order < nextClock c si) ∧
      ∃ c1, cache c si tag = some (status_t.MISS_AND_REPLACE, c1)) ∨
    (¬ holdsTag (linesOf c si) tag ∧ allValid (linesOf c si) ∧
      (¬ ∃ l ∈ linesOf c si, l.order < nextClock c si) ∧ cache c si tag = none) := by
  rcases cache_spec c si tag hsi hlen with
    ⟨k, hk, hm, -, hc⟩ | ⟨hno, k, hk, hv, -, hc⟩ | ⟨hno, hall, k, hk, hlt, -, -, hc⟩ |
    ⟨hno, hall, hge, hc⟩
  · left
    exact ⟨(holdsTag_iff c si tag hlen).mpr ⟨k, hk, hm⟩, _, hc⟩
  · right; left
    exact ⟨(not_holdsTag_iff c si tag hlen).mpr hno,
      (hasInvalid_iff c si hlen).mpr ⟨k, hk, hv⟩, _, hc⟩
  · right; right; left
    refine ⟨(not_holdsTag_iff c si tag hlen).mpr hno, (allValid_iff c si hlen).mpr hall,
      ⟨lineAt c si k, (mem_iff_getD _ _).mpr ⟨k, by omega, rfl⟩, hlt⟩, _, hc⟩
  · right; right; right
    refine ⟨(not_holdsTag_iff c si tag hlen).mpr hno, (allValid_iff c si hlen).mpr hall,
      ?_, hc⟩
    rintro ⟨l, hl, hlt⟩
    obtain ⟨j, hj, rfl⟩ := (mem_iff_getD _ _).mp hl
    have := hge j (by omega)
    unfold lineAt at this
    omega

theorem not_hasInvalid_of_allValid (L : List line_t) (h : allValid L) : ¬ hasInvalid L := by
  rintro ⟨l, hl, hv⟩
  have := h l hl
  rw [hv] at this
  exact Bool.false_ne_true this

theorem validTags_append (A B : List line_t) :
    validTags (A ++ B) = validTags A ++ validTags B := by
  simp [validTags]

theorem validTags_cons_valid (x : line_t) (B : List line_t) (h : x.valid = true) :
    validTags (x :: B) = x.tag :: validTags B := by
  simp [validTags, h]

theorem validTags_cons_invalid (x : line_t) (B : List line_t) (h : x.valid = false) :
    validTags (x :: B) = validTags B := by
  simp [validTags, h]

theorem mem_validTags (L : List line_t) (t : Nat) : t ∈ validTags L ↔ holdsTag L t := by
  simp only [validTags, holdsTag, List.mem_map, List.mem_filter]
  constructor
  · rintro ⟨l, ⟨h1, h2⟩, h3⟩
    exact ⟨l, h1, h2, h3⟩
  · rintro ⟨l, h1, h2, h3⟩
    exact ⟨l, ⟨h1, h2⟩, h3⟩

theorem SetInv.mem_iff {E : Nat} {st : set_t} {m : List Nat} {n : Nat}
    (h : SetInv E st m n) (t : Nat) : t ∈ m ↔ holdsTag st.lines t := by
  rw [h.perm.mem_iff, mem_validTags]

theorem length_validTags_lt (L : List line_t) :
    (validTags L).length < L.length ↔ hasInvalid L := by
  unfold validTags hasInvalid
  rw [List.length_map, List.length_filter_lt_length_iff_exists]
  simp

theorem SetInv.length_lt_iff {E : Nat} {st : set_t} {m : List Nat} {n : Nat}
    (h : SetInv E st m n) : m.length < E ↔ hasInvalid st.lines := by
  rw [h.perm.length_eq, ← h.len, length_validTags_lt]

theorem mem_replace {A B : List line_t} {x l l1 : line_t} (h : l1 ∈ A ++ l :: B) :
    l1 = l ∨ ((l1 ∈ A ∨ l1 ∈ B) ∧ l1 ∈ A ++ x :: B) := by
  simp only [List.mem_append, List.mem_cons] at h ⊢
  rcases h with h | h | h
  · exact Or.inr ⟨Or.inl h, Or.inl h⟩
  · exact Or.inl h
  · exact Or.inr ⟨Or.inr h, Or.inr (Or.inr h)⟩

theorem tag_ne_of_nodup {A B : List line_t} {x l1 : line_t}
    (hnd : (validTags (A ++ x :: B)).Nodup) (hx : x.valid = true)
    (hl : l1 ∈ A ∨ l1 ∈ B) (hv : l1.valid = true) : l1.tag ≠ x.tag := by
  rw [validTags_append, validTags_cons_valid x B hx] at hnd
  have h1 := List.nodup_middle.mp hnd
  rw [List.nodup_cons, ← validTags_append] at h1
  intro heq
  apply h1.1
  rw [mem_validTags]
  exact ⟨l1, List.mem_append.mpr hl, hv, heq⟩

/-- A hit on line `x`: the tag moves to the front of the list. -/
theorem SetInv.hit {E n0 : Nat} {A B : List line_t} {x : line_t} {m : List Nat} {n : Nat}
    (h : SetInv E ⟨n0, A ++ x :: B⟩ m n) (hx : x.valid = true) :
    x.tag ∈ m ∧
    SetInv E ⟨n + 1, A ++ { x with order := n + 1 } :: B⟩ (x.tag :: m.erase x.tag) (n + 1) := by
  have hmem : x.tag ∈ m := (h.mem_iff x.tag).mpr ⟨x, by simp, hx, rfl⟩
  have hnd : (validTags (A ++ x :: B)).Nodup := h.perm.nodup_iff.mp h.nodup
  have hvt : validTags (A ++ { x with order := n + 1 } :: B) = validTags (A ++ x :: B) := by
    rw [validTags_append, validTags_append, validTags_cons_valid _ _ hx,
      validTags_cons_valid _ _ (by exact hx)]
  refine ⟨hmem, ⟨?_, rfl, ?_, ?_, ?_, ?_, ?_⟩⟩
  · have := h.len
    simp only [List.length_append, List.length_cons] at this ⊢
    exact this
  · intro l1 hl1
    rcases mem_replace (x := x) hl1 with rfl | ⟨-, hl⟩
    · exact le_refl _
    · exact Nat.le_succ_of_le (h.le_clock l1 hl)
  · intro l1 hl1 hv
    rcases mem_replace (x := x) hl1 with rfl | ⟨-, hl⟩
    · exact Nat.le_add_left 1 n
    · exact h.one_le l1 hl hv
  · rw [List.nodup_cons]
    exact ⟨fun hc => ((h.nodup.mem_erase_iff).mp hc).1 rfl, h.nodup.erase _⟩
  · show (x.tag :: m.erase x.tag).Perm (validTags (A ++ { x with order := n + 1 } :: B))
    rw [hvt]
    exact (List.perm_cons_erase hmem).symm.trans h.perm
  · show (x.tag :: m.erase x.tag).Pairwise (orderedBy (A ++ { x with order := n + 1 } :: B))
    rw [List.pairwise_cons]
    constructor
    · intro u hu l1 hl1 l2 hl2 v1 v2 t1 t2
      have hne : u ≠ x.tag := ((h.nodup.mem_erase_iff).mp hu).1
      have h2 : l2.order ≤ n := by
        rcases mem_replace (x := x) hl2 with rfl | ⟨-, hl⟩
        · exact absurd t2.symm hne
        · exact h.le_clock l2 hl
      rcases mem_replace (x := x) hl1 with rfl | ⟨hl, -⟩
      · exact Nat.lt_succ_of_le h2
      · exact absurd t1 (tag_ne_of_nodup hnd hx hl v1)
    · refine ((h.ordered.sublist (List.erase_sublist _ _)).imp_of_mem ?_)
      intro u v hu hv hord l1 hl1 l2 hl2 v1 v2 t1 t2
      have hu1 : u ≠ x.tag := ((h.nodup.mem_erase_iff).mp hu).1
      have hv1 : v ≠ x.tag := ((h.nodup.mem_erase_iff).mp hv).1
      rcases mem_replace (x := x) hl1 with rfl | ⟨-, hl1⟩
      · exact absurd t1.symm hu1
      · rcases mem_replace (x := x) hl2 with rfl | ⟨-, hl2⟩
        · exact absurd t2.symm hv1
        · exact hord l1 hl1 l2 hl2 v1 v2 t1 t2

/-- Line `x` receives a tag no valid line holds: the tag goes in front of
`m0`, the part of the list that survives. -/
theorem SetInv.insert {E n0 : Nat} {A B : List line_t} {x : line_t} {m m0 : List Nat}
    {n tag : Nat} (h : SetInv E ⟨n0, A ++ x :: B⟩ m n)
    (hno : ¬ holdsTag (A ++ x :: B) tag) (hsub : m0.Sublist m)
    (hperm : m0.Perm (validTags (A ++ B))) :
    SetInv E ⟨n + 1, A ++ { tag := tag, order := n + 1, valid := true } :: B⟩
      (tag :: m0) (n + 1) := by
  have hnotin : tag ∉ m := fun hc => hno ((h.mem_iff tag).mp hc)
  refine ⟨?_, rfl, ?_, ?_, ?_, ?_, ?_⟩
  · have := h.len
    simp only [List.length_append, List.length_cons] at this ⊢
    exact this
  · intro l1 hl1
    rcases mem_replace (x := x) hl1 with rfl | ⟨-, hl⟩
    · exact le_refl _
    · exact Nat.le_succ_of_le (h.le_clock l1 hl)
  · intro l1 hl1 hv
    rcases mem_replace (x := x) hl1 with rfl | ⟨-, hl⟩
    · exact Nat.le_add_left 1 n
    · exact h.one_le l1 hl hv
  · rw [List.nodup_cons]
    exact ⟨fun hc => hnotin (hsub.subset hc), h.nodup.sublist hsub⟩
  · show (tag :: m0).Perm
      (validTags (A ++ { tag := tag, order := n + 1, valid := true } :: B))
    rw [validTags_append, validTags_cons_valid _ _ rfl]
    refine List.Perm.trans ?_ List.perm_middle.symm
    rw [← validTags_append]
    exact hperm.cons tag
  · show (tag :: m0).Pairwise
      (orderedBy (A ++ { tag := tag, order := n + 1, valid := true } :: B))
    rw [List.pairwise_cons]
    constructor
    · intro u hu l1 hl1 l2 hl2 v1 v2 t1 t2
      have hne : u ≠ tag := fun hc => hnotin (hc ▸ hsub.subset hu)
      have h2 : l2.order ≤ n := by
        rcases mem_replace (x := x) hl2 with rfl | ⟨-, hl⟩
        · exact absurd t2.symm hne
        · exact h.le_clock l2 hl
      rcases mem_replace (x := x) hl1 with rfl | ⟨-, hl⟩
      · exact Nat.lt_succ_of_le h2
      · exact absurd ⟨l1, hl, v1, t1⟩ hno
    · refine ((h.ordered.sublist hsub).imp_of_mem ?_)
      intro u v hu hv hord l1 hl1 l2 hl2 v1 v2 t1 t2
      have hu1 : u ≠ tag := fun hc => hnotin (hc ▸ hsub.subset hu)
      have hv1 : v ≠ tag := fun hc => hnotin (hc ▸ hsub.subset hv)
      rcases mem_replace (x := x) hl1 with rfl | ⟨-, hl1⟩
      · exact absurd t1.symm hu1
      · rcases mem_replace (x := x) hl2 with rfl | ⟨-, hl2⟩
        · exact absurd t2.symm hv1
        · exact hord l1 hl1 l2 hl2 v1 v2 t1 t2

/-- A fill of the invalid line `x`: the tag is pushed in front. -/
theorem SetInv.fill {E n0 : Nat} {A B : List line_t} {x : line_t} {m : List Nat}
    {n tag : Nat} (h : SetInv E ⟨n0, A ++ x :: B⟩ m n) (hx : x.valid = false)
    (hno : ¬ holdsTag (A ++ x :: B) tag) :
    tag ∉ m ∧ m.length < E ∧
    SetInv E ⟨n + 1, A ++ { tag := tag, order := n + 1, valid := true } :: B⟩
      (tag :: m) (n + 1) := by
  refine ⟨fun hc => hno ((h.mem_iff tag).mp hc),
    h.length_lt_iff.mpr ⟨x, by simp, hx⟩, h.insert hno (List.Sublist.refl m) ?_⟩
  have := h.perm
  rw [validTags_append, validTags_cons_invalid _ _ hx, ← validTags_append] at this
  exact this

/-- An eviction of the valid line `x` of smallest recency in a full set: the
last tag of the list is dropped, the new one pushed in front. -/
theorem SetInv.evict {E n0 : Nat} {A B : List line_t} {x : line_t} {m : List Nat}
    {n tag : Nat} (h : SetInv E ⟨n0, A ++ x :: B⟩ m n)
    (hall : allValid (A ++ x :: B)) (hno : ¬ holdsTag (A ++ x :: B) tag)
    (hmin : ∀ l1 ∈ A ++ x :: B, x.order ≤ l1.order) :
    tag ∉ m ∧ ¬ m.length < E ∧ m.getLast? = some x.tag ∧
    SetInv E ⟨n + 1, A ++ { tag := tag, order := n + 1, valid := true } :: B⟩
      (tag :: m.dropLast) (n + 1) := by
  have hx : x.valid = true := hall x (by simp)
  have hxm : x.tag ∈ m := (h.mem_iff x.tag).mpr ⟨x, by simp, hx, rfl⟩
  have hne : m ≠ [] := List.ne_nil_of_mem hxm
  have hsplit : m.dropLast ++ [m.getLast hne] = m := List.dropLast_append_getLast hne
  have hlast : m.getLast hne = x.tag := by
    by_contra hcon
    obtain ⟨lw, hlw, hvw, htw⟩ := (h.mem_iff _).mp (List.getLast_mem hne)
    have hxd : x.tag ∈ m.dropLast := by
      have := hxm
      rw [← hsplit, List.mem_append, List.mem_singleton] at this
      rcases this with h1 | h1
      · exact h1
      · exact absurd h1.symm hcon
    have hp := h.ordered
    rw [← hsplit, List.pairwise_append] at hp
    have := hp.2.2 x.tag hxd (m.getLast hne) (by simp) x (by simp) lw hlw hx hvw rfl htw
    have := hmin lw hlw
    omega
  have hperm : m.dropLast.Perm (validTags (A ++ B)) := by
    have := h.perm
    rw [validTags_append, validTags_cons_valid _ _ hx, ← hsplit, hlast] at this
    have h2 : (x.tag :: m.dropLast).Perm (x.tag :: (validTags A ++ validTags B)) :=
      (List.perm_append_singleton x.tag m.dropLast).symm.trans
        (this.trans List.perm_middle)
    rw [validTags_append]
    exact h2.cons_inv
  refine ⟨fun hc => hno ((h.mem_iff tag).mp hc), ?_, ?_,
    h.insert hno (List.dropLast_sublist m) hperm⟩
  · rw [h.length_lt_iff]
    exact not_hasInvalid_of_allValid _ hall
  · rw [List.getLast?_eq_getLast _ hne, hlast]

theorem linesOf_eq (c : cache_t) (si : Nat) (hsi : si < c.sets.length) :
    linesOf c si = c.sets[si].lines := by
  simp [linesOf, List.getElem?_eq_getElem hsi]

theorem clockOf_eq (c : cache_t) (si : Nat) (hsi : si < c.sets.length) :
    clockOf c si = c.sets[si].most_recent_order := by
  simp [clockOf, List.getElem?_eq_getElem hsi]

theorem lineAt_eq (c : cache_t) (si k : Nat) (hk : k < (linesOf c si).length) :
    lineAt c si k = (linesOf c si)[k] := by
  unfold lineAt
  exact List.getD_eq_getElem _ _ hk

/-- One call of `cache` on a set that represents the list `m`, before the
clock can wrap: it returns the status of the abstract model and the new set
represents the new list. -/
theorem cache_set_step (c : cache_t) (si tag : Nat) (hsi : si < c.sets.length)
    (hE : 0 < c.lines_per_set)
    (m : List Nat) (n : Nat) (hinv : SetInv c.lines_per_set c.sets[si] m n)
    (hn : n + 1 < 2 ^ 32) :
    ∃ st1, cache c si tag =
        some ((lruAccess c.lines_per_set m tag).1, { c with sets := c.sets.set si st1 }) ∧
      SetInv c.lines_per_set st1 (lruAccess c.lines_per_set m tag).2 (n + 1) := by
  have hL := linesOf_eq c si hsi
  have hlen : (linesOf c si).length = c.lines_per_set := by rw [hL]; exact hinv.len
  have hclk : nextClock c si = n + 1 := by
    unfold nextClock
    rw [clockOf_eq c si hsi, hinv.clock]
    exact Nat.mod_eq_of_lt hn
  rcases cache_spec c si tag hsi hlen with
    ⟨k, hk, ⟨rfl, hm⟩, -, hc⟩ | ⟨hno, k, hk, hv, -, hc⟩ |
    ⟨hno, hall, k, hk, -, hmin, -, hc⟩ | ⟨hno, hall, hge, -⟩
  · -- hit
    have hk1 : k < (linesOf c si).length := by omega
    obtain ⟨A, B, hAB, -, hset⟩ := @List.exists_of_set line_t k
      ({ lineAt c si k with order := n + 1 } : line_t) (linesOf c si) hk1
    rw [← lineAt_eq c si k hk1] at hAB
    have hinv1 : SetInv c.lines_per_set ⟨c.sets[si].most_recent_order,
        A ++ lineAt c si k :: B⟩ m n := by
      rw [← hAB, hL]
      exact hinv
    obtain ⟨hmem, hnew⟩ := hinv1.hit hm
    refine ⟨⟨n + 1, (linesOf c si).set k { lineAt c si k with order := n + 1 }⟩, ?_, ?_⟩
    · rw [hc, hclk]
      simp only [lruAccess, if_pos hmem, touch]
    · simp only [lruAccess, if_pos hmem]
      rw [hset]
      exact hnew
  · -- fill
    have hk1 : k < (linesOf c si).length := by omega
    obtain ⟨A, B, hAB, -, hset⟩ := @List.exists_of_set line_t k
      ({ valid := true, tag := tag, order := n + 1 } : line_t) (linesOf c si) hk1
    rw [← lineAt_eq c si k hk1] at hAB
    have hinv1 : SetInv c.lines_per_set ⟨c.sets[si].most_recent_order,
        A ++ lineAt c si k :: B⟩ m n := by
      rw [← hAB, hL]
      exact hinv
    have hno1 : ¬ holdsTag (A ++ lineAt c si k :: B) tag := by
      rw [← hAB]
      exact (not_holdsTag_iff c si tag hlen).mpr hno
    obtain ⟨h1, h2, hnew⟩ := hinv1.fill hv hno1
    refine ⟨⟨n + 1, (linesOf c si).set k { valid := true, tag := tag, order := n + 1 }⟩,
      ?_, ?_⟩
    · rw [hc, hclk]
      simp only [lruAccess, if_neg h1, if_pos h2, touch]
    · simp only [lruAccess, if_neg h1, if_pos h2]
      rw [hset]
      exact hnew
  · -- eviction
    have hk1 : k < (linesOf c si).length := by omega
    obtain ⟨A, B, hAB, -, hset⟩ := @List.exists_of_set line_t k
      ({ valid := true, tag := tag, order := n + 1 } : line_t) (linesOf c si) hk1
    rw [← lineAt_eq c si k hk1] at hAB
    have hinv1 : SetInv c.lines_per_set ⟨c.sets[si].most_recent_order,
        A ++ lineAt c si k :: B⟩ m n := by
      rw [← hAB, hL]
      exact hinv
    have hno1 : ¬ holdsTag (A ++ lineAt c si k :: B) tag := by
      rw [← hAB]
      exact (not_holdsTag_iff c si tag hlen).mpr hno
    have hall1 : allValid (A ++ lineAt c si k :: B) := by
      rw [← hAB]
      exact (allValid_iff c si hlen).mpr hall
    have hmin1 : ∀ l1 ∈ A ++ lineAt c si k :: B, (lineAt c si k).order ≤ l1.order := by
      rw [← hAB]
      intro l1 hl1
      obtain ⟨j, hj, rfl⟩ := (mem_iff_getD _ _).mp hl1
      exact hmin j (by omega)
    obtain ⟨h1, h2, -, hnew⟩ := hinv1.evict hall1 hno1 hmin1
    refine ⟨⟨n + 1, (linesOf c si).set k { valid := true, tag := tag, order := n + 1 }⟩,
      ?_, ?_⟩
    · rw [hc, hclk]
      simp only [lruAccess, if_neg h1, if_neg h2, touch]
    · simp only [lruAccess, if_neg h1, if_neg h2]
      rw [hset]
      exact hnew
  · -- no victim: impossible, the recency of line 0 is at most the clock
    exfalso
    have h1 := hge 0 hE
    have h2 := hinv.le_clock (lineAt c si 0)
      (by rw [← hL]; exact (mem_iff_getD _ _).mpr ⟨0, by omega, rfl⟩)
    omega

theorem Sim.allocated {c : cache_t} {M : Nat → List Nat} {n : Nat → Nat}
    (h : Sim c M n) : c.allocated := by
  refine ⟨h.1, ?_⟩
  intro st hst
  obtain ⟨j, hj, rfl⟩ := List.mem_iff_getElem.mp hst
  exact (h.2 j hj).len

theorem Sim.step {c : cache_t} {M : Nat → List Nat} {n : Nat → Nat} (h : Sim c M n)
    (si tag : Nat) (hsi : si < c.set_number) (hE : 0 < c.lines_per_set)
    (hn : n si + 1 < 2 ^ 32) :
    ∃ c1, cache c si tag = some ((lruAccess c.lines_per_set (M si) tag).1, c1) ∧
      Sim c1 (Function.update M si (lruAccess c.lines_per_set (M si) tag).2)
        (Function.update n si (n si + 1)) ∧
      c1.set_number = c.set_number ∧ c1.lines_per_set = c.lines_per_set := by
  have h0 : si < c.sets.length := by rw [h.1]; exact hsi
  obtain ⟨st1, hc, hinv⟩ := cache_set_step c si tag h0 hE (M si) (n si) (h.2 si h0) hn
  refine ⟨_, hc, ⟨?_, ?_⟩, rfl, rfl⟩
  · simp only [List.length_set]
    exact h.1
  · intro j hj
    simp only [List.length_set] at hj
    simp only [List.get_eq_getElem, List.getElem_set]
    by_cases hji : si = j
    · subst hji
      simp only [if_true, Function.update_same]
      exact hinv
    · simp only [if_neg hji, Function.update_noteq (Ne.symm hji)]
      exact h.2 j hj

theorem Sim.run (E : Nat) (tr : List (Nat × Nat)) :
    ∀ (c : cache_t) (M : Nat → List Nat) (n : Nat → Nat), Sim c M n →
      c.lines_per_set = E → 0 < E → (∀ a ∈ tr, a.1 < c.set_number) →
      (∀ j, n j + tr.countP (fun a => decide (a.1 = j)) < 2 ^ 32) →
      ∃ c1, accesses c tr = some ((lruModel E M tr).1, c1) ∧
        Sim c1 (lruModel E M tr).2 (fun j => n j + tr.countP (fun a => decide (a.1 = j))) ∧
        c1.set_number = c.set_number ∧ c1.lines_per_set = E := by
  induction tr with
  | nil =>
    intro c M n h hE _ _ _
    exact ⟨c, rfl, by simpa [lruModel] using h, rfl, hE⟩
  | cons a tr ih =>
    intro c M n h hE hpos hidx hcnt
    have hsi : a.1 < c.set_number := hidx a (List.mem_cons_self _ _)
    have hn : n a.1 + 1 < 2 ^ 32 := by
      have := hcnt a.1
      rw [List.countP_cons_of_pos _ _ (by simp)] at this
      omega
    obtain ⟨c1, hc1, hsim1, hS1, hE1⟩ := h.step a.1 a.2 hsi (by omega) hn
    rw [hE] at hc1 hsim1 hE1
    have hcnt_eq : ∀ j, Function.update n a.1 (n a.1 + 1) j +
        tr.countP (fun x => decide (x.1 = j)) =
        n j + (a :: tr).countP (fun x => decide (x.1 = j)) := by
      intro j
      by_cases hj : a.1 = j
      · subst hj
        rw [Function.update_same, List.countP_cons_of_pos _ _ (by simp)]
        omega
      · rw [Function.update_noteq (Ne.symm hj), List.countP_cons_of_neg _ _ (by simpa using hj)]
    obtain ⟨c2, hc2, hsim2, hS2, hE2⟩ := ih c1 _ _ hsim1 hE1 hpos
      (fun x hx => by rw [hS1]; exact hidx x (List.mem_cons_of_mem _ hx))
      (fun j => by rw [hcnt_eq j]; exact hcnt j)
    refine ⟨c2, ?_, ?_, by rw [hS2, hS1], hE2⟩
    · simp only [accesses, hc1, hc2, lruModel]
    · simp only [lruModel]
      have : (fun j => n j + (a :: tr).countP (fun x => decide (x.1 = j))) =
          (fun j => Function.update n a.1 (n a.1 + 1) j +
            tr.countP (fun x => decide (x.1 = j))) := by
        funext j
        exact (hcnt_eq j).symm
      rw [this]
      exact hsim2

theorem validTags_replicate_invalid (E : Nat) (l : line_t) (h : l.valid = false) :
    validTags (List.replicate E l) = [] := by
  unfold validTags
  rw [List.map_eq_nil_iff, List.filter_eq_nil_iff]
  intro a ha
  rw [List.eq_of_mem_replicate ha, h]
  simp

theorem sim_createCache (s E b : Nat) :
    Sim (createCache s E b) (fun _ => []) (fun _ => 0) := by
  refine ⟨by simp [createCache], ?_⟩
  intro j hj
  have hget : (createCache s E b).sets.get ⟨j, hj⟩ =
      { most_recent_order := 0
        lines := List.replicate E { tag := 0, valid := false, order := 0 } } := by
    simp [createCache]
  rw [hget]
  refine ⟨by simp [createCache], rfl, ?_, ?_, List.nodup_nil, ?_, List.Pairwise.nil⟩
  · intro l hl
    rw [List.eq_of_mem_replicate hl]
  · intro l hl hv
    rw [List.eq_of_mem_replicate hl] at hv
    exact absurd hv (by simp)
  · show List.Perm [] (validTags (List.replicate E _))
    rw [validTags_replicate_invalid E _ rfl]

theorem linesOf_touch_same (c : cache_t) (si k clock : Nat) (l : line_t)
    (hsi : si < c.sets.length) :
    linesOf (touch c si k clock l) si = (linesOf c si).set k l := by
  simp [linesOf, touch, List.getElem?_set, hsi]

theorem clockOf_touch_same (c : cache_t) (si k clock : Nat) (l : line_t)
    (hsi : si < c.sets.length) :
    clockOf (touch c si k clock l) si = clock := by
  simp [clockOf, touch, List.getElem?_set, hsi]

theorem linesOf_touch_other (c : cache_t) (si sj k clock : Nat) (l : line_t)
    (h : si ≠ sj) :
    linesOf (touch c si k clock l) sj = linesOf c sj := by
  simp [linesOf, touch, List.getElem?_set, h]

theorem clockOf_touch_other (c : cache_t) (si sj k clock : Nat) (l : line_t)
    (h : si ≠ sj) :
    clockOf (touch c si k clock l) sj = clockOf c sj := by
  simp [clockOf, touch, List.getElem?_set, h]

theorem lineAt_touch_same (c : cache_t) (si k clock : Nat) (l : line_t)
    (hsi : si < c.sets.length) (hk : k < (linesOf c si).length) :
    lineAt (touch c si k clock l) si k = l := by
  unfold lineAt
  rw [linesOf_touch_same c si k clock l hsi]
  simp [List.getElem?_set, hk]

theorem lineAt_touch_ne (c : cache_t) (si k j clock : Nat) (l : line_t)
    (hsi : si < c.sets.length) (hj : k ≠ j) :
    lineAt (touch c si k clock l) si j = lineAt c si j := by
  unfold lineAt
  rw [linesOf_touch_same c si k clock l hsi]
  simp [List.getElem?_set, hj]

theorem touch_allocated (c : cache_t) (si k clock : Nat) (l : line_t)
    (hc : c.allocated) (hsi : si < c.sets.length) :
    (touch c si k clock l).allocated := by
  have hlen : (linesOf c si).length = c.lines_per_set := by
    rw [linesOf_eq c si hsi]
    exact hc.2 _ (List.getElem_mem hsi)
  refine ⟨by simpa [touch] using hc.1, ?_⟩
  intro st hst
  rcases List.mem_or_eq_of_mem_set hst with h | h
  · exact hc.2 st h
  · rw [h]
    simpa using hlen

/-- Every call of `cache` that returns wrote one line `k < E` of the target
set: the line is then valid, holds the tag and carries the new clock
value. -/
theorem cache_result (c : cache_t) (si tag : Nat) (hsi : si < c.sets.length)
    (hlen : (linesOf c si).length = c.lines_per_set) (status : status_t) (c1 : cache_t)
    (h : cache c si tag = some (status, c1)) :
    ∃ k l, k < c.lines_per_set ∧ c1 = touch c si k (nextClock c si) l ∧
      l.valid = true ∧ l.tag = tag ∧ l.order = nextClock c si := by
  rcases cache_spec c si tag hsi hlen with
    ⟨k, hk, hm, -, hc⟩ | ⟨-, k, hk, -, -, hc⟩ | ⟨-, -, k, hk, -, -, -, hc⟩ | ⟨-, -, -, hc⟩
  · rw [hc] at h
    cases h
    exact ⟨k, _, hk, rfl, hm.2, hm.1, rfl⟩
  · rw [hc] at h
    cases h
    exact ⟨k, _, hk, rfl, rfl, rfl, rfl⟩
  · rw [hc] at h
    cases h
    exact ⟨k, _, hk, rfl, rfl, rfl, rfl⟩
  · rw [hc] at h
    cases h

theorem cache_allocated (c : cache_t) (hc : c.allocated) (si tag : Nat)
    (status : status_t) (c1 : cache_t) (h : cache c si tag = some (status, c1)) :
    c1.allocated ∧ c1.set_number = c.set_number ∧ c1.lines_per_set = c.lines_per_set ∧
      si < c.set_number := by
  have hsi : si < c.sets.length := by
    by_contra hcon
    have hnone : c.sets[si]? = none := List.getElem?_eq_none (by omega)
    have hs : ∀ (li : Int) (clock : Nat) (f : line_t → line_t),
        storeLine c si li clock f = none := by
      intro li clock f
      simp [storeLine, hnone]
    unfold cache at h
    simp only [hs, Option.map_none'] at h
    split at h
    · split at h
      · split at h <;> cases h
      · cases h
    · cases h
  have hlen : (linesOf c si).length = c.lines_per_set := by
    rw [linesOf_eq c si hsi]
    exact hc.2 _ (List.getElem_mem hsi)
  obtain ⟨k, l, -, rfl, -⟩ := cache_result c si tag hsi hlen status c1 h
  exact ⟨touch_allocated c si k _ l hc hsi, rfl, rfl, by rw [← hc.1]; exact hsi⟩

theorem accesses_allocated (tr : List (Nat × Nat)) :
    ∀ (c : cache_t) (out : List status_t) (c1 : cache_t), c.allocated →
      accesses c tr = some (out, c1) →
      c1.allocated ∧ c1.set_number = c.set_number ∧ c1.lines_per_set = c.lines_per_set := by
  induction tr with
  | nil =>
    intro c out c1 hc h
    simp only [accesses, Option.some.injEq, Prod.mk.injEq] at h
    rw [← h.2]
    exact ⟨hc, rfl, rfl⟩
  | cons a tr ih =>
    intro c out c1 hc h
    simp only [accesses] at h
    split at h
    · cases h
    · rename_i status c2 hstep
      split at h
      · cases h
      · rename_i out2 c3 hrest
        simp only [Option.some.injEq, Prod.mk.injEq] at h
        obtain ⟨h1, h2, h3, -⟩ := cache_allocated c hc a.1 a.2 status c2 hstep
        obtain ⟨g1, g2, g3⟩ := ih c2 out2 c3 h1 hrest
        rw [← h.2]
        exact ⟨g1, by rw [g2, h2], by rw [g3, h3]⟩

theorem createCache_allocated (s E b : Nat) : (createCache s E b).allocated :=
  (sim_createCache s E b).allocated

/-- The state reached from a fresh cache by a sequence of accesses in which
no set is accessed `2 ^ 32` times or more represents the lists of the
abstract model, and the clock of each set counts the accesses to it. -/
theorem reach_sim (s E b : Nat) (tr : List (Nat × Nat)) (hE : 1 ≤ E)
    (hidx : ∀ a ∈ tr, a.1 < (createCache s E b).set_number)
    (hcnt : ∀ j, tr.countP (fun a => decide (a.1 = j)) < 2 ^ 32) :
    ∃ c, accesses (createCache s E b) tr = some ((lruModel E (fun _ => []) tr).1, c) ∧
      Sim c (lruModel E (fun _ => []) tr).2
        (fun j => tr.countP (fun a => decide (a.1 = j))) ∧
      c.set_number = (createCache s E b).set_number ∧ c.lines_per_set = E := by
  obtain ⟨c, h1, h2, h3, h4⟩ := Sim.run E tr (createCache s E b) (fun _ => []) (fun _ => 0)
    (sim_createCache s E b) rfl hE hidx (fun j => by simpa using hcnt j)
  refine ⟨c, h1, ?_, h3, h4⟩
  simpa using h2

theorem lowMask32_eq (s : Nat) (hs : s ≤ 30) : sext64 (lowMask32 s) = 2 ^ s - 1 := by
  interval_cases s <;> rfl

theorem parseAddressInfo_set_index (c : cache_t) (address : Nat) (hs : c.set_bits ≤ 30) :
    (parseAddressInfo c address).1 = (address / 2 ^ c.block_bits) % 2 ^ c.set_bits := by
  have hlt : 2 ^ c.set_bits < 2 ^ 32 := Nat.pow_lt_pow_right (by norm_num) (by omega)
  simp only [parseAddressInfo]
  rw [lowMask32_eq _ hs, Nat.and_pow_two_sub_one_eq_mod, Nat.shiftRight_eq_div_pow]
  apply Nat.mod_eq_of_lt
  exact lt_trans (Nat.mod_lt _ (by positivity)) hlt

theorem parseAddressInfo_tag (c : cache_t) (address : Nat)
    (hsb : c.set_bits + c.block_bits < 64) :
    (parseAddressInfo c address).2 =
      (address / 2 ^ (c.set_bits + c.block_bits)) % 2 ^ 32 := by
  simp only [parseAddressInfo]
  rw [Nat.mod_eq_of_lt (show c.set_bits + c.block_bits < 2 ^ 32 by omega),
    Nat.shiftRight_eq_div_pow]

theorem cache_bits (c : cache_t) (hc : c.allocated) (si tag : Nat)
    (status : status_t) (c1 : cache_t) (h : cache c si tag = some (status, c1)) :
    c1.set_bits = c.set_bits ∧ c1.block_bits = c.block_bits := by
  obtain ⟨-, -, -, hsi⟩ := cache_allocated c hc si tag status c1 h
  obtain ⟨h0, hlen⟩ := allocated_lines c hc si hsi
  obtain ⟨k, l, -, rfl, -⟩ := cache_result c si tag h0 hlen status c1 h
  exact ⟨rfl, rfl⟩

theorem accesses_bits (tr : List (Nat × Nat)) :
    ∀ (c : cache_t) (out : List status_t) (c1 : cache_t), c.allocated →
      accesses c tr = some (out, c1) →
      c1.set_bits = c.set_bits ∧ c1.block_bits = c.block_bits := by
  induction tr with
  | nil =>
    intro c out c1 _ h
    simp only [accesses, Option.some.injEq, Prod.mk.injEq] at h
    rw [← h.2]
    exact ⟨rfl, rfl⟩
  | cons a tr ih =>
    intro c out c1 hc h
    simp only [accesses] at h
    split at h
    · cases h
    · rename_i status c2 hstep
      split at h
      · cases h
      · rename_i out2 c3 hrest
        simp only [Option.some.injEq, Prod.mk.injEq] at h
        obtain ⟨h1, -⟩ := cache_allocated c hc a.1 a.2 status c2 hstep
        obtain ⟨h2, h3⟩ := cache_bits c hc a.1 a.2 status c2 hstep
        obtain ⟨g2, g3⟩ := ih c2 out2 c3 h1 hrest
        rw [← h.2]
        exact ⟨by rw [g2, h2], by rw [g3, h3]⟩

theorem cache_hitState (n : Nat) :
    cache (hitState n) 0 0 = some (status_t.HIT, hitState (n + 1)) := by
  have hmod : (n % 2 ^ 32 + 1) % 2 ^ 32 = (n + 1) % 2 ^ 32 := by omega
  simp [cache, isLineExist, isLineExist.loop, linesOf, clockOf, hitState, storeLine,
    NOT_FOUND, line_t.zero, hmod]

theorem accesses_hitState (k : Nat) :
    ∀ n, accesses (hitState n) (List.replicate k (0, 0)) =
      some (List.replicate k status_t.HIT, hitState (n + k)) := by
  induction k with
  | zero =>
    intro n
    rfl
  | succ k ih =>
    intro n
    simp only [List.replicate_succ, accesses, cache_hitState, ih]
    rw [show n + 1 + k = n + (k + 1) by omega]

theorem accesses_fresh_hits (k : Nat) :
    accesses (createCache 0 1 0) (List.replicate (k + 1) (0, 0)) =
      some (status_t.MISS :: List.replicate k status_t.HIT, hitState (1 + k)) := by
  have h1 : cache (createCache 0 1 0) 0 0 = some (status_t.MISS, hitState 1) := by decide
  simp only [List.replicate_succ, accesses, h1, accesses_hitState]

/-! ## The value `cache` returns -/

/-- The results of the two scans in terms of the lines of the target set. -/
theorem scans_spec (c : cache_t) (si tag : Nat)
    (hlen : (linesOf c si).length = c.lines_per_set) :
    (holdsTag (linesOf c si) tag ∧ isLineExist c si tag ≠ NOT_FOUND) ∨
    (¬ holdsTag (linesOf c si) tag ∧ hasInvalid (linesOf c si) ∧
      isLineExist c si tag = NOT_FOUND ∧ findEmptyLine c si ≠ NOT_FOUND) ∨
    (¬ holdsTag (linesOf c si) tag ∧ allValid (linesOf c si) ∧
      isLineExist c si tag = NOT_FOUND ∧ findEmptyLine c si = NOT_FOUND) := by
  rcases firstIdx_spec (fun j => decide ((lineAt c si j).tag = tag ∧
      (lineAt c si j).valid = true)) c.lines_per_set 0 with ⟨h1, h2⟩ | ⟨k, -, h2, h3, h4, -⟩
  · have hnf : isLineExist c si tag = NOT_FOUND := by
      rw [isLineExist, isLineExist_loop_eq]
      exact h1
    have hno : ¬ holdsTag (linesOf c si) tag := by
      rw [not_holdsTag_iff c si tag hlen]
      intro j hj
      have := h2 j (Nat.zero_le _) (by omega)
      simpa using this
    right
    rcases firstIdx_spec (fun j => decide ((lineAt c si j).valid = false))
        c.lines_per_set 0 with ⟨e1, e2⟩ | ⟨k, -, e2, e3, e4, -⟩
    · right
      refine ⟨hno, ?_, hnf, ?_⟩
      · rw [allValid_iff c si hlen]
        intro j hj
        have := e2 j (Nat.zero_le _) (by omega)
        simpa using this
      · rw [findEmptyLine, findEmptyLine_loop_eq]
        exact e1
    · left
      refine ⟨hno, ?_, hnf, ?_⟩
      · rw [hasInvalid_iff c si hlen]
        exact ⟨k, by omega, by simpa using e4⟩
      · rw [findEmptyLine, findEmptyLine_loop_eq]
        have e5 : firstIdx (fun j => decide ((lineAt c si j).valid = false))
            c.lines_per_set 0 = (k : Int) := e3
        show firstIdx (fun j => decide ((lineAt c si j).valid = false))
            c.lines_per_set 0 ≠ NOT_FOUND
        rw [e5]
        exact natCast_ne_NOT_FOUND k
  · left
    refine ⟨?_, ?_⟩
    · rw [holdsTag_iff c si tag hlen]
      exact ⟨k, by omega, by simpa using h4⟩
    · rw [isLineExist, isLineExist_loop_eq]
      have h5 : firstIdx (fun j => decide ((lineAt c si j).tag = tag ∧
          (lineAt c si j).valid = true)) c.lines_per_set 0 = (k : Int) := h3
      show firstIdx (fun j => decide ((lineAt c si j).tag = tag ∧
          (lineAt c si j).valid = true)) c.lines_per_set 0 ≠ NOT_FOUND
      rw [h5]
      exact natCast_ne_NOT_FOUND k

/-- The returned value in terms of the lines of the target set. -/
theorem status_cases (c : cache_t) (si tag : Nat)
    (hlen : (linesOf c si).length = c.lines_per_set) :
    (holdsTag (linesOf c si) tag ∧ cache.status c si tag = status_t.HIT) ∨
    (¬ holdsTag (linesOf c si) tag ∧ hasInvalid (linesOf c si) ∧
      cache.status c si tag = status_t.MISS) ∨
    (¬ holdsTag (linesOf c si) tag ∧ allValid (linesOf c si) ∧
      cache.status c si tag = status_t.MISS_AND_REPLACE) := by
  rcases scans_spec c si tag hlen with ⟨h1, h2⟩ | ⟨h1, h2, h3, h4⟩ | ⟨h1, h2, h3, h4⟩
  · exact Or.inl ⟨h1, by simp only [cache.status, if_neg h2]⟩
  · exact Or.inr (Or.inl ⟨h1, h2, by simp only [cache.status, if_pos h3, if_neg h4]⟩)
  · exact Or.inr (Or.inr ⟨h1, h2, by simp only [cache.status, if_pos h3, if_pos h4]⟩)

/-- Whenever the call has a result in the model, its status is the returned
value `cache.status`. -/
theorem cache_returns_status (c : cache_t) (si tag : Nat) (status : status_t) (c1 : cache_t)
    (h : cache c si tag = some (status, c1)) : status = cache.status c si tag := by
  unfold cache at h
  unfold cache.status
  by_cases h1 : isLineExist c si tag = NOT_FOUND
  · rw [if_pos h1] at h
    rw [if_pos h1]
    by_cases h2 : findEmptyLine c si = NOT_FOUND
    · rw [if_pos h2] at h
      rw [if_pos h2]
      split at h
      · cases h
      · simp only [Option.map_eq_some', Prod.mk.injEq] at h
        obtain ⟨_, -, h3, -⟩ := h
        exact h3.symm
    · rw [if_neg h2] at h
      rw [if_neg h2]
      simp only [Option.map_eq_some', Prod.mk.injEq] at h
      obtain ⟨_, -, h3, -⟩ := h
      exact h3.symm
  · rw [if_neg h1] at h
    rw [if_neg h1]
    simp only [Option.map_eq_some', Prod.mk.injEq] at h
    obtain ⟨_, -, h3, -⟩ := h
    exact h3.symm

/-- The scan of `findVictimLine` assigns no index when no line has a recency
below the incremented clock. -/
theorem findVictimLine_none_of (c : cache_t) (si : Nat)
    (h : ∀ j, j < c.lines_per_set → nextClock c si ≤ (lineAt c si j).order) :
    findVictimLine c si = none := by
  rcases findVictimLine_loop_spec (linesOf c si) c.lines_per_set 0
      ((clockOf c si + 1) % 2 ^ 32) none with ⟨h1, -⟩ | ⟨k, -, hk, -, hlt, -⟩
  · exact h1
  · have := h k (by omega)
    unfold lineAt nextClock at this
    omega

/-- A call on a well-formed cache has a result in the model, with the
returned value `cache.status`, unless the set is full, no valid line holds
the tag and the scan of `findVictimLine` assigns no index. -/
theorem cache_total_or (c : cache_t) (hc : c.allocated) (si tag : Nat)
    (hsi : si < c.set_number) :
    (∃ c1, cache c si tag = some (cache.status c si tag, c1)) ∨
    (cache.status c si tag = status_t.MISS_AND_REPLACE ∧
      ¬ holdsTag (linesOf c si) tag ∧ allValid (linesOf c si) ∧
      (∀ j, j < c.lines_per_set → nextClock c si ≤ (lineAt c si j).order) ∧
      findVictimLine c si = none ∧ cache c si tag = none) := by
  obtain ⟨h0, hlen⟩ := allocated_lines c hc si hsi
  rcases cache_spec c si tag h0 hlen with
    ⟨k, -, -, -, hc1⟩ | ⟨-, k, -, -, -, hc1⟩ | ⟨-, -, k, -, -, -, -, hc1⟩ |
    ⟨hno, hall, hge, hc1⟩
  · exact Or.inl ⟨_, by rw [← cache_returns_status c si tag _ _ hc1]; exact hc1⟩
  · exact Or.inl ⟨_, by rw [← cache_returns_status c si tag _ _ hc1]; exact hc1⟩
  · exact Or.inl ⟨_, by rw [← cache_returns_status c si tag _ _ hc1]; exact hc1⟩
  · right
    have hn : ¬ holdsTag (linesOf c si) tag := (not_holdsTag_iff c si tag hlen).mpr hno
    have ha : allValid (linesOf c si) := (allValid_iff c si hlen).mpr hall
    have hst : cache.status c si tag = status_t.MISS_AND_REPLACE := by
      rcases status_cases c si tag hlen with ⟨g1, -⟩ | ⟨-, g2, -⟩ | ⟨-, -, g3⟩
      · exact absurd g1 hn
      · exact absurd g2 (not_hasInvalid_of_allValid _ ha)
      · exact g3
    exact ⟨hst, hn, ha, hge, findVictimLine_none_of c si hge, hc1⟩

/-! ## Claim C1 -/

/-- C1: for every well-formed cache (any `E`, in particular `E ≥ 1`), every
`set_index < S` and every tag, the value `cache` returns is `HIT` iff some
valid line of the target set holds the tag; it is `MISS` iff no valid line
holds the tag and at least one line of the set is invalid; and it is
`MISS_AND_REPLACE` iff no valid line holds the tag and every line of the set
is valid.  Whenever the call has a result in the model its status is that
value, and it has one unless the value is `MISS_AND_REPLACE` and the scan of
`findVictimLine` assigned no index. -/
theorem C1_status_iff (c : cache_t) (hc : c.allocated) (set_index tag : Nat)
    (hsi : set_index < c.set_number) :
    (cache.status c set_index tag = status_t.HIT ↔ holdsTag (linesOf c set_index) tag) ∧
    (cache.status c set_index tag = status_t.MISS ↔
      (¬ holdsTag (linesOf c set_index) tag ∧ hasInvalid (linesOf c set_index))) ∧
    (cache.status c set_index tag = status_t.MISS_AND_REPLACE ↔
      (¬ holdsTag (linesOf c set_index) tag ∧ allValid (linesOf c set_index))) ∧
    (∀ status c1, cache c set_index tag = some (status, c1) →
      status = cache.status c set_index tag) ∧
    ((∃ c1, cache c set_index tag = some (cache.status c set_index tag, c1)) ∨
      (cache.status c set_index tag = status_t.MISS_AND_REPLACE ∧
        findVictimLine c set_index = none)) := by
  obtain ⟨-, hlen⟩ := allocated_lines c hc set_index hsi
  refine ⟨?_, ?_, ?_, fun status c1 h => cache_returns_status c set_index tag status c1 h, ?_⟩
  · rcases status_cases c set_index tag hlen with ⟨g1, g2⟩ | ⟨g1, -, g2⟩ | ⟨g1, -, g2⟩
    · exact ⟨fun _ => g1, fun _ => g2⟩
    · rw [g2]
      exact ⟨fun h => (by cases h), fun h => absurd h g1⟩
    · rw [g2]
      exact ⟨fun h => (by cases h), fun h => absurd h g1⟩
  · rcases status_cases c set_index tag hlen with ⟨g1, g2⟩ | ⟨g1, g3, g2⟩ | ⟨g1, g3, g2⟩
    · rw [g2]
      exact ⟨fun h => (by cases h), fun h => absurd g1 h.1⟩
    · exact ⟨fun _ => ⟨g1, g3⟩, fun _ => g2⟩
    · rw [g2]
      exact ⟨fun h => (by cases h), fun h => absurd h.2 (not_hasInvalid_of_allValid _ g3)⟩
  · rcases status_cases c set_index tag hlen with ⟨g1, g2⟩ | ⟨g1, g3, g2⟩ | ⟨g1, g3, g2⟩
    · rw [g2]
      exact ⟨fun h => (by cases h), fun h => absurd g1 h.1⟩
    · rw [g2]
      exact ⟨fun h => (by cases h), fun h => absurd g3 (not_hasInvalid_of_allValid _ h.2)⟩
    · exact ⟨fun _ => ⟨g1, g3⟩, fun _ => g2⟩
  · rcases cache_total_or c hc set_index tag hsi with h | ⟨h1, -, -, -, h2, -⟩
    · exact Or.inl h
    · exact Or.inr ⟨h1, h2⟩

/-- Witness for C1: the cache `wrappedCache` (`E = 1`, one valid line with
tag `0`, clock `2 ^ 32 - 1`), set `0`, tag `1`. -/
theorem C1_status_iff_witness :
    (cache.status wrappedCache 0 1 = status_t.HIT ↔ holdsTag (linesOf wrappedCache 0) 1) ∧
    (cache.status wrappedCache 0 1 = status_t.MISS ↔
      (¬ holdsTag (linesOf wrappedCache 0) 1 ∧ hasInvalid (linesOf wrappedCache 0))) ∧
    (cache.status wrappedCache 0 1 = status_t.MISS_AND_REPLACE ↔
      (¬ holdsTag (linesOf wrappedCache 0) 1 ∧ allValid (linesOf wrappedCache 0))) ∧
    (∀ status c1, cache wrappedCache 0 1 = some (status, c1) →
      status = cache.status wrappedCache 0 1) ∧
    ((∃ c1, cache wrappedCache 0 1 = some (cache.status wrappedCache 0 1, c1)) ∨
      (cache.status wrappedCache 0 1 = status_t.MISS_AND_REPLACE ∧
        findVictimLine wrappedCache 0 = none)) :=
  C1_status_iff wrappedCache ⟨rfl, by decide⟩ 0 1 (by decide)

/-! ## Claim C2 -/

/-- C2: in every state `c` reached from `createCache s E b` (`E ≥ 1`) by
accesses with `set_index < S`, fewer than `2 ^ 32 - 1` of them per set, when
`cache` returns `MISS_AND_REPLACE` the line `k` it overwrites is a valid line
of the target set whose recency is the smallest of the set (every line of
the set is valid), with a strictly smaller recency than every line of lower
index; afterwards line `k` holds the new tag, is valid and its recency is
the new clock of the set, which is the old clock plus one, and no other
line of the set changed. -/
theorem C2_eviction_victim (s E b : Nat) (tr : List (Nat × Nat)) (out : List status_t)
    (c : cache_t) (hE : 1 ≤ E)
    (hidx : ∀ a ∈ tr, a.1 < (createCache s E b).set_number)
    (hcnt : ∀ j, tr.countP (fun a => decide (a.1 = j)) < 2 ^ 32 - 1)
    (hrun : accesses (createCache s E b) tr = some (out, c))
    (set_index tag : Nat) (hsi : set_index < c.set_number) (c1 : cache_t)
    (hev : cache c set_index tag = some (status_t.MISS_AND_REPLACE, c1)) :
    ∃ k, k < E ∧
      (∀ j, j < E → (lineAt c set_index j).valid = true ∧
        (lineAt c set_index k).order ≤ (lineAt c set_index j).order) ∧
      (∀ j, j < k → (lineAt c set_index k).order < (lineAt c set_index j).order) ∧
      linesOf c1 set_index = (linesOf c set_index).set k
        { tag := tag, order := clockOf c1 set_index, valid := true } ∧
      lineAt c1 set_index k =
        { tag := tag, order := clockOf c1 set_index, valid := true } ∧
      clockOf c1 set_index = clockOf c set_index + 1 := by
  obtain ⟨c0, h1, hsim, -, hEc⟩ := reach_sim s E b tr hE hidx
    (fun j => by have := hcnt j; omega)
  rw [hrun] at h1
  obtain rfl : c = c0 := by
    simp only [Option.some.injEq, Prod.mk.injEq] at h1
    exact h1.2
  obtain ⟨h0, hlen⟩ := allocated_lines c hsim.allocated set_index hsi
  have hclk : nextClock c set_index = clockOf c set_index + 1 := by
    unfold nextClock
    apply Nat.mod_eq_of_lt
    rw [clockOf_eq c set_index h0]
    have h2 := (hsim.2 set_index h0).clock
    simp only [List.get_eq_getElem] at h2
    rw [h2]
    have := hcnt set_index
    omega
  rcases cache_spec c set_index tag h0 hlen with
    ⟨k, -, -, -, hc⟩ | ⟨-, k, -, -, -, hc⟩ | ⟨-, hall, k, hk, -, hmin, hfirst, hc⟩ |
    ⟨-, -, -, hc⟩
  · rw [hc] at hev
    cases hev
  · rw [hc] at hev
    cases hev
  · rw [hc] at hev
    simp only [Option.some.injEq, Prod.mk.injEq, true_and] at hev
    subst hev
    have hk1 : k < (linesOf c set_index).length := by omega
    rw [clockOf_touch_same c set_index k _ _ h0, linesOf_touch_same c set_index k _ _ h0]
    rw [hEc] at hk hall hmin
    exact ⟨k, hk, fun j hj => ⟨hall j hj, hmin j hj⟩, hfirst, rfl,
      lineAt_touch_same c set_index k _ _ h0 hk1, hclk⟩
  · rw [hc] at hev
    cases hev

/-- Witness for C2: `s = 0`, `E = 1`, `b = 0`; after one access with tag `1`
the access with tag `2` evicts line `0`. -/
theorem C2_eviction_victim_witness :
    ∃ k, k < 1 ∧
      (∀ j, j < 1 → (lineAt (touch (createCache 0 1 0) 0 0 1 ⟨1, 1, true⟩) 0 j).valid = true ∧
        (lineAt (touch (createCache 0 1 0) 0 0 1 ⟨1, 1, true⟩) 0 k).order ≤
          (lineAt (touch (createCache 0 1 0) 0 0 1 ⟨1, 1, true⟩) 0 j).order) ∧
      (∀ j, j < k → (lineAt (touch (createCache 0 1 0) 0 0 1 ⟨1, 1, true⟩) 0 k).order <
        (lineAt (touch (createCache 0 1 0) 0 0 1 ⟨1, 1, true⟩) 0 j).order) ∧
      linesOf (touch (touch (createCache 0 1 0) 0 0 1 ⟨1, 1, true⟩) 0 0 2 ⟨2, 2, true⟩) 0 =
        (linesOf (touch (createCache 0 1 0) 0 0 1 ⟨1, 1, true⟩) 0).set k
          { tag := 2,
            order := clockOf (touch (touch (createCache 0 1 0) 0 0 1 ⟨1, 1, true⟩)
              0 0 2 ⟨2, 2, true⟩) 0,
            valid := true } ∧
      lineAt (touch (touch (createCache 0 1 0) 0 0 1 ⟨1, 1, true⟩) 0 0 2 ⟨2, 2, true⟩) 0 k =
        { tag := 2,
          order := clockOf (touch (touch (createCache 0 1 0) 0 0 1 ⟨1, 1, true⟩)
            0 0 2 ⟨2, 2, true⟩) 0,
          valid := true } ∧
      clockOf (touch (touch (createCache 0 1 0) 0 0 1 ⟨1, 1, true⟩) 0 0 2 ⟨2, 2, true⟩) 0 =
        clockOf (touch (createCache 0 1 0) 0 0 1 ⟨1, 1, true⟩) 0 + 1 :=
  C2_eviction_victim 0 1 0 [(0, 1)] [status_t.MISS]
    (touch (createCache 0 1 0) 0 0 1 ⟨1, 1, true⟩) (by decide) (by decide)
    (fun _ => lt_of_le_of_lt (List.countP_le_length _) (by decide)) (by decide) 0 2
    (by decide)
    (touch (touch (createCache 0 1 0) 0 0 1 ⟨1, 1, true⟩) 0 0 2 ⟨2, 2, true⟩) (by decide)

/-! ## Claim C3 -/

/-- C3: the cache implements true LRU.  For every `E ≥ 1` and every sequence
`tr` of `(set_index, tag)` accesses with `set_index < S` and fewer than
`2 ^ 32 - 1` accesses, after every step (every prefix `tr.take k`) the run of
`cache` on a fresh cache returns, and its outcomes are those of the abstract
most-recent-first model `lruModel`; the tags held by the valid lines of each
set are exactly the tags of the model's list of that set. -/
theorem C3_lru_refinement (s E b : Nat) (tr : List (Nat × Nat)) (hE : 1 ≤ E)
    (hidx : ∀ a ∈ tr, a.1 < (createCache s E b).set_number)
    (hlen : tr.length < 2 ^ 32 - 1) (k : Nat) :
    ∃ c, accesses (createCache s E b) (tr.take k) =
        some ((lruModel E (fun _ => []) (tr.take k)).1, c) ∧
      ∀ j, j < (createCache s E b).set_number → ∀ t,
        holdsTag (linesOf c j) t ↔ t ∈ (lruModel E (fun _ => []) (tr.take k)).2 j := by
  have hcnt : ∀ j, (tr.take k).countP (fun a => decide (a.1 = j)) < 2 ^ 32 := by
    intro j
    have h1 := List.countP_le_length (fun a : Nat × Nat => decide (a.1 = j)) (l := tr.take k)
    have h2 : (tr.take k).length ≤ tr.length := by
      rw [List.length_take]
      exact Nat.min_le_right _ _
    omega
  obtain ⟨c, h1, hsim, hS, -⟩ := reach_sim s E b (tr.take k) hE
    (fun a ha => hidx a (List.mem_of_mem_take ha)) hcnt
  refine ⟨c, h1, ?_⟩
  intro j hj t
  have h0 : j < c.sets.length := by rw [hsim.1, hS]; exact hj
  rw [linesOf_eq c j h0]
  exact ((hsim.2 j h0).mem_iff t).symm

/-- Witness for C3: `s = 1`, `E = 2`, `b = 0` and six accesses, two of them
to set `0`, four to set `1`. -/
theorem C3_lru_refinement_witness :
    ∃ c, accesses (createCache 1 2 0)
        ([(1, 7), (0, 3), (1, 8), (1, 7), (1, 9), (0, 3)].take 6) =
        some ((lruModel 2 (fun _ => [])
          ([(1, 7), (0, 3), (1, 8), (1, 7), (1, 9), (0, 3)].take 6)).1, c) ∧
      ∀ j, j < (createCache 1 2 0).set_number → ∀ t,
        holdsTag (linesOf c j) t ↔
          t ∈ (lruModel 2 (fun _ => [])
            ([(1, 7), (0, 3), (1, 8), (1, 7), (1, 9), (0, 3)].take 6)).2 j :=
  C3_lru_refinement 1 2 0 [(1, 7), (0, 3), (1, 8), (1, 7), (1, 9), (0, 3)] (by decide)
    (by decide) (by decide) 6

/-! ## Claim C4 -/

/-- C4: on a fresh cache with `E = 2`, for every `s`, `b`, every
`set_index < S` and pairwise distinct tags `A`, `B`, `C`, the accesses
`A, B, A, C` to that set return `MISS, MISS, HIT, MISS_AND_REPLACE`;
afterwards the valid lines of the set hold exactly the tags `A` and `C`
(`B` was evicted) and a further access to `A` returns `HIT`. -/
theorem C4_lru_scenario (s b set_index A B C : Nat)
    (hsi : set_index < (createCache s 2 b).set_number)
    (hAB : A ≠ B) (hAC : A ≠ C) (hBC : B ≠ C) :
    ∃ c, accesses (createCache s 2 b)
        [(set_index, A), (set_index, B), (set_index, A), (set_index, C)] =
        some ([status_t.MISS, status_t.MISS, status_t.HIT, status_t.MISS_AND_REPLACE], c) ∧
      (∀ t, holdsTag (linesOf c set_index) t ↔ (t = A ∨ t = C)) ∧
      ∃ c1, cache c set_index A = some (status_t.HIT, c1) := by
  have hcnt : ∀ j, [(set_index, A), (set_index, B), (set_index, A),
      (set_index, C)].countP (fun a => decide (a.1 = j)) < 2 ^ 32 :=
    fun j => lt_of_le_of_lt (List.countP_le_length _) (by simp)
  obtain ⟨c, h1, hsim, hS, hEc⟩ := reach_sim s 2 b
    [(set_index, A), (set_index, B), (set_index, A), (set_index, C)] (by decide)
    (by
      intro a ha
      simp only [List.mem_cons, List.mem_singleton, List.not_mem_nil, or_false] at ha
      rcases ha with rfl | rfl | rfl | rfl <;> exact hsi) hcnt
  have hmodel : lruModel 2 (fun _ => [])
      [(set_index, A), (set_index, B), (set_index, A), (set_index, C)] =
      ([status_t.MISS, status_t.MISS, status_t.HIT, status_t.MISS_AND_REPLACE],
        Function.update (Function.update (Function.update (Function.update
          (fun _ => []) set_index [A]) set_index [B, A]) set_index [A, B])
          set_index [C, A]) := by
    simp [lruModel, lruAccess, hAB, hAC, hBC, Ne.symm hAB, Ne.symm hAC, Ne.symm hBC]
  rw [hmodel] at h1 hsim
  have h0 : set_index < c.sets.length := by rw [hsim.1, hS]; exact hsi
  have hmem : ∀ t, holdsTag (linesOf c set_index) t ↔ (t = A ∨ t = C) := by
    intro t
    have hm := (hsim.2 set_index h0).mem_iff t
    simp only [List.get_eq_getElem, Function.update_same, List.mem_cons, List.mem_singleton,
      List.not_mem_nil, or_false] at hm
    rw [linesOf_eq c set_index h0, ← hm]
    exact Or.comm
  refine ⟨c, h1, hmem, ?_⟩
  have hlen : (linesOf c set_index).length = c.lines_per_set := by
    rw [linesOf_eq c set_index h0]
    exact (hsim.2 set_index h0).len
  rcases cache_status c set_index A h0 hlen with
    ⟨-, c1, hc1⟩ | ⟨hn, -⟩ | ⟨hn, -⟩ | ⟨hn, -⟩
  · exact ⟨c1, hc1⟩
  · exact absurd ((hmem A).mpr (Or.inl rfl)) hn
  · exact absurd ((hmem A).mpr (Or.inl rfl)) hn
  · exact absurd ((hmem A).mpr (Or.inl rfl)) hn

/-- Witness for C4: `s = 2`, `b = 3`, set `3`, tags `10`, `20`, `30`. -/
theorem C4_lru_scenario_witness :
    ∃ c, accesses (createCache 2 2 3) [(3, 10), (3, 20), (3, 10), (3, 30)] =
        some ([status_t.MISS, status_t.MISS, status_t.HIT, status_t.MISS_AND_REPLACE], c) ∧
      (∀ t, holdsTag (linesOf c 3) t ↔ (t = 10 ∨ t = 30)) ∧
      ∃ c1, cache c 3 10 = some (status_t.HIT, c1) :=
  C4_lru_scenario 2 3 3 10 20 30 (by decide) (by decide) (by decide) (by decide)

/-! ## Claim C5 -/

/-- C5: with `s = 0`, `E = 1`, `b = 0`, the driver run on the trace
`L 0x0,1 ; L 0x1,1 ; L 0x0,1` from a fresh cache classifies the three
events as `MISS`, `MISS_AND_REPLACE`, `MISS_AND_REPLACE` and ends with
`hits = 0`, `misses = 3`, `evictions = 2`. -/
theorem C5_worked_example :
    ∃ c, accessMemory (driver.init 0 1 0)
        [{ op := 'L', address := 0, size := 1 }, { op := 'L', address := 1, size := 1 },
         { op := 'L', address := 0, size := 1 }] =
      some { cache_ptr := c
             count := { hit_count := 0, miss_count := 3, eviction_count := 2 }
             log := [status_t.MISS, status_t.MISS_AND_REPLACE, status_t.MISS_AND_REPLACE] } :=
  ⟨touch (createCache 0 1 0) 0 0 3 ⟨0, 3, true⟩, by decide⟩

/-! ## Claim C7 -/

/-- C9 fails on the code: with `s = 0`, `b = 0` the 64-bit address
`0x100000000` decodes to tag `0`, not to `floor(address / 2^(s+b))
= 0x100000000` (the tag goes through an `unsigned int` and loses its bits
from bit 32 up); addresses `0x0` and `0x100000000` decode to the same
`(set_index, tag)` although they lie in different blocks, and the driver
reports a hit for the second after a load of the first. -/
theorem C9_tag_truncated :
    parseAddressInfo (createCache 0 1 0) 4294967296 = (0, 0) ∧
    4294967296 / 2 ^ (0 + 0) = 4294967296 ∧
    parseAddressInfo (createCache 0 1 0) 0 = parseAddressInfo (createCache 0 1 0) 4294967296 ∧
    0 / 2 ^ 0 ≠ 4294967296 / 2 ^ 0 ∧
    (accessMemory (driver.init 0 1 0)
        [{ op := 'L', address := 0, size := 1 },
         { op := 'L', address := 4294967296, size := 1 }]).map (fun d => d.log) =
      some [status_t.MISS, status_t.HIT] := by
  decide

/-! ## Claim C10 -/

/-- C10: for every 64-bit address, every `s ≤ 30` and `b < 64`, in the
cache of `createCache s E b` and in every cache reached from it by calls of
`cache`, the decoded set index is `floor(address / 2^b) mod 2^s`; the cache
has `S = 2^s` sets, so the decoded set index is below `S`, and it is `0`
when `s = 0`. -/
theorem C10_set_index (s E b : Nat) (tr : List (Nat × Nat)) (out : List status_t)
    (c : cache_t) (hs : s ≤ 30) (_hb : b < 64)
    (hrun : accesses (createCache s E b) tr = some (out, c)) (address : Nat)
    (_haddr : address < 2 ^ 64) :
    (parseAddressInfo c address).1 = (address / 2 ^ b) % 2 ^ s ∧
    c.set_number = 2 ^ s ∧
    (parseAddressInfo c address).1 < c.set_number ∧
    (s = 0 → (parseAddressInfo c address).1 = 0) := by
  obtain ⟨-, hS, -⟩ := accesses_allocated tr _ out c (createCache_allocated s E b) hrun
  obtain ⟨hsb, hbb⟩ := accesses_bits tr _ out c (createCache_allocated s E b) hrun
  have hsb1 : c.set_bits = s := hsb
  have hbb1 : c.block_bits = b := hbb
  have hidx : (parseAddressInfo c address).1 = (address / 2 ^ b) % 2 ^ s := by
    rw [parseAddressInfo_set_index c address (by omega), hsb1, hbb1]
  have hnum : c.set_number = 2 ^ s := by
    rw [hS]
    show (1 <<< s) % 2 ^ 32 = 2 ^ s
    rw [Nat.one_shiftLeft]
    exact Nat.mod_eq_of_lt (Nat.pow_lt_pow_right (by norm_num) (by omega))
  refine ⟨hidx, hnum, ?_, ?_⟩
  · rw [hidx, hnum]
    exact Nat.mod_lt _ (by positivity)
  · intro h0
    rw [hidx, h0, Nat.pow_zero]
    exact Nat.mod_one _

/-- Witness for C10: `s = 2`, `b = 3`, the fresh cache, address `0x7f5`. -/
theorem C10_set_index_witness :
    (parseAddressInfo (createCache 2 1 3) 2037).1 = (2037 / 2 ^ 3) % 2 ^ 2 ∧
    (createCache 2 1 3).set_number = 2 ^ 2 ∧
    (parseAddressInfo (createCache 2 1 3) 2037).1 < (createCache 2 1 3).set_number ∧
    (2 = 0 → (parseAddressInfo (createCache 2 1 3) 2037).1 = 0) :=
  C10_set_index 2 1 3 [] [] (createCache 2 1 3) (by decide) (by decide) rfl 2037 (by decide)

/-! ## Frame of one call, and invariants along a run -/

/-- What a call of `cache` that returns leaves as it was. -/
theorem cache_frame (c : cache_t) (hc : c.allocated) (si tag : Nat) (status : status_t)
    (c1 : cache_t) (h : cache c si tag = some (status, c1)) :
    ∃ k, k < c.lines_per_set ∧
      (∀ sj, sj ≠ si → linesOf c1 sj = linesOf c sj ∧ clockOf c1 sj = clockOf c sj) ∧
      (∀ j, j ≠ k → lineAt c1 si j = lineAt c si j) ∧
      (linesOf c1 si).length = (linesOf c si).length ∧
      (status = status_t.HIT → ∀ j, (lineAt c1 si j).tag = (lineAt c si j).tag ∧
        (lineAt c1 si j).valid = (lineAt c si j).valid) ∧
      (lineAt c1 si k).valid = true ∧ (lineAt c1 si k).tag = tag ∧
      (lineAt c1 si k).order = nextClock c si ∧ clockOf c1 si = nextClock c si ∧
      (∀ j, (lineAt c si j).valid = true → (lineAt c1 si j).valid = true) := by
  obtain ⟨-, -, -, hsi⟩ := cache_allocated c hc si tag status c1 h
  obtain ⟨h0, hlen⟩ := allocated_lines c hc si hsi
  have key : ∀ (k : Nat) (l : line_t), k < c.lines_per_set → l.valid = true → l.tag = tag →
      l.order = nextClock c si →
      (status = status_t.HIT → l.tag = (lineAt c si k).tag ∧ l.valid = (lineAt c si k).valid) →
      c1 = touch c si k (nextClock c si) l →
      ∃ k, k < c.lines_per_set ∧
      (∀ sj, sj ≠ si → linesOf c1 sj = linesOf c sj ∧ clockOf c1 sj = clockOf c sj) ∧
      (∀ j, j ≠ k → lineAt c1 si j = lineAt c si j) ∧
      (linesOf c1 si).length = (linesOf c si).length ∧
      (status = status_t.HIT → ∀ j, (lineAt c1 si j).tag = (lineAt c si j).tag ∧
        (lineAt c1 si j).valid = (lineAt c si j).valid) ∧
      (lineAt c1 si k).valid = true ∧ (lineAt c1 si k).tag = tag ∧
      (lineAt c1 si k).order = nextClock c si ∧ clockOf c1 si = nextClock c si ∧
      (∀ j, (lineAt c si j).valid = true → (lineAt c1 si j).valid = true) := by
    intro k l hk hv ht ho hhit hc1
    subst hc1
    have hk1 : k < (linesOf c si).length := by omega
    have hsame := lineAt_touch_same c si k (nextClock c si) l h0 hk1
    refine ⟨k, hk, ?_, ?_, ?_, ?_, ?_, ?_, ?_, ?_, ?_⟩
    · intro sj hsj
      exact ⟨linesOf_touch_other c si sj k _ l (Ne.symm hsj),
        clockOf_touch_other c si sj k _ l (Ne.symm hsj)⟩
    · intro j hj
      exact lineAt_touch_ne c si k j _ l h0 (Ne.symm hj)
    · rw [linesOf_touch_same c si k _ l h0, List.length_set]
    · intro hst j
      by_cases hj : k = j
      · subst hj
        rw [hsame]
        exact hhit hst
      · rw [lineAt_touch_ne c si k j _ l h0 hj]
        exact ⟨rfl, rfl⟩
    · rw [hsame]; exact hv
    · rw [hsame]; exact ht
    · rw [hsame]; exact ho
    · exact clockOf_touch_same c si k _ l h0
    · intro j hj
      by_cases hjk : k = j
      · subst hjk
        rw [hsame]; exact hv
      · rw [lineAt_touch_ne c si k j _ l h0 hjk]
        exact hj
  rcases cache_spec c si tag h0 hlen with
    ⟨k, hk, hm, -, hcc⟩ | ⟨-, k, hk, -, -, hcc⟩ | ⟨-, -, k, hk, -, -, -, hcc⟩ | ⟨-, -, -, hcc⟩
  · rw [hcc] at h
    simp only [Option.some.injEq, Prod.mk.injEq] at h
    exact key k { lineAt c si k with order := nextClock c si } hk hm.2 hm.1 rfl
      (fun _ => ⟨rfl, rfl⟩) h.2.symm
  · rw [hcc] at h
    simp only [Option.some.injEq, Prod.mk.injEq] at h
    exact key k _ hk rfl rfl rfl (fun hst => by rw [← h.1] at hst; cases hst) h.2.symm
  · rw [hcc] at h
    simp only [Option.some.injEq, Prod.mk.injEq] at h
    exact key k _ hk rfl rfl rfl (fun hst => by rw [← h.1] at hst; cases hst) h.2.symm
  · rw [hcc] at h
    cases h

/-- A property of caches that every returning call of `cache` preserves
holds after every run that returns. -/
theorem accesses_induct (P : cache_t → Prop)
    (hstep : ∀ c si tag status c1, c.allocated → P c →
      cache c si tag = some (status, c1) → P c1)
    (tr : List (Nat × Nat)) :
    ∀ (c : cache_t) (out : List status_t) (c1 : cache_t), c.allocated → P c →
      accesses c tr = some (out, c1) → P c1 := by
  induction tr with
  | nil =>
    intro c out c1 _ hP h
    simp only [accesses, Option.some.injEq, Prod.mk.injEq] at h
    rw [← h.2]
    exact hP
  | cons a tr ih =>
    intro c out c1 hc hP h
    simp only [accesses] at h
    split at h
    · cases h
    · rename_i status c2 hstep1
      split at h
      · cases h
      · rename_i out2 c3 hrest
        simp only [Option.some.injEq, Prod.mk.injEq] at h
        obtain ⟨h1, -⟩ := cache_allocated c hc a.1 a.2 status c2 hstep1
        rw [← h.2]
        exact ih c2 out2 c3 h1 (hstep c a.1 a.2 status c2 hc hP hstep1) hrest

/-- A run that never addresses set `si` leaves its lines and its clock as
they were. -/
theorem accesses_other (si : Nat) (tr : List (Nat × Nat)) :
    ∀ (c : cache_t) (out : List status_t) (c1 : cache_t), c.allocated →
      (∀ a ∈ tr, a.1 ≠ si) → accesses c tr = some (out, c1) →
      linesOf c1 si = linesOf c si ∧ clockOf c1 si = clockOf c si := by
  induction tr with
  | nil =>
    intro c out c1 _ _ h
    simp only [accesses, Option.some.injEq, Prod.mk.injEq] at h
    rw [← h.2]
    exact ⟨rfl, rfl⟩
  | cons a tr ih =>
    intro c out c1 hc hne h
    simp only [accesses] at h
    split at h
    · cases h
    · rename_i status c2 hstep1
      split at h
      · cases h
      · rename_i out2 c3 hrest
        simp only [Option.some.injEq, Prod.mk.injEq] at h
        obtain ⟨h1, -⟩ := cache_allocated c hc a.1 a.2 status c2 hstep1
        obtain ⟨k, -, hoth, -⟩ := cache_frame c hc a.1 a.2 status c2 hstep1
        obtain ⟨g1, g2⟩ := ih c2 out2 c3 h1
          (fun x hx => hne x (List.mem_cons_of_mem _ hx)) hrest
        obtain ⟨f1, f2⟩ := hoth si (Ne.symm (hne a (List.mem_cons_self _ _)))
        rw [← h.2]
        exact ⟨by rw [g1, f1], by rw [g2, f2]⟩

/-! ## Claim C11 -/

/-- C11 (amended): the block offset is irrelevant in every configuration in
which the shifts of `parseAddressInfo` are defined, `s ≤ 30` and
`s + b ≤ 63`.  There, for every two addresses with
`floor(a1 / 2^b) = floor(a2 / 2^b)`, `parseAddressInfo` returns the same
`(set_index, tag)`, a function of `floor(a / 2^b)` alone; so from every
driver state an event at `a1` and the same event at `a2` have the same
result: same status logged, same counters, same cache. -/
theorem C11_offset_irrelevant (d : driver) (a1 a2 : Nat)
    (hs : d.cache_ptr.set_bits ≤ 30)
    (hsb : d.cache_ptr.set_bits + d.cache_ptr.block_bits ≤ 63)
    (hblock : a1 / 2 ^ d.cache_ptr.block_bits = a2 / 2 ^ d.cache_ptr.block_bits) :
    parseAddressInfo d.cache_ptr a1 = parseAddressInfo d.cache_ptr a2 ∧
    parseAddressInfo d.cache_ptr a1 =
      ((a1 / 2 ^ d.cache_ptr.block_bits) % 2 ^ d.cache_ptr.set_bits,
        (a1 / 2 ^ d.cache_ptr.block_bits / 2 ^ d.cache_ptr.set_bits) % 2 ^ 32) ∧
    ∀ (op : Char) (size1 size2 : Nat),
      accessMemory.step d { op := op, address := a1, size := size1 } =
        accessMemory.step d { op := op, address := a2, size := size2 } := by
  have hdec : ∀ a, parseAddressInfo d.cache_ptr a =
      ((a / 2 ^ d.cache_ptr.block_bits) % 2 ^ d.cache_ptr.set_bits,
        (a / 2 ^ d.cache_ptr.block_bits / 2 ^ d.cache_ptr.set_bits) % 2 ^ 32) := by
    intro a
    apply Prod.ext
    · exact parseAddressInfo_set_index d.cache_ptr a hs
    · rw [parseAddressInfo_tag d.cache_ptr a (by omega), Nat.add_comm d.cache_ptr.set_bits,
        Nat.pow_add, ← Nat.div_div_eq_div_mul]
  have hparse : parseAddressInfo d.cache_ptr a1 = parseAddressInfo d.cache_ptr a2 := by
    rw [hdec a1, hdec a2, hblock]
  refine ⟨hparse, hdec a1, ?_⟩
  intro op size1 size2
  simp only [accessMemory.step, hparse]

/-- Witness for C11: `s = 2`, `b = 3`, addresses `0x7f0` and `0x7f5` of one
block. -/
theorem C11_offset_irrelevant_witness :
    parseAddressInfo (driver.init 2 1 3).cache_ptr 2032 =
      parseAddressInfo (driver.init 2 1 3).cache_ptr 2037 ∧
    parseAddressInfo (driver.init 2 1 3).cache_ptr 2032 =
      ((2032 / 2 ^ (driver.init 2 1 3).cache_ptr.block_bits) %
          2 ^ (driver.init 2 1 3).cache_ptr.set_bits,
        (2032 / 2 ^ (driver.init 2 1 3).cache_ptr.block_bits /
          2 ^ (driver.init 2 1 3).cache_ptr.set_bits) % 2 ^ 32) ∧
    ∀ (op : Char) (size1 size2 : Nat),
      accessMemory.step (driver.init 2 1 3) { op := op, address := 2032, size := size1 } =
        accessMemory.step (driver.init 2 1 3) { op := op, address := 2037, size := size2 } :=
  C11_offset_irrelevant (driver.init 2 1 3) 2032 2037 (by decide) (by decide) (by decide)

theorem same_block_zero_one (b : Nat) (hb : b ≠ 0) : 0 / 2 ^ b = 1 / 2 ^ b := by
  rw [Nat.zero_div, Nat.div_eq_of_lt (Nat.one_lt_two_pow hb)]

/-- C11 (as stated, for every `s` and `b`) fails: with `s = 1` and
`b = 4294967295` (the value the option `-b -1` stores in the `unsigned int`)
the sum `set_bits + block_bits` wraps to `0`, so the tag is the whole
address.  Addresses `0` and `1` have the same `floor(a / 2^b) = 0` and
decode to the same set, but to the tags `0` and `1`; after `L 0` a second
`L 0` is a hit and `L 1` is a miss. -/
theorem C11_counterexample :
    0 / 2 ^ (createCache 1 2 4294967295).block_bits =
      1 / 2 ^ (createCache 1 2 4294967295).block_bits ∧
    ((createCache 1 2 4294967295).set_bits + (createCache 1 2 4294967295).block_bits) %
      2 ^ 32 = 0 ∧
    parseAddressInfo (createCache 1 2 4294967295) 0 = (0, 0) ∧
    parseAddressInfo (createCache 1 2 4294967295) 1 = (0, 1) ∧
    (accessMemory (driver.init 1 2 4294967295)
        [{ op := 'L', address := 0, size := 1 },
         { op := 'L', address := 0, size := 1 }]).map (fun d => d.log) =
      some [status_t.MISS, status_t.HIT] ∧
    (accessMemory (driver.init 1 2 4294967295)
        [{ op := 'L', address := 0, size := 1 },
         { op := 'L', address := 1, size := 1 }]).map (fun d => d.log) =
      some [status_t.MISS, status_t.MISS] := by
  exact ⟨same_block_zero_one _ (by decide), by decide, by decide, by decide, by decide,
    by decide⟩

/-! ## Claim C17 -/

/-- C17 (as amended): `createCache s 0 b` does not fail.  For every `s` and
`b` it returns a well-formed cache with `lines_per_set = 0` whose sets have
no line, and no configuration error is reported; every call of `cache` on
it finds no hit and no empty line and uses the unassigned victim index, so
it has no defined result, and neither has the driver on a Load, Store or
Modify event. -/
theorem C17_zero_lines (s b : Nat) :
    (createCache s 0 b).allocated ∧ (createCache s 0 b).lines_per_set = 0 ∧
    (∀ j, linesOf (createCache s 0 b) j = []) ∧
    (∀ set_index tag, findVictimLine (createCache s 0 b) set_index = none ∧
      cache (createCache s 0 b) set_index tag = none) ∧
    ∀ ev : event, (ev.op = 'L' ∨ ev.op = 'S' ∨ ev.op = 'M') →
      accessMemory.step (driver.init s 0 b) ev = none := by
  have hlines : ∀ j, linesOf (createCache s 0 b) j = [] := by
    intro j
    simp only [linesOf, createCache, List.replicate_zero]
    split
    · rename_i st hst
      have := List.getElem?_mem hst
      rw [List.eq_of_mem_replicate this]
    · rfl
  have hcache : ∀ set_index tag, findVictimLine (createCache s 0 b) set_index = none ∧
      cache (createCache s 0 b) set_index tag = none := by
    intro set_index tag
    have hE : (createCache s 0 b).lines_per_set = 0 := rfl
    have h1 : isLineExist (createCache s 0 b) set_index tag = NOT_FOUND := by
      simp only [isLineExist, hE, isLineExist.loop]
    have h2 : findEmptyLine (createCache s 0 b) set_index = NOT_FOUND := by
      simp only [findEmptyLine, hE, findEmptyLine.loop]
    have h3 : findVictimLine (createCache s 0 b) set_index = none := by
      simp only [findVictimLine, hE, findVictimLine.loop]
    refine ⟨h3, ?_⟩
    simp only [cache, h1, h2, h3, if_true]
  refine ⟨createCache_allocated s 0 b, rfl, hlines, hcache, ?_⟩
  intro ev hop
  have hnone := (hcache (parseAddressInfo (driver.init s 0 b).cache_ptr ev.address).1
    (parseAddressInfo (driver.init s 0 b).cache_ptr ev.address).2).2
  have hnone1 : cache (driver.init s 0 b).cache_ptr
      (parseAddressInfo (driver.init s 0 b).cache_ptr ev.address).1
      (parseAddressInfo (driver.init s 0 b).cache_ptr ev.address).2 = none := hnone
  by_cases hM : ev.op = 'M'
  · simp only [accessMemory.step, if_pos hM, hnone1]
  · have hLS : ev.op = 'L' ∨ ev.op = 'S' := by
      rcases hop with h1 | h1 | h1
      · exact Or.inl h1
      · exact Or.inr h1
      · exact absurd h1 hM
    simp only [accessMemory.step, if_neg hM, if_pos hLS, hnone1]

/-- C17 (as stated) fails: `createCache 0 0 0` is the cache with one set of
no lines, not an error, and the driver started on it does call `cache` for
the event `L 0,1`; the call reads the unassigned victim index. -/
theorem C17_counterexample :
    createCache 0 0 0 =
      { sets := [{ most_recent_order := 0, lines := [] }], set_number := 1, set_bits := 0,
        lines_per_set := 0, block_bits := 0, block_size := 1 } ∧
    (driver.init 0 0 0).cache_ptr = createCache 0 0 0 ∧
    isLineExist (createCache 0 0 0) 0 0 = NOT_FOUND ∧
    findEmptyLine (createCache 0 0 0) 0 = NOT_FOUND ∧
    findVictimLine (createCache 0 0 0) 0 = none ∧
    accessMemory.step (driver.init 0 0 0) { op := 'L', address := 0, size := 1 } = none := by
  decide

/-! ## Claim C18 -/

theorem linesOf_createCache (s E b j : Nat) (hj : j < (createCache s E b).set_number) :
    linesOf (createCache s E b) j =
      List.replicate E { tag := 0, order := 0, valid := false } ∧
    clockOf (createCache s E b) j = 0 := by
  have hj1 : j < (1 <<< s) % 2 ^ 32 := hj
  simp only [linesOf, clockOf, createCache, List.getElem?_replicate, if_pos hj1]
  exact ⟨trivial, trivial⟩

theorem set_number_createCache (s E b : Nat) (hs : s ≤ 30) :
    (createCache s E b).set_number = 2 ^ s := by
  show (1 <<< s) % 2 ^ 32 = 2 ^ s
  rw [Nat.one_shiftLeft]
  exact Nat.mod_eq_of_lt (Nat.pow_lt_pow_right (by norm_num) (by omega))

/-- C18: for every `s ≤ 30`, `E ≥ 1` and `b`, `createCache s E b` is a cache
with exactly `S = 2^s` sets, each with clock `0` and exactly `E` lines, every
line invalid with `tag = 0` and `order = 0`; and in every cache reached from
it by calls that never addressed set `set_index < S` (in particular in the
fresh cache itself) the first access to that set returns `MISS`. -/
theorem C18_construct (s E b : Nat) (hs : s ≤ 30) (hE : 1 ≤ E) :
    (createCache s E b).set_number = 2 ^ s ∧ (createCache s E b).sets.length = 2 ^ s ∧
    (createCache s E b).lines_per_set = E ∧
    (∀ j, j < 2 ^ s → clockOf (createCache s E b) j = 0 ∧
      (linesOf (createCache s E b) j).length = E ∧
      ∀ l ∈ linesOf (createCache s E b) j, l = { tag := 0, order := 0, valid := false }) ∧
    ∀ (tr : List (Nat × Nat)) (out : List status_t) (c : cache_t),
      accesses (createCache s E b) tr = some (out, c) →
      ∀ set_index, set_index < 2 ^ s → (∀ a ∈ tr, a.1 ≠ set_index) →
      ∀ tag, ∃ c1, cache c set_index tag = some (status_t.MISS, c1) := by
  have hS := set_number_createCache s E b hs
  have hfresh : ∀ j, j < 2 ^ s →
      linesOf (createCache s E b) j =
        List.replicate E { tag := 0, order := 0, valid := false } ∧
      clockOf (createCache s E b) j = 0 :=
    fun j hj => linesOf_createCache s E b j (by rw [hS]; exact hj)
  refine ⟨hS, ?_, rfl, ?_, ?_⟩
  · rw [(createCache_allocated s E b).1, hS]
  · intro j hj
    obtain ⟨h1, h2⟩ := hfresh j hj
    refine ⟨h2, by rw [h1, List.length_replicate], ?_⟩
    intro l hl
    rw [h1] at hl
    exact List.eq_of_mem_replicate hl
  · intro tr out c hrun si hsi hne tag
    obtain ⟨hc, hSc, hEc⟩ := accesses_allocated tr _ out c (createCache_allocated s E b) hrun
    obtain ⟨hl, -⟩ := accesses_other si tr _ out c (createCache_allocated s E b) hne hrun
    rw [(hfresh si hsi).1] at hl
    obtain ⟨h0, hlen⟩ := allocated_lines c hc si (by rw [hSc, hS]; exact hsi)
    have hno : ¬ holdsTag (linesOf c si) tag := by
      rintro ⟨l, hmem, hv, -⟩
      rw [hl] at hmem
      rw [List.eq_of_mem_replicate hmem] at hv
      cases hv
    have hinv : hasInvalid (linesOf c si) := by
      rw [hl]
      refine ⟨{ tag := 0, order := 0, valid := false }, ?_, rfl⟩
      rw [List.mem_replicate]
      exact ⟨by omega, rfl⟩
    rcases cache_status c si tag h0 hlen with
      ⟨hh, -⟩ | ⟨-, -, c1, hc1⟩ | ⟨-, ha, -⟩ | ⟨-, ha, -⟩
    · exact absurd hh hno
    · exact ⟨c1, hc1⟩
    · exact absurd hinv (not_hasInvalid_of_allValid _ ha)
    · exact absurd hinv (not_hasInvalid_of_allValid _ ha)

/-- Witness for C18: `s = 1`, `E = 2`, `b = 4`. -/
theorem C18_construct_witness :
    (createCache 1 2 4).set_number = 2 ^ 1 ∧ (createCache 1 2 4).sets.length = 2 ^ 1 ∧
    (createCache 1 2 4).lines_per_set = 2 ∧
    (∀ j, j < 2 ^ 1 → clockOf (createCache 1 2 4) j = 0 ∧
      (linesOf (createCache 1 2 4) j).length = 2 ∧
      ∀ l ∈ linesOf (createCache 1 2 4) j, l = { tag := 0, order := 0, valid := false }) ∧
    ∀ (tr : List (Nat × Nat)) (out : List status_t) (c : cache_t),
      accesses (createCache 1 2 4) tr = some (out, c) →
      ∀ set_index, set_index < 2 ^ 1 → (∀ a ∈ tr, a.1 ≠ set_index) →
      ∀ tag, ∃ c1, cache c set_index tag = some (status_t.MISS, c1) :=
  C18_construct 1 2 4 (by decide) (by decide)

/-! ## Valid tags along a run -/

/-- How a returning call changes the list of valid tags of the target
set. -/
theorem cache_validTags (c : cache_t) (hc : c.allocated) (si tag : Nat) (status : status_t)
    (c1 : cache_t) (h : cache c si tag = some (status, c1)) :
    (status = status_t.HIT ∧ holdsTag (linesOf c si) tag ∧
      validTags (linesOf c1 si) = validTags (linesOf c si)) ∨
    (status = status_t.MISS ∧ ¬ holdsTag (linesOf c si) tag ∧ hasInvalid (linesOf c si) ∧
      (validTags (linesOf c1 si)).Perm (tag :: validTags (linesOf c si))) ∨
    (status = status_t.MISS_AND_REPLACE ∧ ¬ holdsTag (linesOf c si) tag ∧
      allValid (linesOf c si) ∧
      ∃ u R, (validTags (linesOf c si)).Perm (u :: R) ∧
        (validTags (linesOf c1 si)).Perm (tag :: R)) := by
  obtain ⟨-, -, -, hsi⟩ := cache_allocated c hc si tag status c1 h
  obtain ⟨h0, hlen⟩ := allocated_lines c hc si hsi
  rcases cache_spec c si tag h0 hlen with
    ⟨k, hk, hm, -, hcc⟩ | ⟨hno, k, hk, hv, -, hcc⟩ | ⟨hno, hall, k, hk, -, -, -, hcc⟩ |
    ⟨-, -, -, hcc⟩
  · rw [hcc] at h
    simp only [Option.some.injEq, Prod.mk.injEq] at h
    obtain ⟨rfl, rfl⟩ := h
    have hk1 : k < (linesOf c si).length := by omega
    obtain ⟨A, B, hAB, -, hset⟩ := @List.exists_of_set line_t k
      ({ lineAt c si k with order := nextClock c si } : line_t) (linesOf c si) hk1
    rw [← lineAt_eq c si k hk1] at hAB
    left
    refine ⟨rfl, (holdsTag_iff c si tag hlen).mpr ⟨k, hk, hm⟩, ?_⟩
    rw [linesOf_touch_same c si k _ _ h0, hset]
    conv_rhs => rw [hAB]
    rw [validTags_append, validTags_append, validTags_cons_valid _ _ hm.2,
      validTags_cons_valid _ _ (by exact hm.2)]
  · rw [hcc] at h
    simp only [Option.some.injEq, Prod.mk.injEq] at h
    obtain ⟨rfl, rfl⟩ := h
    have hk1 : k < (linesOf c si).length := by omega
    obtain ⟨A, B, hAB, -, hset⟩ := @List.exists_of_set line_t k
      ({ valid := true, tag := tag, order := nextClock c si } : line_t) (linesOf c si) hk1
    rw [← lineAt_eq c si k hk1] at hAB
    right; left
    refine ⟨rfl, (not_holdsTag_iff c si tag hlen).mpr hno,
      (hasInvalid_iff c si hlen).mpr ⟨k, hk, hv⟩, ?_⟩
    rw [linesOf_touch_same c si k _ _ h0, hset]
    conv_rhs => rw [hAB]
    rw [validTags_append, validTags_append, validTags_cons_valid _ _ rfl,
      validTags_cons_invalid _ _ hv]
    exact List.perm_middle
  · rw [hcc] at h
    simp only [Option.some.injEq, Prod.mk.injEq] at h
    obtain ⟨rfl, rfl⟩ := h
    have hk1 : k < (linesOf c si).length := by omega
    obtain ⟨A, B, hAB, -, hset⟩ := @List.exists_of_set line_t k
      ({ valid := true, tag := tag, order := nextClock c si } : line_t) (linesOf c si) hk1
    rw [← lineAt_eq c si k hk1] at hAB
    right; right
    refine ⟨rfl, (not_holdsTag_iff c si tag hlen).mpr hno,
      (allValid_iff c si hlen).mpr hall, (lineAt c si k).tag,
      validTags A ++ validTags B, ?_, ?_⟩
    · conv_lhs => rw [hAB]
      rw [validTags_append, validTags_cons_valid _ _ (hall k hk)]
      exact List.perm_middle
    · rw [linesOf_touch_same c si k _ _ h0, hset, validTags_append,
        validTags_cons_valid _ _ rfl]
      exact List.perm_middle
  · rw [hcc] at h
    cases h

/-! ## Claim C12 -/

theorem nodup_validTags_iff (L : List line_t) :
    (validTags L).Nodup ↔
      L.Pairwise (fun a b => a.valid = true → b.valid = true → a.tag ≠ b.tag) := by
  have hf : (fun l : line_t => l.valid) = (fun l => decide (l.valid = true)) := by
    funext l
    simp
  unfold validTags List.Nodup
  rw [List.pairwise_map, hf, List.pairwise_filter]

theorem getD_valid_lt (L : List line_t) (i : Nat)
    (h : (L.getD i line_t.zero).valid = true) : i < L.length := by
  by_contra hcon
  rw [List.getD_eq_default _ _ (by omega)] at h
  cases h

theorem nodup_validTags_index (L : List line_t) (h : (validTags L).Nodup) (i1 i2 : Nat)
    (hv1 : (L.getD i1 line_t.zero).valid = true)
    (hv2 : (L.getD i2 line_t.zero).valid = true)
    (ht : (L.getD i1 line_t.zero).tag = (L.getD i2 line_t.zero).tag) : i1 = i2 := by
  have h1 := getD_valid_lt L i1 hv1
  have h2 := getD_valid_lt L i2 hv2
  rw [List.getD_eq_getElem _ _ h1] at hv1 ht
  rw [List.getD_eq_getElem _ _ h2] at hv2 ht
  have hp := List.pairwise_iff_getElem.mp ((nodup_validTags_iff L).mp h)
  rcases Nat.lt_trichotomy i1 i2 with hlt | heq | hgt
  · exact absurd ht (hp i1 i2 h1 h2 hlt hv1 hv2)
  · exact heq
  · exact absurd ht.symm (hp i2 i1 h2 h1 hgt hv2 hv1)

theorem linesOf_of_le (c : cache_t) (j : Nat) (h : c.sets.length ≤ j) : linesOf c j = [] := by
  simp [linesOf, List.getElem?_eq_none h]

/-- Every returning call keeps the valid tags of every set free of
duplicates. -/
theorem cache_nodup (c : cache_t) (si tag : Nat) (status : status_t) (c1 : cache_t)
    (hc : c.allocated) (hP : ∀ j, (validTags (linesOf c j)).Nodup)
    (h : cache c si tag = some (status, c1)) : ∀ j, (validTags (linesOf c1 j)).Nodup := by
  intro j
  by_cases hj : j = si
  · subst hj
    rcases cache_validTags c hc j tag status c1 h with
      ⟨-, -, heq⟩ | ⟨-, hno, -, hperm⟩ | ⟨-, hno, -, u, R, hp1, hp2⟩
    · rw [heq]
      exact hP j
    · rw [hperm.nodup_iff, List.nodup_cons]
      exact ⟨fun hm => hno ((mem_validTags _ _).mp hm), hP j⟩
    · have hR := hp1.nodup_iff.mp (hP j)
      rw [List.nodup_cons] at hR
      rw [hp2.nodup_iff, List.nodup_cons]
      refine ⟨fun hm => hno ((mem_validTags _ _).mp ?_), hR.2⟩
      exact hp1.mem_iff.mpr (List.mem_cons_of_mem _ hm)
  · obtain ⟨k, -, hoth, -⟩ := cache_frame c hc si tag status c1 h
    rw [(hoth j hj).1]
    exact hP j

theorem createCache_nodup (s E b : Nat) :
    ∀ j, (validTags (linesOf (createCache s E b) j)).Nodup := by
  intro j
  by_cases hj : j < (createCache s E b).set_number
  · rw [(linesOf_createCache s E b j hj).1, validTags_replicate_invalid E _ rfl]
    exact List.nodup_nil
  · rw [linesOf_of_le _ j (by rw [(createCache_allocated s E b).1]; omega)]
    exact List.nodup_nil

/-- C12: no duplicate tags.  In every cache `c` reached from
`createCache s E b` by a sequence of accesses, no set contains two distinct
valid lines holding the same tag. -/
theorem C12_no_duplicate_tags (s E b : Nat) (tr : List (Nat × Nat)) (out : List status_t)
    (c : cache_t) (hrun : accesses (createCache s E b) tr = some (out, c))
    (j i1 i2 : Nat) (hne : i1 ≠ i2) (hv1 : (lineAt c j i1).valid = true)
    (hv2 : (lineAt c j i2).valid = true) :
    (lineAt c j i1).tag ≠ (lineAt c j i2).tag := by
  have hnd := accesses_induct (fun c => ∀ j, (validTags (linesOf c j)).Nodup)
    (fun c si tag status c1 hc hP h => cache_nodup c si tag status c1 hc hP h)
    tr (createCache s E b) out c (createCache_allocated s E b) (createCache_nodup s E b) hrun
  intro ht
  exact hne (nodup_validTags_index (linesOf c j) (hnd j) i1 i2 hv1 hv2 ht)

/-- Witness for C12: the cache with `s = 0`, `E = 2`, `b = 0` after the
accesses with tags `1`, `2`, `1`; lines `0` and `1` of set `0`. -/
theorem C12_no_duplicate_tags_witness :
    (lineAt (touch (touch (touch (createCache 0 2 0) 0 0 1 ⟨1, 1, true⟩) 0 1 2 ⟨2, 2, true⟩)
      0 0 3 ⟨1, 3, true⟩) 0 0).tag ≠
    (lineAt (touch (touch (touch (createCache 0 2 0) 0 0 1 ⟨1, 1, true⟩) 0 1 2 ⟨2, 2, true⟩)
      0 0 3 ⟨1, 3, true⟩) 0 1).tag :=
  C12_no_duplicate_tags 0 2 0 [(0, 1), (0, 2), (0, 1)]
    [status_t.MISS, status_t.MISS, status_t.HIT]
    (touch (touch (touch (createCache 0 2 0) 0 0 1 ⟨1, 1, true⟩) 0 1 2 ⟨2, 2, true⟩)
      0 0 3 ⟨1, 3, true⟩)
    (by decide) 0 0 1 (by decide) (by decide) (by decide)

/-! ## Claim C16 -/

/-- The index of the first line of smallest recency is determined. -/
theorem first_min_unique (o : Nat → Nat) (E k1 k2 : Nat) (h1 : k1 < E) (h2 : k2 < E)
    (m1 : ∀ j, j < E → o k1 ≤ o j) (f1 : ∀ j, j < k1 → o k1 < o j)
    (m2 : ∀ j, j < E → o k2 ≤ o j) (f2 : ∀ j, j < k2 → o k2 < o j) : k1 = k2 := by
  rcases Nat.lt_trichotomy k1 k2 with hlt | heq | hgt
  · have := f2 k1 hlt
    have := m1 k2 h2
    omega
  · exact heq
  · have := f1 k2 hgt
    have := m2 k1 h1
    omega

/-- C16: `cache` is total on reachable states.  In every state `c` reached
from `createCache s E b` (`E ≥ 1`) by accesses with `set_index < S`, fewer
than `2 ^ 32 - 1` of them per set, every call `cache c set_index tag` with
`set_index < S` returns, and the line it writes has an index `k < E`: the
line the status stands for (a valid line holding the tag for `HIT`, an
invalid line for `MISS`, the result of `findVictimLine` in a full set for
`MISS_AND_REPLACE`).  The scan of `findVictimLine` always assigns its
result, an index below `E`, because the recency of that line is below
`clock + 1`. -/
theorem C16_access_total (s E b : Nat) (tr : List (Nat × Nat)) (out : List status_t)
    (c : cache_t) (hE : 1 ≤ E)
    (hidx : ∀ a ∈ tr, a.1 < (createCache s E b).set_number)
    (hcnt : ∀ j, tr.countP (fun a => decide (a.1 = j)) < 2 ^ 32 - 1)
    (hrun : accesses (createCache s E b) tr = some (out, c))
    (set_index tag : Nat) (hsi : set_index < c.set_number) :
    (∃ status c1 k l, k < E ∧ cache c set_index tag = some (status, c1) ∧
      c1 = touch c set_index k (clockOf c set_index + 1) l ∧
      ((status = status_t.HIT ∧ (lineAt c set_index k).valid = true ∧
          (lineAt c set_index k).tag = tag) ∨
        (status = status_t.MISS ∧ (lineAt c set_index k).valid = false) ∨
        (status = status_t.MISS_AND_REPLACE ∧ allValid (linesOf c set_index) ∧
          findVictimLine c set_index = some (k : Int)))) ∧
    ∃ kv, kv < E ∧ findVictimLine c set_index = some (kv : Int) ∧
      (lineAt c set_index kv).order < clockOf c set_index + 1 := by
  obtain ⟨c0, h1, hsim, -, hEc⟩ := reach_sim s E b tr hE hidx
    (fun j => by have := hcnt j; omega)
  rw [hrun] at h1
  obtain rfl : c = c0 := by
    simp only [Option.some.injEq, Prod.mk.injEq] at h1
    exact h1.2
  obtain ⟨h0, hlen⟩ := allocated_lines c hsim.allocated set_index hsi
  have hinv := hsim.2 set_index h0
  simp only [List.get_eq_getElem] at hinv
  have hclk : nextClock c set_index = clockOf c set_index + 1 := by
    unfold nextClock
    apply Nat.mod_eq_of_lt
    rw [clockOf_eq c set_index h0, hinv.clock]
    have := hcnt set_index
    omega
  have hle : ∀ j, j < c.lines_per_set → (lineAt c set_index j).order ≤ clockOf c set_index := by
    intro j hj
    rw [clockOf_eq c set_index h0, hinv.clock]
    apply hinv.le_clock
    rw [← linesOf_eq c set_index h0]
    exact (mem_iff_getD _ _).mpr ⟨j, by omega, rfl⟩
  have hvict : ∃ kv, kv < c.lines_per_set ∧ findVictimLine c set_index = some (kv : Int) ∧
      (lineAt c set_index kv).order < nextClock c set_index ∧
      (∀ j, j < c.lines_per_set →
        (lineAt c set_index kv).order ≤ (lineAt c set_index j).order) ∧
      (∀ j, j < kv → (lineAt c set_index kv).order < (lineAt c set_index j).order) := by
    rcases findVictimLine_loop_spec (linesOf c set_index) c.lines_per_set 0
        (nextClock c set_index) none with ⟨-, v2⟩ | ⟨k, -, v2, v3, v4, v5, v6⟩
    · exfalso
      have := v2 0 (Nat.zero_le _) (by omega)
      have := hle 0 (by omega)
      unfold lineAt at this
      omega
    · exact ⟨k, by omega, v3, v4, fun j hj => v5 j (Nat.zero_le _) (by omega),
        fun j hj => v6 j (Nat.zero_le _) hj⟩
  obtain ⟨kv, hkv, hfv, hlt, hmin, hfirst⟩ := hvict
  refine ⟨?_, kv, by omega, hfv, by omega⟩
  rcases cache_spec c set_index tag h0 hlen with
    ⟨k, hk, hm, -, hc⟩ | ⟨-, k, hk, hv, -, hc⟩ | ⟨-, hall, k, hk, -, hmin2, hfirst2, hc⟩ |
    ⟨-, -, hge, -⟩
  · exact ⟨_, _, k, _, by omega, hc, by rw [hclk], Or.inl ⟨rfl, hm.2, hm.1⟩⟩
  · exact ⟨_, _, k, _, by omega, hc, by rw [hclk], Or.inr (Or.inl ⟨rfl, hv⟩)⟩
  · have hkk : k = kv := first_min_unique (fun j => (lineAt c set_index j).order)
      c.lines_per_set k kv hk hkv hmin2 hfirst2 hmin hfirst
    exact ⟨_, _, k, _, by omega, hc, by rw [hclk],
      Or.inr (Or.inr ⟨rfl, (allValid_iff c set_index hlen).mpr hall, by rw [hkk]; exact hfv⟩)⟩
  · exfalso
    have := hge 0 (by omega)
    have := hle 0 (by omega)
    omega

/-- Witness for C16: the full set of the cache with `s = 0`, `E = 1`,
`b = 0` after one access, accessed with a new tag. -/
theorem C16_access_total_witness :
    (∃ status c1, ∃ k : Nat, ∃ l, k < 1 ∧
      cache (touch (createCache 0 1 0) 0 0 1 ⟨1, 1, true⟩) 0 2 = some (status, c1) ∧
      c1 = touch (touch (createCache 0 1 0) 0 0 1 ⟨1, 1, true⟩) 0 k
        (clockOf (touch (createCache 0 1 0) 0 0 1 ⟨1, 1, true⟩) 0 + 1) l ∧
      ((status = status_t.HIT ∧
          (lineAt (touch (createCache 0 1 0) 0 0 1 ⟨1, 1, true⟩) 0 k).valid = true ∧
          (lineAt (touch (createCache 0 1 0) 0 0 1 ⟨1, 1, true⟩) 0 k).tag = 2) ∨
        (status = status_t.MISS ∧
          (lineAt (touch (createCache 0 1 0) 0 0 1 ⟨1, 1, true⟩) 0 k).valid = false) ∨
        (status = status_t.MISS_AND_REPLACE ∧
          allValid (linesOf (touch (createCache 0 1 0) 0 0 1 ⟨1, 1, true⟩) 0) ∧
          findVictimLine (touch (createCache 0 1 0) 0 0 1 ⟨1, 1, true⟩) 0 =
            some (k : Int)))) ∧
    ∃ kv : Nat, kv < 1 ∧
      findVictimLine (touch (createCache 0 1 0) 0 0 1 ⟨1, 1, true⟩) 0 = some (kv : Int) ∧
      (lineAt (touch (createCache 0 1 0) 0 0 1 ⟨1, 1, true⟩) 0 kv).order <
        clockOf (touch (createCache 0 1 0) 0 0 1 ⟨1, 1, true⟩) 0 + 1 :=
  C16_access_total 0 1 0 [(0, 1)] [status_t.MISS]
    (touch (createCache 0 1 0) 0 0 1 ⟨1, 1, true⟩) (by decide) (by decide)
    (fun _ => lt_of_le_of_lt (List.countP_le_length _) (by decide)) (by decide) 0 2
    (by decide)

/-! ## Claim C14 -/

/-- In a set that represents a list, two valid lines at different indices
carry different recency values. -/
theorem SetInv.order_ne {E : Nat} {st : set_t} {m : List Nat} {n : Nat}
    (h : SetInv E st m n) (i1 i2 : Nat) (hne : i1 ≠ i2)
    (hv1 : (st.lines.getD i1 line_t.zero).valid = true)
    (hv2 : (st.lines.getD i2 line_t.zero).valid = true) :
    (st.lines.getD i1 line_t.zero).order ≠ (st.lines.getD i2 line_t.zero).order := by
  have hnd : (validTags st.lines).Nodup := h.perm.nodup_iff.mp h.nodup
  have ht : (st.lines.getD i1 line_t.zero).tag ≠ (st.lines.getD i2 line_t.zero).tag :=
    fun heq => hne (nodup_validTags_index st.lines hnd i1 i2 hv1 hv2 heq)
  have hm1 : st.lines.getD i1 line_t.zero ∈ st.lines :=
    (mem_iff_getD _ _).mpr ⟨i1, getD_valid_lt _ _ hv1, rfl⟩
  have hm2 : st.lines.getD i2 line_t.zero ∈ st.lines :=
    (mem_iff_getD _ _).mpr ⟨i2, getD_valid_lt _ _ hv2, rfl⟩
  have ht1 : (st.lines.getD i1 line_t.zero).tag ∈ m := (h.mem_iff _).mpr ⟨_, hm1, hv1, rfl⟩
  have ht2 : (st.lines.getD i2 line_t.zero).tag ∈ m := (h.mem_iff _).mpr ⟨_, hm2, hv2, rfl⟩
  have hsym : m.Pairwise (fun t u => orderedBy st.lines t u ∨ orderedBy st.lines u t) :=
    h.ordered.imp (fun hr => Or.inl hr)
  have hor := List.Pairwise.forall (fun _ _ hx => Or.symm hx) hsym ht1 ht2 ht
  rcases hor with hr | hr
  · have := hr _ hm1 _ hm2 hv1 hv2 rfl rfl
    omega
  · have := hr _ hm2 _ hm1 hv2 hv1 rfl rfl
    omega

/-- C14: strict recency monotonicity.  Let `c` be reached from
`createCache s E b` (`E ≥ 1`) by accesses with `set_index < S`, fewer than
`2 ^ 32` of them per set.  Then in every set of `c` any two distinct valid
lines have different recency values, the recency of each valid line is
between `1` and the clock of the set, and the line of smallest recency of a
full set is unique.  And every further access to a set that keeps the set
below `2 ^ 32` accesses returns, raises the clock of the set by exactly `1`
and stamps the line it touches with the new clock value, which is strictly
greater than the recency of every other line of the set; the touched line
`k` is the one line of the set that changes: after the call it is valid and
holds the tag (on a hit it is the line that held the tag before), and every
other line is as it was. -/
theorem C14_recency (s E b : Nat) (tr : List (Nat × Nat)) (out : List status_t)
    (c : cache_t) (hE : 1 ≤ E)
    (hidx : ∀ a ∈ tr, a.1 < (createCache s E b).set_number)
    (hcnt : ∀ j, tr.countP (fun a => decide (a.1 = j)) < 2 ^ 32)
    (hrun : accesses (createCache s E b) tr = some (out, c)) :
    (∀ j, j < c.set_number →
      (∀ i1 i2, i1 ≠ i2 → (lineAt c j i1).valid = true → (lineAt c j i2).valid = true →
        (lineAt c j i1).order ≠ (lineAt c j i2).order) ∧
      (∀ i, (lineAt c j i).valid = true →
        1 ≤ (lineAt c j i).order ∧ (lineAt c j i).order ≤ clockOf c j) ∧
      (allValid (linesOf c j) → ∀ k1 k2, k1 < E → k2 < E →
        (∀ i, i < E → (lineAt c j k1).order ≤ (lineAt c j i).order) →
        (∀ i, i < E → (lineAt c j k2).order ≤ (lineAt c j i).order) → k1 = k2)) ∧
    (∀ set_index tag, set_index < c.set_number →
      tr.countP (fun a => decide (a.1 = set_index)) < 2 ^ 32 - 1 →
      ∃ status c1 k, k < E ∧ cache c set_index tag = some (status, c1) ∧
        clockOf c1 set_index = clockOf c set_index + 1 ∧
        (lineAt c1 set_index k).tag = tag ∧ (lineAt c1 set_index k).valid = true ∧
        (status = status_t.HIT →
          (lineAt c set_index k).tag = tag ∧ (lineAt c set_index k).valid = true) ∧
        (∀ i, i ≠ k → lineAt c1 set_index i = lineAt c set_index i) ∧
        (lineAt c1 set_index k).order = clockOf c1 set_index ∧
        ∀ i, i < E → i ≠ k → (lineAt c1 set_index i).order < clockOf c1 set_index) := by
  obtain ⟨c0, h1, hsim, -, hEc⟩ := reach_sim s E b tr hE hidx hcnt
  rw [hrun] at h1
  obtain rfl : c = c0 := by
    simp only [Option.some.injEq, Prod.mk.injEq] at h1
    exact h1.2
  have hfacts : ∀ j, j < c.set_number →
      (linesOf c j).length = E ∧
      (∀ i1 i2, i1 ≠ i2 → (lineAt c j i1).valid = true → (lineAt c j i2).valid = true →
        (lineAt c j i1).order ≠ (lineAt c j i2).order) ∧
      (∀ i, (lineAt c j i).valid = true →
        1 ≤ (lineAt c j i).order ∧ (lineAt c j i).order ≤ clockOf c j) ∧
      (∀ i, i < E → (lineAt c j i).order ≤ clockOf c j) ∧
      clockOf c j = tr.countP (fun a => decide (a.1 = j)) := by
    intro j hj
    obtain ⟨h0, hlen⟩ := allocated_lines c hsim.allocated j hj
    have hinv := hsim.2 j h0
    simp only [List.get_eq_getElem] at hinv
    have hL := linesOf_eq c j h0
    have hC : clockOf c j = tr.countP (fun a => decide (a.1 = j)) := by
      rw [clockOf_eq c j h0, hinv.clock]
    refine ⟨by rw [hlen, hEc], ?_, ?_, ?_, hC⟩
    · intro i1 i2 hne hv1 hv2
      unfold lineAt at hv1 hv2 ⊢
      rw [hL] at hv1 hv2 ⊢
      exact hinv.order_ne i1 i2 hne hv1 hv2
    · intro i hv
      have hmem : lineAt c j i ∈ c.sets[j].lines := by
        rw [← hL]
        exact (mem_iff_getD _ _).mpr ⟨i, getD_valid_lt _ _ hv, rfl⟩
      exact ⟨hinv.one_le _ hmem hv, by rw [hC]; exact hinv.le_clock _ hmem⟩
    · intro i hi
      have hmem : lineAt c j i ∈ c.sets[j].lines := by
        rw [← hL]
        exact (mem_iff_getD _ _).mpr ⟨i, by rw [hlen, hEc]; exact hi, rfl⟩
      rw [hC]
      exact hinv.le_clock _ hmem
  constructor
  · intro j hj
    obtain ⟨hlenE, hd, hb, -, -⟩ := hfacts j hj
    refine ⟨hd, hb, ?_⟩
    intro hall k1 k2 hk1 hk2 hm1 hm2
    by_contra hne
    have hv1 : (lineAt c j k1).valid = true :=
      hall _ ((mem_iff_getD _ _).mpr ⟨k1, by omega, rfl⟩)
    have hv2 : (lineAt c j k2).valid = true :=
      hall _ ((mem_iff_getD _ _).mpr ⟨k2, by omega, rfl⟩)
    have := hd k1 k2 hne hv1 hv2
    have := hm1 k2 hk2
    have := hm2 k1 hk1
    omega
  · intro si tag hsi hlt
    obtain ⟨-, -, -, hle, hC⟩ := hfacts si hsi
    have hstep := hsim.step si tag hsi (by omega) (by show _ + 1 < 2 ^ 32; omega)
    obtain ⟨c1, hc1, -⟩ := hstep
    obtain ⟨k, hk, -, hoth, -, hhit, hval, htag, hord, hclk, -⟩ :=
      cache_frame c hsim.allocated si tag _ c1 hc1
    have hnext : nextClock c si = clockOf c si + 1 := by
      unfold nextClock
      apply Nat.mod_eq_of_lt
      omega
    refine ⟨_, c1, k, by omega, hc1, by rw [hclk, hnext], htag, hval, ?_, hoth,
      by rw [hord, hclk], ?_⟩
    · intro hst
      obtain ⟨g1, g2⟩ := hhit hst k
      exact ⟨by rw [← g1]; exact htag, by rw [← g2]; exact hval⟩
    intro i hi hik
    rw [hoth i hik, hclk, hnext]
    have := hle i hi
    omega

/-- Witness for C14: the cache with `s = 0`, `E = 2`, `b = 0` after the
accesses with tags `1`, `2`, `1`. -/
theorem C14_recency_witness :
    (∀ j, j < (touch (touch (touch (createCache 0 2 0) 0 0 1 ⟨1, 1, true⟩) 0 1 2 ⟨2, 2, true⟩)
        0 0 3 ⟨1, 3, true⟩).set_number →
      (∀ i1 i2, i1 ≠ i2 →
        (lineAt (touch (touch (touch (createCache 0 2 0) 0 0 1 ⟨1, 1, true⟩) 0 1 2
          ⟨2, 2, true⟩) 0 0 3 ⟨1, 3, true⟩) j i1).valid = true →
        (lineAt (touch (touch (touch (createCache 0 2 0) 0 0 1 ⟨1, 1, true⟩) 0 1 2
          ⟨2, 2, true⟩) 0 0 3 ⟨1, 3, true⟩) j i2).valid = true →
        (lineAt (touch (touch (touch (createCache 0 2 0) 0 0 1 ⟨1, 1, true⟩) 0 1 2
          ⟨2, 2, true⟩) 0 0 3 ⟨1, 3, true⟩) j i1).order ≠
        (lineAt (touch (touch (touch (createCache 0 2 0) 0 0 1 ⟨1, 1, true⟩) 0 1 2
          ⟨2, 2, true⟩) 0 0 3 ⟨1, 3, true⟩) j i2).order) ∧
      (∀ i, (lineAt (touch (touch (touch (createCache 0 2 0) 0 0 1 ⟨1, 1, true⟩) 0 1 2
          ⟨2, 2, true⟩) 0 0 3 ⟨1, 3, true⟩) j i).valid = true →
        1 ≤ (lineAt (touch (touch (touch (createCache 0 2 0) 0 0 1 ⟨1, 1, true⟩) 0 1 2
          ⟨2, 2, true⟩) 0 0 3 ⟨1, 3, true⟩) j i).order ∧
        (lineAt (touch (touch (touch (createCache 0 2 0) 0 0 1 ⟨1, 1, true⟩) 0 1 2
          ⟨2, 2, true⟩) 0 0 3 ⟨1, 3, true⟩) j i).order ≤
          clockOf (touch (touch (touch (createCache 0 2 0) 0 0 1 ⟨1, 1, true⟩) 0 1 2
            ⟨2, 2, true⟩) 0 0 3 ⟨1, 3, true⟩) j) ∧
      (allValid (linesOf (touch (touch (touch (createCache 0 2 0) 0 0 1 ⟨1, 1, true⟩) 0 1 2
          ⟨2, 2, true⟩) 0 0 3 ⟨1, 3, true⟩) j) → ∀ k1 k2, k1 < 2 → k2 < 2 →
        (∀ i, i < 2 →
          (lineAt (touch (touch (touch (createCache 0 2 0) 0 0 1 ⟨1, 1, true⟩) 0 1 2
            ⟨2, 2, true⟩) 0 0 3 ⟨1, 3, true⟩) j k1).order ≤
          (lineAt (touch (touch (touch (createCache 0 2 0) 0 0 1 ⟨1, 1, true⟩) 0 1 2
            ⟨2, 2, true⟩) 0 0 3 ⟨1, 3, true⟩) j i).order) →
        (∀ i, i < 2 →
          (lineAt (touch (touch (touch (createCache 0 2 0) 0 0 1 ⟨1, 1, true⟩) 0 1 2
            ⟨2, 2, true⟩) 0 0 3 ⟨1, 3, true⟩) j k2).order ≤
          (lineAt (touch (touch (touch (createCache 0 2 0) 0 0 1 ⟨1, 1, true⟩) 0 1 2
            ⟨2, 2, true⟩) 0 0 3 ⟨1, 3, true⟩) j i).order) → k1 = k2)) ∧
    (∀ set_index tag,
      set_index < (touch (touch (touch (createCache 0 2 0) 0 0 1 ⟨1, 1, true⟩) 0 1 2
        ⟨2, 2, true⟩) 0 0 3 ⟨1, 3, true⟩).set_number →
      [(0, 1), (0, 2), (0, 1)].countP (fun a => decide (a.1 = set_index)) < 2 ^ 32 - 1 →
      ∃ status c1, ∃ k : Nat, k < 2 ∧
        cache (touch (touch (touch (createCache 0 2 0) 0 0 1 ⟨1, 1, true⟩) 0 1 2
          ⟨2, 2, true⟩) 0 0 3 ⟨1, 3, true⟩) set_index tag = some (status, c1) ∧
        clockOf c1 set_index =
          clockOf (touch (touch (touch (createCache 0 2 0) 0 0 1 ⟨1, 1, true⟩) 0 1 2
            ⟨2, 2, true⟩) 0 0 3 ⟨1, 3, true⟩) set_index + 1 ∧
        (lineAt c1 set_index k).tag = tag ∧ (lineAt c1 set_index k).valid = true ∧
        (status = status_t.HIT →
          (lineAt (touch (touch (touch (createCache 0 2 0) 0 0 1 ⟨1, 1, true⟩) 0 1 2
            ⟨2, 2, true⟩) 0 0 3 ⟨1, 3, true⟩) set_index k).tag = tag ∧
          (lineAt (touch (touch (touch (createCache 0 2 0) 0 0 1 ⟨1, 1, true⟩) 0 1 2
            ⟨2, 2, true⟩) 0 0 3 ⟨1, 3, true⟩) set_index k).valid = true) ∧
        (∀ i, i ≠ k → lineAt c1 set_index i =
          lineAt (touch (touch (touch (createCache 0 2 0) 0 0 1 ⟨1, 1, true⟩) 0 1 2
            ⟨2, 2, true⟩) 0 0 3 ⟨1, 3, true⟩) set_index i) ∧
        (lineAt c1 set_index k).order = clockOf c1 set_index ∧
        ∀ i, i < 2 → i ≠ k → (lineAt c1 set_index i).order < clockOf c1 set_index) :=
  C14_recency 0 2 0 [(0, 1), (0, 2), (0, 1)] [status_t.MISS, status_t.MISS, status_t.HIT]
    (touch (touch (touch (createCache 0 2 0) 0 0 1 ⟨1, 1, true⟩) 0 1 2 ⟨2, 2, true⟩)
      0 0 3 ⟨1, 3, true⟩)
    (by decide) (by decide)
    (fun _ => lt_of_le_of_lt (List.countP_le_length _) (by decide)) (by decide)

/-! ## Claim C13 -/

theorem validCount_eq (L : List line_t) : validCount L = (validTags L).length := by
  unfold validCount validTags
  rw [List.countP_eq_length_filter, List.length_map]

theorem length_validTags_le (L : List line_t) : (validTags L).length ≤ L.length := by
  unfold validTags
  rw [List.length_map]
  exact List.length_filter_le _ _

theorem seen_step (c : cache_t) (hc : c.allocated) (si tag : Nat) (T : Finset Nat)
    (status : status_t) (c1 : cache_t) (hP : SeenInv c si T)
    (h : cache c si tag = some (status, c1)) : SeenInv c1 si (insert tag T) := by
  obtain ⟨hnd, hsub, hall⟩ := hP
  obtain ⟨k, -, -, -, hlen, -⟩ := cache_frame c hc si tag status c1 h
  refine ⟨cache_nodup c si tag status c1 hc hnd h, ?_, ?_⟩
  · intro t ht
    rw [Finset.mem_insert]
    rcases cache_validTags c hc si tag status c1 h with
      ⟨-, -, heq⟩ | ⟨-, -, -, hperm⟩ | ⟨-, -, -, u, R, hp1, hp2⟩
    · rw [heq] at ht
      exact Or.inr (hsub t ht)
    · rcases List.mem_cons.mp (hperm.mem_iff.mp ht) with h1 | h1
      · exact Or.inl h1
      · exact Or.inr (hsub t h1)
    · rcases List.mem_cons.mp (hp2.mem_iff.mp ht) with h1 | h1
      · exact Or.inl h1
      · exact Or.inr (hsub t (hp1.mem_iff.mpr (List.mem_cons_of_mem _ h1)))
  · intro hinv t ht
    rw [← length_validTags_lt, hlen] at hinv
    rw [Finset.mem_insert] at ht
    rcases cache_validTags c hc si tag status c1 h with
      ⟨-, hh, heq⟩ | ⟨-, -, hi, hperm⟩ | ⟨-, -, ha, u, R, hp1, hp2⟩
    · rw [heq] at hinv ⊢
      rcases ht with h1 | h1
      · rw [h1]
        exact (mem_validTags _ _).mpr hh
      · exact hall ((length_validTags_lt _).mp hinv) t h1
    · rw [hperm.mem_iff]
      rcases ht with h1 | h1
      · rw [h1]
        exact List.mem_cons_self _ _
      · exact List.mem_cons_of_mem _ (hall hi t h1)
    · exfalso
      have h1 := hp1.length_eq
      have h2 := hp2.length_eq
      simp only [List.length_cons] at h1 h2
      have h3 : ¬ (validTags (linesOf c si)).length < (linesOf c si).length := by
        rw [length_validTags_lt]
        exact not_hasInvalid_of_allValid _ ha
      omega

theorem seen_run (si : Nat) (tr : List (Nat × Nat)) :
    ∀ (c : cache_t) (T : Finset Nat) (out : List status_t) (c1 : cache_t), c.allocated →
      (∀ a ∈ tr, a.1 = si) → SeenInv c si T → accesses c tr = some (out, c1) →
      SeenInv c1 si (T ∪ (tr.map (fun a => a.2)).toFinset) := by
  induction tr with
  | nil =>
    intro c T out c1 _ _ hP h
    simp only [accesses, Option.some.injEq, Prod.mk.injEq] at h
    rw [← h.2]
    simpa using hP
  | cons a tr ih =>
    intro c T out c1 hc hone hP h
    simp only [accesses] at h
    split at h
    · cases h
    · rename_i status c2 hstep1
      split at h
      · cases h
      · rename_i out2 c3 hrest
        simp only [Option.some.injEq, Prod.mk.injEq] at h
        obtain ⟨h1, -⟩ := cache_allocated c hc a.1 a.2 status c2 hstep1
        have ha : a.1 = si := hone a (List.mem_cons_self _ _)
        rw [ha] at hstep1
        have hP2 := seen_step c hc si a.2 T status c2 hP hstep1
        have := ih c2 _ out2 c3 h1 (fun x hx => hone x (List.mem_cons_of_mem _ hx)) hP2 hrest
        rw [← h.2]
        have heq : T ∪ (List.map (fun a => a.2) (a :: tr)).toFinset =
            insert a.2 T ∪ (List.map (fun a => a.2) tr).toFinset := by
          ext x
          simp only [List.map_cons, List.toFinset_cons, Finset.mem_union, Finset.mem_insert]
          tauto
        rw [heq]
        exact this

theorem seen_count (c : cache_t) (si E : Nat) (T : Finset Nat) (hP : SeenInv c si T)
    (hlen : (linesOf c si).length = E) :
    validCount (linesOf c si) = min E T.card := by
  obtain ⟨hnd, hsub, hall⟩ := hP
  rw [validCount_eq]
  have hcard := List.toFinset_card_of_nodup (hnd si)
  have hsubF : (validTags (linesOf c si)).toFinset ⊆ T := by
    intro t ht
    exact hsub t (List.mem_toFinset.mp ht)
  have hle := Finset.card_le_card hsubF
  by_cases hinv : hasInvalid (linesOf c si)
  · have heq : (validTags (linesOf c si)).toFinset = T := by
      apply Finset.Subset.antisymm hsubF
      intro t ht
      exact List.mem_toFinset.mpr (hall hinv t ht)
    have hlt := (length_validTags_lt _).mpr hinv
    rw [heq] at hcard
    omega
  · have hge : ¬ (validTags (linesOf c si)).length < (linesOf c si).length := by
      rw [length_validTags_lt]
      exact hinv
    have := length_validTags_le (linesOf c si)
    omega

theorem cache_valid_mono (c : cache_t) (hc : c.allocated) (si tag : Nat) (status : status_t)
    (c1 : cache_t) (h : cache c si tag = some (status, c1)) (sj j : Nat)
    (hv : (lineAt c sj j).valid = true) : (lineAt c1 sj j).valid = true := by
  obtain ⟨k, -, hoth, -, -, -, -, -, -, -, hmono⟩ := cache_frame c hc si tag status c1 h
  by_cases hs : sj = si
  · subst hs
    exact hmono j hv
  · unfold lineAt at hv ⊢
    rw [(hoth sj hs).1]
    exact hv

/-- C13: capacity invariant.  For every `E ≥ 1` and every sequence `tr` of
accesses into one set `si < S` of a fresh cache: the run returns when `tr`
has fewer than `2 ^ 32` accesses, and whenever it returns the number of
valid lines of the set is `min(E, number of distinct tags presented)`; so it
is never more than `E`, it is exactly `E` once more than `E` distinct tags
were presented, and no line that is valid becomes invalid again by any
further run. -/
theorem C13_capacity (s E b si : Nat) (tr : List (Nat × Nat)) (hE : 1 ≤ E)
    (hsi : si < (createCache s E b).set_number) (hone : ∀ a ∈ tr, a.1 = si) :
    (tr.length < 2 ^ 32 → ∃ out c, accesses (createCache s E b) tr = some (out, c)) ∧
    ∀ out c, accesses (createCache s E b) tr = some (out, c) →
      validCount (linesOf c si) = min E (distinctTags tr) ∧
      validCount (linesOf c si) ≤ E ∧
      (E < distinctTags tr → validCount (linesOf c si) = E) ∧
      ∀ tr2 out2 c2, accesses c tr2 = some (out2, c2) →
        ∀ j i, (lineAt c j i).valid = true → (lineAt c2 j i).valid = true := by
  constructor
  · intro hlen
    obtain ⟨c, h1, -⟩ := reach_sim s E b tr hE
      (fun a ha => by rw [hone a ha]; exact hsi)
      (fun j => lt_of_le_of_lt (List.countP_le_length _) hlen)
    exact ⟨_, c, h1⟩
  · intro out c hrun
    obtain ⟨hc, hS, hEc⟩ := accesses_allocated tr _ out c (createCache_allocated s E b) hrun
    have hfresh : SeenInv (createCache s E b) si ∅ := by
      refine ⟨createCache_nodup s E b, ?_, ?_⟩
      · intro t ht
        rw [(linesOf_createCache s E b si hsi).1, validTags_replicate_invalid E _ rfl] at ht
        cases ht
      · intro _ t ht
        cases ht
    have hP := seen_run si tr _ ∅ out c (createCache_allocated s E b) hone hfresh hrun
    obtain ⟨-, hlen⟩ := allocated_lines c hc si (by rw [hS]; exact hsi)
    have hcount := seen_count c si E _ hP (by rw [hlen, hEc]; rfl)
    rw [Finset.empty_union, List.card_toFinset] at hcount
    have hcount1 : validCount (linesOf c si) = min E (distinctTags tr) := hcount
    refine ⟨hcount1, by omega, fun h => by omega, ?_⟩
    intro tr2 out2 c2 hrun2 j i hv
    exact accesses_induct (fun c1 => (lineAt c1 j i).valid = true)
      (fun c3 si3 tag3 status3 c4 hc3 hP3 h3 =>
        cache_valid_mono c3 hc3 si3 tag3 status3 c4 h3 j i hP3)
      tr2 c out2 c2 hc hv hrun2

/-- Witness for C13: `s = 0`, `E = 2`, `b = 0` and the accesses with tags
`1`, `2`, `1`, `3` to set `0`. -/
theorem C13_capacity_witness :
    ([(0, 1), (0, 2), (0, 1), (0, 3)].length < 2 ^ 32 →
      ∃ out c, accesses (createCache 0 2 0) [(0, 1), (0, 2), (0, 1), (0, 3)] =
        some (out, c)) ∧
    ∀ out c, accesses (createCache 0 2 0) [(0, 1), (0, 2), (0, 1), (0, 3)] = some (out, c) →
      validCount (linesOf c 0) = min 2 (distinctTags [(0, 1), (0, 2), (0, 1), (0, 3)]) ∧
      validCount (linesOf c 0) ≤ 2 ∧
      (2 < distinctTags [(0, 1), (0, 2), (0, 1), (0, 3)] → validCount (linesOf c 0) = 2) ∧
      ∀ tr2 out2 c2, accesses c tr2 = some (out2, c2) →
        ∀ j i, (lineAt c j i).valid = true → (lineAt c2 j i).valid = true :=
  C13_capacity 0 2 0 0 [(0, 1), (0, 2), (0, 1), (0, 3)] (by decide) (by decide) (by decide)

/-! ## The driver, event by event -/

theorem step_access (d : driver) (ev : event)
    (h : ev.op = 'M' ∨ ev.op = 'L' ∨ ev.op = 'S') :
    accessMemory.step d ev =
      (cache d.cache_ptr (parseAddressInfo d.cache_ptr ev.address).1
        (parseAddressInfo d.cache_ptr ev.address).2).map
        (fun r => { cache_ptr := r.2
                    count := bump (decide (ev.op = 'M')) d.count r.1
                    log := d.log ++ [r.1] }) := by
  by_cases hM : ev.op = 'M'
  · simp only [accessMemory.step, if_pos hM]
    cases hcall : cache d.cache_ptr (parseAddressInfo d.cache_ptr ev.address).1
        (parseAddressInfo d.cache_ptr ev.address).2 with
    | none => rfl
    | some r =>
      obtain ⟨status, c1⟩ := r
      cases status <;> simp [bump, hM]
  · have hLS : ev.op = 'L' ∨ ev.op = 'S' := by
      rcases h with h1 | h1 | h1
      · exact absurd h1 hM
      · exact Or.inl h1
      · exact Or.inr h1
    simp only [accessMemory.step, if_neg hM, if_pos hLS]
    cases hcall : cache d.cache_ptr (parseAddressInfo d.cache_ptr ev.address).1
        (parseAddressInfo d.cache_ptr ev.address).2 with
    | none => rfl
    | some r =>
      obtain ⟨status, c1⟩ := r
      cases status <;> simp [bump, hM, status_t.toInt]

theorem step_other (d : driver) (ev : event)
    (h : ¬ (ev.op = 'M' ∨ ev.op = 'L' ∨ ev.op = 'S')) :
    accessMemory.step d ev = some d := by
  have hM : ¬ ev.op = 'M' := fun hc => h (Or.inl hc)
  have hLS : ¬ (ev.op = 'L' ∨ ev.op = 'S') := fun hc => h (Or.inr hc)
  simp only [accessMemory.step, if_neg hM, if_neg hLS]

theorem validCount_le (L : List line_t) : validCount L ≤ L.length := by
  rw [validCount_eq]
  exact length_validTags_le L

theorem totalValid_le (c : cache_t) (hc : c.allocated) :
    totalValid c ≤ c.set_number * c.lines_per_set := by
  unfold totalValid
  have h := List.sum_le_card_nsmul (c.sets.map (fun st => validCount st.lines))
    c.lines_per_set (by
      intro x hx
      obtain ⟨st, hst, rfl⟩ := List.mem_map.mp hx
      rw [← hc.2 st hst]
      exact validCount_le _)
  rw [List.length_map, hc.1] at h
  simpa using h

/-- A returning call adds one valid line when it returns `MISS` and none
otherwise. -/
theorem totalValid_step (c : cache_t) (hc : c.allocated) (si tag : Nat) (status : status_t)
    (c1 : cache_t) (h : cache c si tag = some (status, c1)) :
    totalValid c1 = totalValid c + (if status = status_t.MISS then 1 else 0) := by
  obtain ⟨-, -, -, hsi⟩ := cache_allocated c hc si tag status c1 h
  obtain ⟨h0, hlen⟩ := allocated_lines c hc si hsi
  have hvt := cache_validTags c hc si tag status c1 h
  obtain ⟨k, l, -, rfl, -⟩ := cache_result c si tag h0 hlen status c1 h
  have hcount : validCount ((linesOf c si).set k l) =
      validCount (linesOf c si) + (if status = status_t.MISS then 1 else 0) := by
    rw [linesOf_touch_same c si k _ l h0] at hvt
    rw [validCount_eq, validCount_eq]
    rcases hvt with ⟨rfl, -, heq⟩ | ⟨rfl, -, -, hperm⟩ | ⟨rfl, -, -, u, R, hp1, hp2⟩
    · rw [heq]
      simp
    · rw [hperm.length_eq]
      simp
    · rw [hp1.length_eq, hp2.length_eq]
      simp
  obtain ⟨A, B, hAB, -, hset⟩ := @List.exists_of_set set_t si
    ({ most_recent_order := nextClock c si, lines := (linesOf c si).set k l } : set_t)
    c.sets h0
  have hL := linesOf_eq c si h0
  unfold totalValid
  simp only [touch]
  rw [hset]
  conv_rhs => rw [hAB]
  simp only [List.map_append, List.map_cons, List.sum_append, List.sum_cons]
  rw [hcount, hL]
  omega

theorem parseAddressInfo_congr (c c1 : cache_t) (h1 : c1.set_bits = c.set_bits)
    (h2 : c1.block_bits = c.block_bits) (a : Nat) :
    parseAddressInfo c1 a = parseAddressInfo c a := by
  simp only [parseAddressInfo, h1, h2]

theorem decodeTrace_congr (c c1 : cache_t) (h1 : c1.set_bits = c.set_bits)
    (h2 : c1.block_bits = c.block_bits) (tr : List event) :
    decodeTrace c1 tr = decodeTrace c tr := by
  simp only [decodeTrace, parseAddressInfo_congr c c1 h1 h2]

/-- When the calls of `cache` the driver makes for a trace all return, the
driver returns, with the cache those calls leave. -/
theorem accessMemory_of_accesses (tr : List event) :
    ∀ (d : driver) (out : List status_t) (c1 : cache_t), d.cache_ptr.allocated →
      accesses d.cache_ptr (decodeTrace d.cache_ptr tr) = some (out, c1) →
      ∃ d1, accessMemory d tr = some d1 ∧ d1.cache_ptr = c1 := by
  induction tr with
  | nil =>
    intro d out c1 _ h
    simp only [decodeTrace, List.filterMap_nil, accesses, Option.some.injEq,
      Prod.mk.injEq] at h
    exact ⟨d, rfl, h.2⟩
  | cons ev tr ih =>
    intro d out c1 hc h
    by_cases hop : ev.op = 'M' ∨ ev.op = 'L' ∨ ev.op = 'S'
    · have hdec : decodeTrace d.cache_ptr (ev :: tr) =
          parseAddressInfo d.cache_ptr ev.address :: decodeTrace d.cache_ptr tr := by
        simp only [decodeTrace, List.filterMap_cons, if_pos hop]
      rw [hdec] at h
      simp only [accesses] at h
      split at h
      · cases h
      · rename_i status c2 hstep
        split at h
        · cases h
        · rename_i out2 c3 hrest
          simp only [Option.some.injEq, Prod.mk.injEq] at h
          obtain ⟨hc2, -⟩ := cache_allocated _ hc _ _ status c2 hstep
          obtain ⟨hb1, hb2⟩ := cache_bits _ hc _ _ status c2 hstep
          rw [← decodeTrace_congr d.cache_ptr c2 hb1 hb2 tr] at hrest
          obtain ⟨d1, hd1, hd2⟩ := ih
            { cache_ptr := c2, count := bump (decide (ev.op = 'M')) d.count status,
              log := d.log ++ [status] } out2 c3 hc2 hrest
          refine ⟨d1, ?_, by rw [hd2, h.2]⟩
          simp only [accessMemory, step_access d ev hop, hstep, Option.map_some']
          exact hd1
    · have hdec : decodeTrace d.cache_ptr (ev :: tr) = decodeTrace d.cache_ptr tr := by
        simp only [decodeTrace, List.filterMap_cons, if_neg hop]
      rw [hdec] at h
      obtain ⟨d1, hd1, hd2⟩ := ih d out c1 hc h
      refine ⟨d1, ?_, hd2⟩
      simp only [accessMemory, step_other d ev hop]
      exact hd1

theorem bump_miss (modify : Bool) (k : counters) (status : status_t) :
    (bump modify k status).miss_count =
      if status = status_t.HIT then k.miss_count else (k.miss_count + 1) % 2 ^ 32 := by
  cases modify <;> cases status <;> rfl

theorem bump_eviction (modify : Bool) (k : counters) (status : status_t) :
    (bump modify k status).eviction_count =
      if status = status_t.MISS_AND_REPLACE then (k.eviction_count + 1) % 2 ^ 32
      else k.eviction_count := by
  cases modify <;> cases status <;> rfl

theorem missesIn_snoc (log : List status_t) (status : status_t) :
    missesIn (log ++ [status]) =
      missesIn log + (if status = status_t.HIT then 0 else 1) := by
  unfold missesIn
  rw [List.countP_append, List.countP_singleton]
  cases status <;> simp

theorem evictionsIn_snoc (log : List status_t) (status : status_t) :
    evictionsIn (log ++ [status]) =
      evictionsIn log + (if status = status_t.MISS_AND_REPLACE then 1 else 0) := by
  unfold evictionsIn
  rw [List.countP_append, List.countP_singleton]
  cases status <;> simp

theorem logInv_step (d : driver) (ev : event) (d1 : driver) (hI : LogInv d)
    (h : accessMemory.step d ev = some d1) :
    LogInv d1 ∧ d1.log.length ≤ d.log.length + 1 ∧
      d1.cache_ptr.set_number = d.cache_ptr.set_number ∧
      d1.cache_ptr.lines_per_set = d.cache_ptr.lines_per_set := by
  by_cases hop : ev.op = 'M' ∨ ev.op = 'L' ∨ ev.op = 'S'
  · rw [step_access d ev hop] at h
    cases hcall : cache d.cache_ptr (parseAddressInfo d.cache_ptr ev.address).1
        (parseAddressInfo d.cache_ptr ev.address).2 with
    | none =>
      rw [hcall] at h
      cases h
    | some r =>
      obtain ⟨status, c1⟩ := r
      rw [hcall] at h
      simp only [Option.map_some', Option.some.injEq] at h
      subst h
      obtain ⟨hc, hm, he, hv⟩ := hI
      obtain ⟨hc1, hS, hE, -⟩ := cache_allocated _ hc _ _ status c1 hcall
      have htv := totalValid_step _ hc _ _ status c1 hcall
      refine ⟨⟨hc1, ?_, ?_, ?_⟩, by simp, hS, hE⟩
      · show (bump _ d.count status).miss_count = missesIn (d.log ++ [status]) % 2 ^ 32
        rw [bump_miss, hm, missesIn_snoc]
        cases status <;> simp
      · show (bump _ d.count status).eviction_count =
          evictionsIn (d.log ++ [status]) % 2 ^ 32
        rw [bump_eviction, he, evictionsIn_snoc]
        cases status <;> simp
      · show missesIn (d.log ++ [status]) = evictionsIn (d.log ++ [status]) + totalValid c1
        rw [htv, missesIn_snoc, evictionsIn_snoc, hv]
        cases status <;> simp <;> omega
  · rw [step_other d ev hop] at h
    simp only [Option.some.injEq] at h
    subst h
    exact ⟨hI, by omega, rfl, rfl⟩

theorem logInv_run (tr : List event) :
    ∀ (d d1 : driver), LogInv d → accessMemory d tr = some d1 →
      LogInv d1 ∧ d1.log.length ≤ d.log.length + tr.length ∧
      d1.cache_ptr.set_number = d.cache_ptr.set_number ∧
      d1.cache_ptr.lines_per_set = d.cache_ptr.lines_per_set := by
  induction tr with
  | nil =>
    intro d d1 hI h
    simp only [accessMemory, Option.some.injEq] at h
    subst h
    exact ⟨hI, by simp, rfl, rfl⟩
  | cons ev tr ih =>
    intro d d1 hI h
    simp only [accessMemory] at h
    split at h
    · cases h
    · rename_i d2 hstep
      obtain ⟨h1, h2, h3, h4⟩ := logInv_step d ev d2 hI hstep
      obtain ⟨g1, g2, g3, g4⟩ := ih d2 d1 h1 h
      refine ⟨g1, ?_, by rw [g3, h3], by rw [g4, h4]⟩
      simp only [List.length_cons]
      omega

/-! ## Claim C20 -/

theorem totalValid_createCache (s E b : Nat) : totalValid (createCache s E b) = 0 := by
  unfold totalValid
  apply List.sum_eq_zero
  intro x hx
  obtain ⟨st, hst, rfl⟩ := List.mem_map.mp hx
  have hst1 : st = (⟨0, List.replicate E ⟨0, 0, false⟩⟩ : set_t) :=
    List.eq_of_mem_replicate hst
  rw [hst1, validCount_eq]
  show (validTags (List.replicate E _)).length = 0
  rw [validTags_replicate_invalid E _ rfl]
  rfl

theorem logInv_init (s E b : Nat) : LogInv (driver.init s E b) :=
  ⟨createCache_allocated s E b, rfl, rfl, by
    show 0 = 0 + totalValid (createCache s E b)
    rw [totalValid_createCache]⟩

theorem mem_decodeTrace (c : cache_t) (tr : List event) (a : Nat × Nat)
    (h : a ∈ decodeTrace c tr) : ∃ address, a = parseAddressInfo c address := by
  unfold decodeTrace at h
  obtain ⟨ev, -, hev⟩ := List.mem_filterMap.mp h
  split at hev
  · simp only [Option.some.injEq] at hev
    exact ⟨ev.address, hev.symm⟩
  · cases hev

/-- The driver returns on every trace of fewer than `2 ^ 32` records when
`s ≤ 30` and `E ≥ 1`. -/
theorem accessMemory_total (s E b : Nat) (tr : List event) (hs : s ≤ 30) (hE : 1 ≤ E)
    (hlen : tr.length < 2 ^ 32) :
    ∃ d, accessMemory (driver.init s E b) tr = some d := by
  have hS := set_number_createCache s E b hs
  obtain ⟨c, h1, -⟩ := reach_sim s E b (decodeTrace (createCache s E b) tr) hE
    (by
      intro a ha
      obtain ⟨address, rfl⟩ := mem_decodeTrace _ _ _ ha
      rw [parseAddressInfo_set_index _ address (by show s ≤ 30; exact hs), hS]
      exact Nat.mod_lt _ (by positivity))
    (by
      intro j
      have h2 := List.countP_le_length (fun a : Nat × Nat => decide (a.1 = j))
        (l := decodeTrace (createCache s E b) tr)
      have h3 : (decodeTrace (createCache s E b) tr).length ≤ tr.length :=
        List.length_filterMap_le _ _
      omega)
  obtain ⟨d, hd, -⟩ := accessMemory_of_accesses tr (driver.init s E b) _ c
    (createCache_allocated s E b) h1
  exact ⟨d, hd⟩

/-- C20: counter accounting.  Replay a trace of Load, Store and Modify
records against `createCache s E b` (`E ≥ 1`) with the counters at `0`.  The
driver returns when `s ≤ 30` and the trace has fewer than `2 ^ 32` records.
Whenever it returns and the miss counter did not overflow (the misses of the
log, at most one per record, are fewer than `2 ^ 32`): `misses - evictions`
is the total number of valid lines of the final cache, so
`evictions ≤ misses ≤ evictions + S * E`.  And an event raises the eviction
counter only when every line of its set is valid. -/
theorem C20_counter_accounting (s E b : Nat) (tr : List event) (hE : 1 ≤ E) :
    (s ≤ 30 → tr.length < 2 ^ 32 →
      ∃ d, accessMemory (driver.init s E b) tr = some d) ∧
    (∀ d, accessMemory (driver.init s E b) tr = some d →
      d.log.length ≤ tr.length ∧ missesIn d.log ≤ d.log.length ∧
      (missesIn d.log < 2 ^ 32 →
        d.count.miss_count - d.count.eviction_count = totalValid d.cache_ptr ∧
        d.count.eviction_count ≤ d.count.miss_count ∧
        d.count.miss_count ≤
          d.count.eviction_count + (createCache s E b).set_number * E)) ∧
    (∀ (d : driver) (ev : event) (d1 : driver), d.cache_ptr.allocated →
      accessMemory.step d ev = some d1 →
      d1.count.eviction_count ≠ d.count.eviction_count →
      allValid (linesOf d.cache_ptr (parseAddressInfo d.cache_ptr ev.address).1)) := by
  refine ⟨fun hs hlen => accessMemory_total s E b tr hs hE hlen, ?_, ?_⟩
  · intro d hrun
    obtain ⟨⟨hc, hm, he, hv⟩, hlog, hS, hEc⟩ :=
      logInv_run tr (driver.init s E b) d (logInv_init s E b) hrun
    have hlog1 : d.log.length ≤ tr.length := by
      have : (driver.init s E b).log.length = 0 := rfl
      omega
    refine ⟨hlog1, List.countP_le_length _, ?_⟩
    intro hno
    have hle := totalValid_le d.cache_ptr hc
    rw [hS, hEc] at hle
    have hle1 : totalValid d.cache_ptr ≤ (createCache s E b).set_number * E := hle
    have hev : evictionsIn d.log < 2 ^ 32 := by omega
    rw [Nat.mod_eq_of_lt hno] at hm
    rw [Nat.mod_eq_of_lt hev] at he
    omega
  · intro d ev d1 hc hstep hne
    by_cases hop : ev.op = 'M' ∨ ev.op = 'L' ∨ ev.op = 'S'
    · rw [step_access d ev hop] at hstep
      cases hcall : cache d.cache_ptr (parseAddressInfo d.cache_ptr ev.address).1
          (parseAddressInfo d.cache_ptr ev.address).2 with
      | none =>
        rw [hcall] at hstep
        cases hstep
      | some r =>
        obtain ⟨status, c1⟩ := r
        rw [hcall] at hstep
        simp only [Option.map_some', Option.some.injEq] at hstep
        subst hstep
        have hev : (bump (decide (ev.op = 'M')) d.count status).eviction_count ≠
            d.count.eviction_count := hne
        rw [bump_eviction] at hev
        have hst : status = status_t.MISS_AND_REPLACE := by
          by_contra hcon
          rw [if_neg hcon] at hev
          exact hev rfl
        subst hst
        rcases cache_validTags _ hc _ _ _ c1 hcall with
          ⟨h1, -⟩ | ⟨h1, -⟩ | ⟨-, -, hall, -⟩
        · cases h1
        · cases h1
        · exact hall
    · rw [step_other d ev hop] at hstep
      simp only [Option.some.injEq] at hstep
      subst hstep
      exact absurd rfl hne

/-- Witness for C20: `s = 0`, `E = 1`, `b = 0` and the trace
`L 0,1 ; M 1,1 ; S 0,1`. -/
theorem C20_counter_accounting_witness :
    (0 ≤ 30 → [({ op := 'L', address := 0, size := 1 } : event),
        { op := 'M', address := 1, size := 1 },
        { op := 'S', address := 0, size := 1 }].length < 2 ^ 32 →
      ∃ d, accessMemory (driver.init 0 1 0)
        [{ op := 'L', address := 0, size := 1 }, { op := 'M', address := 1, size := 1 },
         { op := 'S', address := 0, size := 1 }] = some d) ∧
    (∀ d, accessMemory (driver.init 0 1 0)
        [{ op := 'L', address := 0, size := 1 }, { op := 'M', address := 1, size := 1 },
         { op := 'S', address := 0, size := 1 }] = some d →
      d.log.length ≤ [({ op := 'L', address := 0, size := 1 } : event),
        { op := 'M', address := 1, size := 1 },
        { op := 'S', address := 0, size := 1 }].length ∧
      missesIn d.log ≤ d.log.length ∧
      (missesIn d.log < 2 ^ 32 →
        d.count.miss_count - d.count.eviction_count = totalValid d.cache_ptr ∧
        d.count.eviction_count ≤ d.count.miss_count ∧
        d.count.miss_count ≤
          d.count.eviction_count + (createCache 0 1 0).set_number * 1)) ∧
    (∀ (d : driver) (ev : event) (d1 : driver), d.cache_ptr.allocated →
      accessMemory.step d ev = some d1 →
      d1.count.eviction_count ≠ d.count.eviction_count →
      allValid (linesOf d.cache_ptr (parseAddressInfo d.cache_ptr ev.address).1)) :=
  C20_counter_accounting 0 1 0
    [{ op := 'L', address := 0, size := 1 }, { op := 'M', address := 1, size := 1 },
     { op := 'S', address := 0, size := 1 }] (by decide)

/-! ## One call, from the line it must touch -/

theorem first_unique (p : Nat → Prop) (k1 k2 : Nat) (h1 : p k1) (f1 : ∀ j, j < k1 → ¬ p j)
    (h2 : p k2) (f2 : ∀ j, j < k2 → ¬ p j) : k1 = k2 := by
  rcases Nat.lt_trichotomy k1 k2 with hlt | heq | hgt
  · exact absurd h1 (f2 k1 hlt)
  · exact heq
  · exact absurd h2 (f1 k2 hgt)

theorem cache_hit_of (c : cache_t) (si tag : Nat) (hsi : si < c.sets.length)
    (hlen : (linesOf c si).length = c.lines_per_set) (k : Nat) (hk : k < c.lines_per_set)
    (hm : (lineAt c si k).tag = tag ∧ (lineAt c si k).valid = true)
    (hfirst : ∀ j, j < k → ¬ ((lineAt c si j).tag = tag ∧ (lineAt c si j).valid = true)) :
    cache c si tag = some (status_t.HIT,
      touch c si k (nextClock c si) { lineAt c si k with order := nextClock c si }) := by
  rcases cache_spec c si tag hsi hlen with
    ⟨k2, -, hm2, hf2, hc⟩ | ⟨hno, -⟩ | ⟨hno, -⟩ | ⟨hno, -⟩
  · have hkk : k2 = k := first_unique
      (fun j => (lineAt c si j).tag = tag ∧ (lineAt c si j).valid = true) k2 k hm2 hf2 hm hfirst
    rw [hc, hkk]
  · exact absurd hm (hno k hk)
  · exact absurd hm (hno k hk)
  · exact absurd hm (hno k hk)

theorem cache_fill_of (c : cache_t) (si tag : Nat) (hsi : si < c.sets.length)
    (hlen : (linesOf c si).length = c.lines_per_set)
    (hno : ∀ j, j < c.lines_per_set →
      ¬ ((lineAt c si j).tag = tag ∧ (lineAt c si j).valid = true))
    (k : Nat) (hk : k < c.lines_per_set) (hv : (lineAt c si k).valid = false)
    (hfirst : ∀ j, j < k → (lineAt c si j).valid = true) :
    cache c si tag = some (status_t.MISS,
      touch c si k (nextClock c si) { valid := true, tag := tag, order := nextClock c si }) := by
  rcases cache_spec c si tag hsi hlen with
    ⟨k2, hk2, hm2, -⟩ | ⟨-, k2, -, hv2, hf2, hc⟩ | ⟨-, hall, -⟩ | ⟨-, hall, -⟩
  · exact absurd hm2 (hno k2 hk2)
  · have hkk : k2 = k := first_unique (fun j => (lineAt c si j).valid = false) k2 k hv2
      (fun j hj hx => by have := hf2 j hj; rw [hx] at this; cases this) hv
      (fun j hj hx => by have := hfirst j hj; rw [hx] at this; cases this)
    rw [hc, hkk]
  · have := hall k hk
    rw [hv] at this
    cases this
  · have := hall k hk
    rw [hv] at this
    cases this

theorem cache_evict_of (c : cache_t) (si tag : Nat) (hsi : si < c.sets.length)
    (hlen : (linesOf c si).length = c.lines_per_set)
    (hno : ∀ j, j < c.lines_per_set →
      ¬ ((lineAt c si j).tag = tag ∧ (lineAt c si j).valid = true))
    (hall : ∀ j, j < c.lines_per_set → (lineAt c si j).valid = true)
    (k : Nat) (hk : k < c.lines_per_set) (hlt : (lineAt c si k).order < nextClock c si)
    (hmin : ∀ j, j < c.lines_per_set → (lineAt c si k).order ≤ (lineAt c si j).order)
    (hfirst : ∀ j, j < k → (lineAt c si k).order < (lineAt c si j).order) :
    cache c si tag = some (status_t.MISS_AND_REPLACE,
      touch c si k (nextClock c si) { valid := true, tag := tag, order := nextClock c si }) := by
  rcases cache_spec c si tag hsi hlen with
    ⟨k2, hk2, hm2, -⟩ | ⟨-, k2, hk2, hv2, -⟩ | ⟨-, -, k2, hk2, -, hmin2, hf2, hc⟩ |
    ⟨-, -, hge, -⟩
  · exact absurd hm2 (hno k2 hk2)
  · have := hall k2 hk2
    rw [hv2] at this
    cases this
  · have hkk : k2 = k := first_min_unique (fun j => (lineAt c si j).order)
      c.lines_per_set k2 k hk2 hk hmin2 hf2 hmin hfirst
    rw [hc, hkk]
  · have := hge k hk
    omega

theorem touch_touch (c : cache_t) (si k a b : Nat) (l l1 : line_t)
    (hsi : si < c.sets.length) :
    touch (touch c si k a l) si k b l1 = touch c si k b l1 := by
  have h := linesOf_touch_same c si k a l hsi
  unfold touch at h ⊢
  simp only [h, List.set_set]

theorem lineAt_touch (c : cache_t) (si k clock : Nat) (l : line_t)
    (hsi : si < c.sets.length) (hk : k < (linesOf c si).length) (sj i : Nat) :
    lineAt (touch c si k clock l) sj i =
      if sj = si ∧ i = k then l else lineAt c sj i := by
  by_cases hs : sj = si
  · subst hs
    by_cases hi : i = k
    · subst hi
      rw [if_pos ⟨rfl, rfl⟩]
      exact lineAt_touch_same c sj i clock l hsi hk
    · rw [if_neg (fun h => hi h.2)]
      exact lineAt_touch_ne c sj k i clock l hsi (Ne.symm hi)
  · rw [if_neg (fun h => hs h.1)]
    unfold lineAt
    rw [linesOf_touch_other c si sj k clock l (Ne.symm hs)]

theorem clockOf_touch (c : cache_t) (si k clock : Nat) (l : line_t)
    (hsi : si < c.sets.length) (sj : Nat) :
    clockOf (touch c si k clock l) sj = if sj = si then clock else clockOf c sj := by
  by_cases hs : sj = si
  · subst hs
    rw [if_pos rfl]
    exact clockOf_touch_same c sj k clock l hsi
  · rw [if_neg hs]
    exact clockOf_touch_other c si sj k clock l (Ne.symm hs)

/-- After a call wrote line `k` with the tag, where no valid line of lower
index holds the tag, a second call with the same tag hits line `k`. -/
theorem second_call (c : cache_t) (hc : c.allocated) (si tag k a : Nat) (l : line_t)
    (hsi : si < c.sets.length) (hk : k < c.lines_per_set)
    (hv : l.valid = true) (ht : l.tag = tag)
    (hfirst : ∀ j, j < k → ¬ ((lineAt c si j).tag = tag ∧ (lineAt c si j).valid = true)) :
    cache (touch c si k a l) si tag = some (status_t.HIT,
      touch c si k ((a + 1) % 2 ^ 32) { l with order := (a + 1) % 2 ^ 32 }) := by
  have hlen : (linesOf c si).length = c.lines_per_set := by
    rw [linesOf_eq c si hsi]
    exact hc.2 _ (List.getElem_mem hsi)
  have hk1 : k < (linesOf c si).length := by omega
  have hc1 := touch_allocated c si k a l hc hsi
  have g0 : si < (touch c si k a l).sets.length := by
    simp only [touch, List.length_set]
    exact hsi
  have glen : (linesOf (touch c si k a l) si).length = (touch c si k a l).lines_per_set := by
    rw [linesOf_touch_same c si k a l hsi, List.length_set]
    exact hlen
  have hline : lineAt (touch c si k a l) si k = l := lineAt_touch_same c si k a l hsi hk1
  have hnext : nextClock (touch c si k a l) si = (a + 1) % 2 ^ 32 := by
    unfold nextClock
    rw [clockOf_touch_same c si k a l hsi]
  have h := cache_hit_of (touch c si k a l) si tag g0 glen k hk
    (by rw [hline]; exact ⟨ht, hv⟩)
    (by
      intro j hj
      rw [lineAt_touch_ne c si k j a l hsi (by omega)]
      exact hfirst j hj)
  rw [h, hline, hnext, touch_touch c si k a _ l _ hsi]

/-! ## Two caches in step -/

theorem Paired.write {c1 c2 : cache_t} (hP : Paired c1 c2) (si k a1 a2 : Nat)
    (l1 l2 : line_t) (hsi : si < c1.set_number) (hk : k < c1.lines_per_set)
    (ht : l2.tag = l1.tag) (hv : l2.valid = l1.valid) (ho1 : l1.order = a1)
    (ho2 : l2.order = a2) (hgt1 : clockOf c1 si < a1) (hgt2 : clockOf c2 si < a2) :
    Paired (touch c1 si k a1 l1) (touch c2 si k a2 l2) := by
  obtain ⟨h01, hlen1⟩ := allocated_lines c1 hP.alloc1 si hsi
  obtain ⟨h02, hlen2⟩ := allocated_lines c2 hP.alloc2 si (by rw [hP.same_S]; exact hsi)
  have hk1 : k < (linesOf c1 si).length := by omega
  have hk2 : k < (linesOf c2 si).length := by rw [hlen2, hP.same_E]; exact hk
  refine ⟨touch_allocated c1 si k a1 l1 hP.alloc1 h01,
    touch_allocated c2 si k a2 l2 hP.alloc2 h02, hP.same_S, hP.same_E, hP.same_sb,
    hP.same_bb, ?_, ?_, ?_, ?_⟩
  · intro j i
    rw [lineAt_touch c1 si k a1 l1 h01 hk1, lineAt_touch c2 si k a2 l2 h02 hk2]
    by_cases hc : j = si ∧ i = k
    · rw [if_pos hc, if_pos hc]
      exact ⟨ht, hv⟩
    · rw [if_neg hc, if_neg hc]
      exact hP.same_tv j i
  · intro j i1 i2
    rw [lineAt_touch c1 si k a1 l1 h01 hk1, lineAt_touch c2 si k a2 l2 h02 hk2,
      lineAt_touch c1 si k a1 l1 h01 hk1, lineAt_touch c2 si k a2 l2 h02 hk2]
    by_cases hj : j = si
    · subst hj
      have b1 := hP.le1 j i1
      have b2 := hP.le1 j i2
      have b3 := hP.le2 j i1
      have b4 := hP.le2 j i2
      by_cases h1 : i1 = k <;> by_cases h2 : i2 = k
      · rw [if_pos ⟨rfl, h1⟩, if_pos ⟨rfl, h2⟩, if_pos ⟨rfl, h1⟩, if_pos ⟨rfl, h2⟩]
        constructor <;> intro h <;> omega
      · rw [if_pos ⟨rfl, h1⟩, if_neg (fun h => h2 h.2), if_pos ⟨rfl, h1⟩,
          if_neg (fun h => h2 h.2)]
        constructor <;> intro h <;> omega
      · rw [if_neg (fun h => h1 h.2), if_pos ⟨rfl, h2⟩, if_neg (fun h => h1 h.2),
          if_pos ⟨rfl, h2⟩]
        constructor <;> intro h <;> omega
      · rw [if_neg (fun h => h1 h.2), if_neg (fun h => h2 h.2), if_neg (fun h => h1 h.2),
          if_neg (fun h => h2 h.2)]
        exact hP.same_ord j i1 i2
    · rw [if_neg (fun h => hj h.1), if_neg (fun h => hj h.1), if_neg (fun h => hj h.1),
        if_neg (fun h => hj h.1)]
      exact hP.same_ord j i1 i2
  · intro j i
    rw [lineAt_touch c1 si k a1 l1 h01 hk1, clockOf_touch c1 si k a1 l1 h01]
    have b1 := hP.le1 j i
    by_cases hj : j = si
    · subst hj
      rw [if_pos rfl]
      by_cases h1 : i = k
      · rw [if_pos ⟨rfl, h1⟩]
        omega
      · rw [if_neg (fun h => h1 h.2)]
        omega
    · rw [if_neg (fun h => hj h.1), if_neg hj]
      exact b1
  · intro j i
    rw [lineAt_touch c2 si k a2 l2 h02 hk2, clockOf_touch c2 si k a2 l2 h02]
    have b1 := hP.le2 j i
    by_cases hj : j = si
    · subst hj
      rw [if_pos rfl]
      by_cases h1 : i = k
      · rw [if_pos ⟨rfl, h1⟩]
        omega
      · rw [if_neg (fun h => h1 h.2)]
        omega
    · rw [if_neg (fun h => hj h.1), if_neg hj]
      exact b1

/-- One call on each of two caches in step, before a clock can wrap: both
return the same status and write the same line, a second call on the
second cache hits that line, and the caches stay in step, after the first
call and after the second. -/
theorem pair_step {c1 c2 : cache_t} (hP : Paired c1 c2) (si tag : Nat)
    (hsi : si < c1.set_number) (hE : 0 < c1.lines_per_set)
    (hb1 : clockOf c1 si + 1 < 2 ^ 32) (hb2 : clockOf c2 si + 2 < 2 ^ 32) :
    ∃ status k l1 l2 l3,
      cache c1 si tag = some (status, touch c1 si k (clockOf c1 si + 1) l1) ∧
      cache c2 si tag = some (status, touch c2 si k (clockOf c2 si + 1) l2) ∧
      cache (touch c2 si k (clockOf c2 si + 1) l2) si tag =
        some (status_t.HIT, touch c2 si k (clockOf c2 si + 2) l3) ∧
      Paired (touch c1 si k (clockOf c1 si + 1) l1) (touch c2 si k (clockOf c2 si + 1) l2) ∧
      Paired (touch c1 si k (clockOf c1 si + 1) l1)
        (touch c2 si k (clockOf c2 si + 2) l3) := by
  obtain ⟨h01, hlen1⟩ := allocated_lines c1 hP.alloc1 si hsi
  obtain ⟨h02, hlen2⟩ := allocated_lines c2 hP.alloc2 si (by rw [hP.same_S]; exact hsi)
  have nc1 : nextClock c1 si = clockOf c1 si + 1 := Nat.mod_eq_of_lt hb1
  have nc2 : nextClock c2 si = clockOf c2 si + 1 := Nat.mod_eq_of_lt (by omega)
  have nc3 : (clockOf c2 si + 1 + 1) % 2 ^ 32 = clockOf c2 si + 2 := Nat.mod_eq_of_lt hb2
  have hmatch : ∀ j, ((lineAt c2 si j).tag = tag ∧ (lineAt c2 si j).valid = true) ↔
      ((lineAt c1 si j).tag = tag ∧ (lineAt c1 si j).valid = true) := by
    intro j
    rw [(hP.same_tv si j).1, (hP.same_tv si j).2]
  have hE2 := hP.same_E
  -- the common end of the three cases
  have close : ∀ (status : status_t) (k : Nat) (l1 l2 : line_t), k < c1.lines_per_set →
      l2.tag = l1.tag → l2.valid = l1.valid → l1.order = clockOf c1 si + 1 →
      l2.order = clockOf c2 si + 1 → l2.valid = true → l2.tag = tag →
      (∀ j, j < k → ¬ ((lineAt c2 si j).tag = tag ∧ (lineAt c2 si j).valid = true)) →
      cache c1 si tag = some (status, touch c1 si k (clockOf c1 si + 1) l1) →
      cache c2 si tag = some (status, touch c2 si k (clockOf c2 si + 1) l2) →
      ∃ status k l1 l2 l3,
        cache c1 si tag = some (status, touch c1 si k (clockOf c1 si + 1) l1) ∧
        cache c2 si tag = some (status, touch c2 si k (clockOf c2 si + 1) l2) ∧
        cache (touch c2 si k (clockOf c2 si + 1) l2) si tag =
          some (status_t.HIT, touch c2 si k (clockOf c2 si + 2) l3) ∧
        Paired (touch c1 si k (clockOf c1 si + 1) l1)
          (touch c2 si k (clockOf c2 si + 1) l2) ∧
        Paired (touch c1 si k (clockOf c1 si + 1) l1)
          (touch c2 si k (clockOf c2 si + 2) l3) := by
    intro status k l1 l2 hk ht hv ho1 ho2 hv2 ht2 hfirst hc1 hc2
    have hsec := second_call c2 hP.alloc2 si tag k (clockOf c2 si + 1) l2 h02
      (by rw [hE2]; exact hk) hv2 ht2 hfirst
    rw [nc3] at hsec
    exact ⟨status, k, l1, l2, _, hc1, hc2, hsec,
      hP.write si k _ _ l1 l2 hsi hk ht hv ho1 ho2 (by omega) (by omega),
      hP.write si k _ _ l1 _ hsi hk ht hv ho1 rfl (by omega) (by omega)⟩
  rcases cache_spec c1 si tag h01 hlen1 with
    ⟨k, hk, hm, hfirst, hc⟩ | ⟨hno, k, hk, hv, hfirst, hc⟩ |
    ⟨hno, hall, k, hk, hlt, hmin, hfirst, hc⟩ | ⟨-, -, hge, -⟩
  · have hf2 : ∀ j, j < k →
        ¬ ((lineAt c2 si j).tag = tag ∧ (lineAt c2 si j).valid = true) :=
      fun j hj hx => hfirst j hj ((hmatch j).mp hx)
    have hm2 := (hmatch k).mpr hm
    have hc2 := cache_hit_of c2 si tag h02 hlen2 k (by rw [hE2]; exact hk) hm2 hf2
    rw [nc1] at hc
    rw [nc2] at hc2
    exact close _ k { lineAt c1 si k with order := clockOf c1 si + 1 }
      { lineAt c2 si k with order := clockOf c2 si + 1 } hk (hP.same_tv si k).1
      (hP.same_tv si k).2 rfl rfl hm2.2 hm2.1 hf2 hc hc2
  · have hno2 : ∀ j, j < c2.lines_per_set →
        ¬ ((lineAt c2 si j).tag = tag ∧ (lineAt c2 si j).valid = true) :=
      fun j hj hx => hno j (by rw [← hE2]; exact hj) ((hmatch j).mp hx)
    have hc2 := cache_fill_of c2 si tag h02 hlen2 hno2 k (by rw [hE2]; exact hk)
      (by rw [(hP.same_tv si k).2]; exact hv)
      (fun j hj => by rw [(hP.same_tv si j).2]; exact hfirst j hj)
    rw [nc1] at hc
    rw [nc2] at hc2
    exact close _ k { valid := true, tag := tag, order := clockOf c1 si + 1 }
      { valid := true, tag := tag, order := clockOf c2 si + 1 } hk rfl rfl rfl rfl rfl rfl
      (fun j hj => hno2 j (by rw [hE2]; omega)) hc hc2
  · have hno2 : ∀ j, j < c2.lines_per_set →
        ¬ ((lineAt c2 si j).tag = tag ∧ (lineAt c2 si j).valid = true) :=
      fun j hj hx => hno j (by rw [← hE2]; exact hj) ((hmatch j).mp hx)
    have hc2 := cache_evict_of c2 si tag h02 hlen2 hno2
      (fun j hj => by rw [(hP.same_tv si j).2]; exact hall j (by rw [← hE2]; exact hj))
      k (by rw [hE2]; exact hk)
      (by rw [nc2]; have := hP.le2 si k; omega)
      (fun j hj => by
        have h1 := hmin j (by rw [← hE2]; exact hj)
        have h2 := (hP.same_ord si j k).not
        have h3 : ¬ (lineAt c1 si j).order < (lineAt c1 si k).order := by omega
        have h4 := h2.mp h3
        omega)
      (fun j hj => (hP.same_ord si k j).mp (hfirst j hj))
    rw [nc1] at hc
    rw [nc2] at hc2
    exact close _ k { valid := true, tag := tag, order := clockOf c1 si + 1 }
      { valid := true, tag := tag, order := clockOf c2 si + 1 } hk rfl rfl rfl rfl rfl rfl
      (fun j hj => hno2 j (by rw [hE2]; omega)) hc hc2
  · exfalso
    have h1 := hge 0 hE
    have h2 := hP.le1 si 0
    omega

theorem cache_none_of_ge (c : cache_t) (hc : c.allocated) (si tag : Nat)
    (h : c.set_number ≤ si) : cache c si tag = none := by
  cases hcall : cache c si tag with
  | none => rfl
  | some r =>
    obtain ⟨status, c1⟩ := r
    obtain ⟨-, -, -, hsi⟩ := cache_allocated c hc si tag status c1 hcall
    omega

/-! ## The two drivers in step -/

theorem bump_true_eq (k : counters) (status : status_t) (h1 : k.hit_count + 2 < 2 ^ 32)
    (h2 : k.miss_count + 1 < 2 ^ 32) (h3 : k.eviction_count + 1 < 2 ^ 32) :
    bump true k status = specCount (specCount k status) status_t.HIT := by
  have e1 : (k.hit_count + 2) % 2 ^ 32 = k.hit_count + 2 := Nat.mod_eq_of_lt h1
  have e2 : (k.hit_count + 1) % 2 ^ 32 = k.hit_count + 1 := Nat.mod_eq_of_lt (by omega)
  have e3 : (k.miss_count + 1) % 2 ^ 32 = k.miss_count + 1 := Nat.mod_eq_of_lt h2
  have e4 : (k.eviction_count + 1) % 2 ^ 32 = k.eviction_count + 1 := Nat.mod_eq_of_lt h3
  cases status <;> simp only [bump, specCount, e1, e2, e3, e4]

theorem bump_false_eq (k : counters) (status : status_t) (h1 : k.hit_count + 1 < 2 ^ 32)
    (h2 : k.miss_count + 1 < 2 ^ 32) (h3 : k.eviction_count + 1 < 2 ^ 32) :
    bump false k status = specCount k status := by
  have e2 : (k.hit_count + 1) % 2 ^ 32 = k.hit_count + 1 := Nat.mod_eq_of_lt h1
  have e3 : (k.miss_count + 1) % 2 ^ 32 = k.miss_count + 1 := Nat.mod_eq_of_lt h2
  have e4 : (k.eviction_count + 1) % 2 ^ 32 = k.eviction_count + 1 := Nat.mod_eq_of_lt h3
  cases status <;> simp only [bump, specCount, e2, e3, e4]

theorem specCount_le (k : counters) (status : status_t) :
    (specCount k status).hit_count ≤ k.hit_count + 1 ∧
    (specCount k status).miss_count ≤ k.miss_count + 1 ∧
    (specCount k status).eviction_count ≤ k.eviction_count + 1 ∧
    k.hit_count ≤ (specCount k status).hit_count ∧
    (status ≠ status_t.HIT → (specCount k status).hit_count = k.hit_count) ∧
    (status = status_t.HIT → (specCount k status).miss_count = k.miss_count ∧
      (specCount k status).eviction_count = k.eviction_count) := by
  cases status <;> simp [specCount]

theorem pairedDrivers_step (d1 d2 : driver) (n : Nat) (hP : PairedDrivers d1 d2 n)
    (hn : 2 * n + 2 < 2 ^ 32) (hE : 0 < d1.cache_ptr.lines_per_set) (ev : event) :
    (accessMemory.step d1 ev = none ∧ twoCallStep d2 ev = none) ∨
    ∃ e1 e2, accessMemory.step d1 ev = some e1 ∧ twoCallStep d2 ev = some e2 ∧
      PairedDrivers e1 e2 (n + 1) ∧
      e1.cache_ptr.lines_per_set = d1.cache_ptr.lines_per_set := by
  obtain ⟨hC, hcount, hlog, hclk, hh, hm, he⟩ := hP
  have hparse := parseAddressInfo_congr d1.cache_ptr d2.cache_ptr hC.same_sb hC.same_bb
    ev.address
  by_cases hop : ev.op = 'M' ∨ ev.op = 'L' ∨ ev.op = 'S'
  · by_cases hsi : (parseAddressInfo d1.cache_ptr ev.address).1 < d1.cache_ptr.set_number
    · right
      have hb1 := (hclk (parseAddressInfo d1.cache_ptr ev.address).1).1
      have hb2 := (hclk (parseAddressInfo d1.cache_ptr ev.address).1).2
      obtain ⟨status, k, l1, l2, l3, hc1, hc2, hc3, P12, P13⟩ :=
        pair_step hC (parseAddressInfo d1.cache_ptr ev.address).1
          (parseAddressInfo d1.cache_ptr ev.address).2 hsi hE (by omega) (by omega)
      have h01 : (parseAddressInfo d1.cache_ptr ev.address).1 < d1.cache_ptr.sets.length := by
        rw [hC.alloc1.1]; exact hsi
      have h02 : (parseAddressInfo d1.cache_ptr ev.address).1 < d2.cache_ptr.sets.length := by
        rw [hC.alloc2.1, hC.same_S]; exact hsi
      have hs := specCount_le d2.count status
      by_cases hM : ev.op = 'M'
      · refine ⟨(driver.mk (touch d1.cache_ptr (parseAddressInfo d1.cache_ptr ev.address).1 k
          (clockOf d1.cache_ptr (parseAddressInfo d1.cache_ptr ev.address).1 + 1) l1)
          (bump (decide (ev.op = 'M')) d1.count status) (d1.log ++ [status])),
          driver.mk (touch d2.cache_ptr (parseAddressInfo d1.cache_ptr ev.address).1 k
          (clockOf d2.cache_ptr (parseAddressInfo d1.cache_ptr ev.address).1 + 2) l3)
          (specCount (specCount d2.count status) status_t.HIT)
          (d2.log ++ [status]), ?_, ?_, ?_, rfl⟩
        · rw [step_access d1 ev hop, hc1]
          rfl
        · simp only [twoCallStep, if_pos hM, hparse, hc2, hc3]
        · have hs2 := specCount_le (specCount d2.count status) status_t.HIT
          refine ⟨P13, ?_, by rw [hlog], ?_, ?_, ?_, ?_⟩
          · show bump (decide (ev.op = 'M')) d1.count status = _
            rw [decide_eq_true hM, hcount]
            exact bump_true_eq d2.count status (by omega) (by omega) (by omega)
          · intro j
            show clockOf (touch _ _ _ _ _) j ≤ _ ∧ clockOf (touch _ _ _ _ _) j ≤ _
            rw [clockOf_touch _ _ _ _ _ h01, clockOf_touch _ _ _ _ _ h02]
            have := hclk j
            by_cases hj : j = (parseAddressInfo d1.cache_ptr ev.address).1
            · rw [if_pos hj, if_pos hj]
              omega
            · rw [if_neg hj, if_neg hj]
              omega
          · show (specCount (specCount d2.count status) status_t.HIT).hit_count ≤ _
            omega
          · show (specCount (specCount d2.count status) status_t.HIT).miss_count ≤ _
            have := (hs2.2.2.2.2.2 rfl).1
            omega
          · show (specCount (specCount d2.count status) status_t.HIT).eviction_count ≤ _
            have := (hs2.2.2.2.2.2 rfl).2
            omega
      · have hLS : ev.op = 'L' ∨ ev.op = 'S' := by
          rcases hop with h1 | h1 | h1
          · exact absurd h1 hM
          · exact Or.inl h1
          · exact Or.inr h1
        refine ⟨(driver.mk (touch d1.cache_ptr (parseAddressInfo d1.cache_ptr ev.address).1 k
          (clockOf d1.cache_ptr (parseAddressInfo d1.cache_ptr ev.address).1 + 1) l1)
          (bump (decide (ev.op = 'M')) d1.count status) (d1.log ++ [status])),
          driver.mk (touch d2.cache_ptr (parseAddressInfo d1.cache_ptr ev.address).1 k
          (clockOf d2.cache_ptr (parseAddressInfo d1.cache_ptr ev.address).1 + 1) l2)
          (specCount d2.count status) (d2.log ++ [status]),
          ?_, ?_, ?_, rfl⟩
        · rw [step_access d1 ev hop, hc1]
          rfl
        · simp only [twoCallStep, if_neg hM, if_pos hLS, hparse, hc2]
        · refine ⟨P12, ?_, by rw [hlog], ?_, ?_, ?_, ?_⟩
          · show bump (decide (ev.op = 'M')) d1.count status = _
            rw [decide_eq_false hM, hcount]
            exact bump_false_eq d2.count status (by omega) (by omega) (by omega)
          · intro j
            show clockOf (touch _ _ _ _ _) j ≤ _ ∧ clockOf (touch _ _ _ _ _) j ≤ _
            rw [clockOf_touch _ _ _ _ _ h01, clockOf_touch _ _ _ _ _ h02]
            have := hclk j
            by_cases hj : j = (parseAddressInfo d1.cache_ptr ev.address).1
            · rw [if_pos hj, if_pos hj]
              omega
            · rw [if_neg hj, if_neg hj]
              omega
          · show (specCount d2.count status).hit_count ≤ _
            omega
          · show (specCount d2.count status).miss_count ≤ _
            omega
          · show (specCount d2.count status).eviction_count ≤ _
            omega
    · left
      have hn1 := cache_none_of_ge d1.cache_ptr hC.alloc1
        (parseAddressInfo d1.cache_ptr ev.address).1
        (parseAddressInfo d1.cache_ptr ev.address).2 (by omega)
      have hn2 := cache_none_of_ge d2.cache_ptr hC.alloc2
        (parseAddressInfo d1.cache_ptr ev.address).1
        (parseAddressInfo d1.cache_ptr ev.address).2 (by rw [hC.same_S]; omega)
      constructor
      · rw [step_access d1 ev hop, hn1]
        rfl
      · by_cases hM : ev.op = 'M'
        · simp only [twoCallStep, if_pos hM, hparse, hn2]
        · have hLS : ev.op = 'L' ∨ ev.op = 'S' := by
            rcases hop with h1 | h1 | h1
            · exact absurd h1 hM
            · exact Or.inl h1
            · exact Or.inr h1
          simp only [twoCallStep, if_neg hM, if_pos hLS, hparse, hn2]
  · right
    have hM : ¬ ev.op = 'M' := fun hc => hop (Or.inl hc)
    have hLS : ¬ (ev.op = 'L' ∨ ev.op = 'S') := fun hc => hop (Or.inr hc)
    refine ⟨d1, d2, step_other d1 ev hop, ?_, ?_, rfl⟩
    · simp only [twoCallStep, if_neg hM, if_neg hLS]
    · exact ⟨hC, hcount, hlog, fun j => ⟨by have := (hclk j).1; omega,
        by have := (hclk j).2; omega⟩, by omega, by omega, by omega⟩

theorem pairedDrivers_run (tr : List event) :
    ∀ (d1 d2 : driver) (n : Nat), PairedDrivers d1 d2 n →
      0 < d1.cache_ptr.lines_per_set → 2 * (n + tr.length) < 2 ^ 32 →
      (accessMemory d1 tr = none ∧ twoCallDriver d2 tr = none) ∨
      ∃ e1 e2, accessMemory d1 tr = some e1 ∧ twoCallDriver d2 tr = some e2 ∧
        PairedDrivers e1 e2 (n + tr.length) := by
  induction tr with
  | nil =>
    intro d1 d2 n hP _ _
    exact Or.inr ⟨d1, d2, rfl, rfl, hP⟩
  | cons ev tr ih =>
    intro d1 d2 n hP hE hn
    simp only [List.length_cons] at hn
    rcases pairedDrivers_step d1 d2 n hP (by omega) hE ev with
      ⟨h1, h2⟩ | ⟨e1, e2, h1, h2, hP1, hE1⟩
    · left
      simp only [accessMemory, twoCallDriver, h1, h2, and_self]
    · rcases ih e1 e2 (n + 1) hP1 (by rw [hE1]; exact hE) (by omega) with
        ⟨g1, g2⟩ | ⟨f1, f2, g1, g2, hP2⟩
      · left
        simp only [accessMemory, twoCallDriver, h1, h2, g1, g2, and_self]
      · right
        refine ⟨f1, f2, ?_, ?_, ?_⟩
        · simp only [accessMemory, h1, g1]
        · simp only [twoCallDriver, h2, g2]
        · rw [List.length_cons, show n + (tr.length + 1) = n + 1 + tr.length by omega]
          exact hP2

/-! ## Claim C19 -/

theorem lineAt_createCache (s E b j i : Nat) :
    lineAt (createCache s E b) j i = line_t.zero := by
  unfold lineAt
  by_cases hj : j < (createCache s E b).set_number
  · rw [(linesOf_createCache s E b j hj).1]
    by_cases hi : i < E
    · rw [List.getD_eq_getElem _ _ (by rw [List.length_replicate]; exact hi)]
      rw [List.getElem_replicate]
      rfl
    · rw [List.getD_eq_default _ _ (by rw [List.length_replicate]; omega)]
  · rw [linesOf_of_le _ _ (by rw [(createCache_allocated s E b).1]; omega)]
    rfl

theorem clockOf_createCache (s E b j : Nat) : clockOf (createCache s E b) j = 0 := by
  by_cases hj : j < (createCache s E b).set_number
  · exact (linesOf_createCache s E b j hj).2
  · have hj1 : ¬ j < (1 <<< s) % 2 ^ 32 := hj
    simp only [clockOf, createCache, List.getElem?_replicate, if_neg hj1]

theorem pairedDrivers_init (s E b : Nat) :
    PairedDrivers (driver.init s E b) (driver.init s E b) 0 := by
  have hle : ∀ j i, (lineAt (createCache s E b) j i).order ≤ clockOf (createCache s E b) j := by
    intro j i
    rw [lineAt_createCache, clockOf_createCache]
    exact Nat.le_refl 0
  refine ⟨⟨createCache_allocated s E b, createCache_allocated s E b, rfl, rfl, rfl, rfl,
    fun _ _ => ⟨rfl, rfl⟩, fun _ _ _ => Iff.rfl, hle, hle⟩, rfl, rfl, ?_, ?_, ?_, ?_⟩
  · intro j
    show clockOf (createCache s E b) j ≤ 0 ∧ clockOf (createCache s E b) j ≤ 2 * 0
    rw [clockOf_createCache]
    exact ⟨Nat.le_refl 0, Nat.le_refl 0⟩
  · exact Nat.zero_le _
  · exact Nat.zero_le _
  · exact Nat.zero_le _

theorem twoCallDriver_of_accessMemory (s E b : Nat) (tr : List event) (hE : 1 ≤ E)
    (hlen : tr.length < 2 ^ 31) (d1 : driver)
    (h : accessMemory (driver.init s E b) tr = some d1) :
    ∃ d2, twoCallDriver (driver.init s E b) tr = some d2 := by
  rcases pairedDrivers_run tr _ _ 0 (pairedDrivers_init s E b) hE (by omega) with
    ⟨h1, -⟩ | ⟨e1, e2, -, h2, -⟩
  · rw [h] at h1
    cases h1
  · exact ⟨e2, h2⟩

/-- C19 (amended): for every `E ≥ 1` and every trace of fewer than `2 ^ 31`
records replayed from `driver.init s E b`, `accessMemory` (one call of
`cache` per Modify and one extra hit) and the driver of the specification
(two calls of `cache` per Modify) return together, and when they return the
three counters are equal, the logged statuses of the events are equal, every
line holds the same tag and valid bit in both caches, and the recency stamps
of the lines of every set are in the same relative order; for `s ≤ 30` both
drivers do return.  The statement at every prefix of a trace is the
statement for the prefix as the trace. -/
theorem C19_modify_equivalence (s E b : Nat) (tr : List event) (hE : 1 ≤ E)
    (hlen : tr.length < 2 ^ 31) :
    ((accessMemory (driver.init s E b) tr = none ∧
        twoCallDriver (driver.init s E b) tr = none) ∨
      ∃ d1 d2, accessMemory (driver.init s E b) tr = some d1 ∧
        twoCallDriver (driver.init s E b) tr = some d2 ∧
        d1.count = d2.count ∧ d1.log = d2.log ∧
        (∀ j i, (lineAt d2.cache_ptr j i).tag = (lineAt d1.cache_ptr j i).tag ∧
          (lineAt d2.cache_ptr j i).valid = (lineAt d1.cache_ptr j i).valid) ∧
        ∀ j i1 i2, (lineAt d1.cache_ptr j i1).order < (lineAt d1.cache_ptr j i2).order ↔
          (lineAt d2.cache_ptr j i1).order < (lineAt d2.cache_ptr j i2).order) ∧
    (s ≤ 30 → ∃ d1 d2, accessMemory (driver.init s E b) tr = some d1 ∧
      twoCallDriver (driver.init s E b) tr = some d2) := by
  constructor
  · rcases pairedDrivers_run tr _ _ 0 (pairedDrivers_init s E b) hE (by omega) with
      h | ⟨e1, e2, h1, h2, hP, hcount, hlog, -⟩
    · exact Or.inl h
    · exact Or.inr ⟨e1, e2, h1, h2, hcount, hlog, hP.same_tv, hP.same_ord⟩
  · intro hs
    obtain ⟨d1, h1⟩ := accessMemory_total s E b tr hs hE (by omega)
    obtain ⟨d2, h2⟩ := twoCallDriver_of_accessMemory s E b tr hE hlen d1 h1
    exact ⟨d1, d2, h1, h2⟩

theorem C19_modify_equivalence_witness :
    ((accessMemory (driver.init 0 1 0)
          [{ op := 'M', address := 0, size := 1 }, { op := 'L', address := 1, size := 1 }] =
          none ∧
        twoCallDriver (driver.init 0 1 0)
          [{ op := 'M', address := 0, size := 1 }, { op := 'L', address := 1, size := 1 }] =
          none) ∨
      ∃ d1 d2, accessMemory (driver.init 0 1 0)
          [{ op := 'M', address := 0, size := 1 }, { op := 'L', address := 1, size := 1 }] =
          some d1 ∧
        twoCallDriver (driver.init 0 1 0)
          [{ op := 'M', address := 0, size := 1 }, { op := 'L', address := 1, size := 1 }] =
          some d2 ∧
        d1.count = d2.count ∧ d1.log = d2.log ∧
        (∀ j i, (lineAt d2.cache_ptr j i).tag = (lineAt d1.cache_ptr j i).tag ∧
          (lineAt d2.cache_ptr j i).valid = (lineAt d1.cache_ptr j i).valid) ∧
        ∀ j i1 i2, (lineAt d1.cache_ptr j i1).order < (lineAt d1.cache_ptr j i2).order ↔
          (lineAt d2.cache_ptr j i1).order < (lineAt d2.cache_ptr j i2).order) ∧
    (0 ≤ 30 → ∃ d1 d2, accessMemory (driver.init 0 1 0)
        [{ op := 'M', address := 0, size := 1 }, { op := 'L', address := 1, size := 1 }] =
        some d1 ∧
      twoCallDriver (driver.init 0 1 0)
        [{ op := 'M', address := 0, size := 1 }, { op := 'L', address := 1, size := 1 }] =
        some d2) :=
  C19_modify_equivalence 0 1 0
    [{ op := 'M', address := 0, size := 1 }, { op := 'L', address := 1, size := 1 }]
    (by decide) (by decide)

/-! ### The counterexample of claim C19: a trace of `2 ^ 31 + 3` records -/

theorem accessMemory_append (t1 t2 : List event) :
    ∀ d, accessMemory d (t1 ++ t2) = (accessMemory d t1).bind (fun d1 => accessMemory d1 t2) := by
  induction t1 with
  | nil => intro d; rfl
  | cons ev t1 ih =>
    intro d
    show (match accessMemory.step d ev with
      | none => none
      | some d1 => accessMemory d1 (t1 ++ t2)) =
      (match accessMemory.step d ev with
      | none => none
      | some d1 => accessMemory d1 t1).bind (fun d1 => accessMemory d1 t2)
    cases accessMemory.step d ev with
    | none => rfl
    | some d1 => exact ih d1

theorem twoCallDriver_append (t1 t2 : List event) :
    ∀ d, twoCallDriver d (t1 ++ t2) =
      (twoCallDriver d t1).bind (fun d1 => twoCallDriver d1 t2) := by
  induction t1 with
  | nil => intro d; rfl
  | cons ev t1 ih =>
    intro d
    show (match twoCallStep d ev with
      | none => none
      | some d1 => twoCallDriver d1 (t1 ++ t2)) =
      (match twoCallStep d ev with
      | none => none
      | some d1 => twoCallDriver d1 t1).bind (fun d1 => twoCallDriver d1 t2)
    cases twoCallStep d ev with
    | none => rfl
    | some d1 => exact ih d1

theorem parseAddressInfo_pairCache (clock : Nat) (l0 l1 : line_t) (address : Nat) :
    parseAddressInfo (pairCache clock l0 l1) address =
      parseAddressInfo (createCache 0 2 0) address :=
  parseAddressInfo_congr (createCache 0 2 0) (pairCache clock l0 l1) rfl rfl address

theorem parseAddressInfo_twoLine (n : Nat) : parseAddressInfo (twoLine n) 1 = (0, 1) := by
  show parseAddressInfo (pairCache _ _ _) 1 = (0, 1)
  rw [parseAddressInfo_pairCache]
  decide

theorem twoLine_hit (n : Nat) :
    cache (twoLine n) 0 1 = some (status_t.HIT, twoLine (n + 1)) := by
  have h := cache_hit_of (twoLine n) 0 1 Nat.zero_lt_one rfl 1 Nat.one_lt_two ⟨rfl, rfl⟩
    (by
      intro j hj
      have hj0 : j = 0 := by omega
      subst hj0
      rintro ⟨h1, -⟩
      cases h1)
  rw [h]
  have hc : nextClock (twoLine n) 0 = (n + 1) % 2 ^ 32 := by
    show (n % 2 ^ 32 + 1) % 2 ^ 32 = (n + 1) % 2 ^ 32
    omega
  rw [hc]
  rfl

theorem modify_step_one (n h m e sz : Nat) (log : List status_t) :
    accessMemory.step ⟨twoLine n, ⟨h, m, e⟩, log⟩ ⟨'M', 1, sz⟩ =
      some ⟨twoLine (n + 1), ⟨(h + 2) % 2 ^ 32, m, e⟩, log ++ [status_t.HIT]⟩ := by
  rw [step_access _ _ (Or.inl rfl)]
  show (cache (twoLine n) (parseAddressInfo (twoLine n) 1).1
    (parseAddressInfo (twoLine n) 1).2).map _ = _
  rw [parseAddressInfo_twoLine, twoLine_hit]
  rfl

theorem accessMemory_cons (d : driver) (ev : event) (tr : List event) :
    accessMemory d (ev :: tr) =
      (accessMemory.step d ev).bind (fun d1 => accessMemory d1 tr) := by
  show (match accessMemory.step d ev with
    | none => none
    | some d1 => accessMemory d1 tr) = _
  cases accessMemory.step d ev <;> rfl

theorem twoCallDriver_cons (d : driver) (ev : event) (tr : List event) :
    twoCallDriver d (ev :: tr) =
      (twoCallStep d ev).bind (fun d1 => twoCallDriver d1 tr) := by
  show (match twoCallStep d ev with
    | none => none
    | some d1 => twoCallDriver d1 tr) = _
  cases twoCallStep d ev <;> rfl

theorem step_of_cache (d : driver) (ev : event)
    (hop : ev.op = 'M' ∨ ev.op = 'L' ∨ ev.op = 'S') (status : status_t) (c : cache_t)
    (h : cache d.cache_ptr (parseAddressInfo d.cache_ptr ev.address).1
      (parseAddressInfo d.cache_ptr ev.address).2 = some (status, c)) :
    accessMemory.step d ev =
      some ⟨c, bump (decide (ev.op = 'M')) d.count status, d.log ++ [status]⟩ := by
  rw [step_access d ev hop, h]
  rfl

theorem twoCallStep_modify (d : driver) (ev : event) (hM : ev.op = 'M')
    (s1 s2 : status_t) (c1 c2 : cache_t)
    (h1 : cache d.cache_ptr (parseAddressInfo d.cache_ptr ev.address).1
      (parseAddressInfo d.cache_ptr ev.address).2 = some (s1, c1))
    (h2 : cache c1 (parseAddressInfo d.cache_ptr ev.address).1
      (parseAddressInfo d.cache_ptr ev.address).2 = some (s2, c2)) :
    twoCallStep d ev = some ⟨c2, specCount (specCount d.count s1) s2, d.log ++ [s1]⟩ := by
  simp only [twoCallStep, if_pos hM, h1, h2]

theorem twoCallStep_load (d : driver) (ev : event) (hL : ev.op = 'L')
    (status : status_t) (c : cache_t)
    (h : cache d.cache_ptr (parseAddressInfo d.cache_ptr ev.address).1
      (parseAddressInfo d.cache_ptr ev.address).2 = some (status, c)) :
    twoCallStep d ev = some ⟨c, specCount d.count status, d.log ++ [status]⟩ := by
  have hM : ¬ ev.op = 'M' := by rw [hL]; decide
  simp only [twoCallStep, if_neg hM, if_pos (Or.inl hL), h]

theorem modify_step_two (n h m e sz : Nat) (log : List status_t) :
    twoCallStep ⟨twoLine n, ⟨h, m, e⟩, log⟩ ⟨'M', 1, sz⟩ =
      some ⟨twoLine (n + 2), ⟨h + 2, m, e⟩, log ++ [status_t.HIT]⟩ := by
  have h1 : cache (twoLine n) (parseAddressInfo (twoLine n) 1).1
      (parseAddressInfo (twoLine n) 1).2 = some (status_t.HIT, twoLine (n + 1)) := by
    rw [parseAddressInfo_twoLine]
    exact twoLine_hit n
  have h2 : cache (twoLine (n + 1)) (parseAddressInfo (twoLine n) 1).1
      (parseAddressInfo (twoLine n) 1).2 = some (status_t.HIT, twoLine (n + 1 + 1)) := by
    rw [parseAddressInfo_twoLine]
    exact twoLine_hit (n + 1)
  have e1 : n + 1 + 1 = n + 2 := rfl
  rw [e1] at h2
  exact twoCallStep_modify ⟨twoLine n, ⟨h, m, e⟩, log⟩ ⟨'M', 1, sz⟩ rfl _ _ _ _ h1 h2

theorem modify_run_one (k : Nat) : ∀ (n h m e : Nat) (log : List status_t), h < 2 ^ 32 →
    accessMemory ⟨twoLine n, ⟨h, m, e⟩, log⟩ (List.replicate k ⟨'M', 1, 1⟩) =
      some ⟨twoLine (n + k), ⟨(h + 2 * k) % 2 ^ 32, m, e⟩,
        log ++ List.replicate k status_t.HIT⟩ := by
  induction k with
  | zero =>
    intro n h m e log hh
    show some _ = some _
    simp only [Nat.mul_zero, Nat.add_zero, Nat.mod_eq_of_lt hh, List.replicate_zero,
      List.append_nil]
  | succ k ih =>
    intro n h m e log _
    rw [List.replicate_succ, accessMemory_cons, modify_step_one]
    simp only [Option.some_bind]
    rw [ih (n + 1) ((h + 2) % 2 ^ 32) m e _ (Nat.mod_lt _ (by norm_num))]
    have e1 : n + 1 + k = n + (k + 1) := by omega
    have e2 : ((h + 2) % 2 ^ 32 + 2 * k) % 2 ^ 32 = (h + 2 * (k + 1)) % 2 ^ 32 := by omega
    rw [e1, e2, List.append_assoc, List.replicate_succ]
    rfl

theorem modify_run_two (k : Nat) : ∀ (n h m e : Nat) (log : List status_t),
    twoCallDriver ⟨twoLine n, ⟨h, m, e⟩, log⟩ (List.replicate k ⟨'M', 1, 1⟩) =
      some ⟨twoLine (n + 2 * k), ⟨h + 2 * k, m, e⟩,
        log ++ List.replicate k status_t.HIT⟩ := by
  induction k with
  | zero =>
    intro n h m e log
    show some _ = some _
    simp only [Nat.mul_zero, Nat.add_zero, List.replicate_zero, List.append_nil]
  | succ k ih =>
    intro n h m e log
    rw [List.replicate_succ, twoCallDriver_cons, modify_step_two]
    simp only [Option.some_bind]
    rw [ih (n + 2) (h + 2) m e _]
    have e1 : n + 2 + 2 * k = n + 2 * (k + 1) := by omega
    have e2 : h + 2 + 2 * k = h + 2 * (k + 1) := by omega
    rw [e1, e2, List.append_assoc, List.replicate_succ]
    rfl

theorem accessMemory_append_of (t1 t2 : List event) (d d1 : driver)
    (h : accessMemory d t1 = some d1) :
    accessMemory d (t1 ++ t2) = accessMemory d1 t2 := by
  rw [accessMemory_append, h]
  rfl

theorem twoCallDriver_append_of (t1 t2 : List event) (d d1 : driver)
    (h : twoCallDriver d t1 = some d1) :
    twoCallDriver d (t1 ++ t2) = twoCallDriver d1 t2 := by
  rw [twoCallDriver_append, h]
  rfl

theorem accessMemory_two (d d1 d2 : driver) (ev1 ev2 : event)
    (h1 : accessMemory.step d ev1 = some d1) (h2 : accessMemory.step d1 ev2 = some d2) :
    accessMemory d [ev1, ev2] = some d2 := by
  rw [accessMemory_cons, h1]
  show accessMemory d1 [ev2] = some d2
  rw [accessMemory_cons, h2]
  rfl

theorem twoCallDriver_two (d d1 d2 : driver) (ev1 ev2 : event)
    (h1 : twoCallStep d ev1 = some d1) (h2 : twoCallStep d1 ev2 = some d2) :
    twoCallDriver d [ev1, ev2] = some d2 := by
  rw [twoCallDriver_cons, h1]
  show twoCallDriver d1 [ev2] = some d2
  rw [twoCallDriver_cons, h2]
  rfl

theorem suffix_one (h m e : Nat) (log : List status_t) :
    accessMemory ⟨twoLine (3 + 2147483646), ⟨h, m, e⟩, log⟩
        [⟨'L', 2, 1⟩, ⟨'L', 1, 1⟩] =
      some ⟨pairCache 2147483651 ⟨2, 2147483650, true⟩ ⟨1, 2147483651, true⟩,
        ⟨(h + 1) % 2 ^ 32, (m + 1) % 2 ^ 32, (e + 1) % 2 ^ 32⟩,
        log ++ [status_t.MISS_AND_REPLACE] ++ [status_t.HIT]⟩ := by
  have hA : cache (twoLine (3 + 2147483646))
      (parseAddressInfo (twoLine (3 + 2147483646)) 2).1
      (parseAddressInfo (twoLine (3 + 2147483646)) 2).2 =
      some (status_t.MISS_AND_REPLACE,
        pairCache 2147483650 ⟨2, 2147483650, true⟩ ⟨1, 2147483649, true⟩) := by
    decide
  have hB : cache (pairCache 2147483650 ⟨2, 2147483650, true⟩ ⟨1, 2147483649, true⟩)
      (parseAddressInfo
        (pairCache 2147483650 ⟨2, 2147483650, true⟩ ⟨1, 2147483649, true⟩) 1).1
      (parseAddressInfo
        (pairCache 2147483650 ⟨2, 2147483650, true⟩ ⟨1, 2147483649, true⟩) 1).2 =
      some (status_t.HIT,
        pairCache 2147483651 ⟨2, 2147483650, true⟩ ⟨1, 2147483651, true⟩) := by
    decide
  exact accessMemory_two _ _ _ _ _
    (step_of_cache ⟨twoLine (3 + 2147483646), ⟨h, m, e⟩, log⟩ ⟨'L', 2, 1⟩
      (Or.inr (Or.inl rfl)) _ _ hA)
    (step_of_cache _ ⟨'L', 1, 1⟩ (Or.inr (Or.inl rfl)) _ _ hB)

theorem suffix_two (h m e : Nat) (log : List status_t) :
    twoCallDriver ⟨twoLine (4 + 2 * 2147483646), ⟨h, m, e⟩, log⟩
        [⟨'L', 2, 1⟩, ⟨'L', 1, 1⟩] =
      some ⟨pairCache 2 ⟨0, 2, true⟩ ⟨1, 2, true⟩, ⟨h, m + 1 + 1, e + 1 + 1⟩,
        log ++ [status_t.MISS_AND_REPLACE] ++ [status_t.MISS_AND_REPLACE]⟩ := by
  have hA : cache (twoLine (4 + 2 * 2147483646))
      (parseAddressInfo (twoLine (4 + 2 * 2147483646)) 2).1
      (parseAddressInfo (twoLine (4 + 2 * 2147483646)) 2).2 =
      some (status_t.MISS_AND_REPLACE, pairCache 1 ⟨0, 2, true⟩ ⟨2, 1, true⟩) := by
    decide
  have hB : cache (pairCache 1 ⟨0, 2, true⟩ ⟨2, 1, true⟩)
      (parseAddressInfo (pairCache 1 ⟨0, 2, true⟩ ⟨2, 1, true⟩) 1).1
      (parseAddressInfo (pairCache 1 ⟨0, 2, true⟩ ⟨2, 1, true⟩) 1).2 =
      some (status_t.MISS_AND_REPLACE, pairCache 2 ⟨0, 2, true⟩ ⟨1, 2, true⟩) := by
    decide
  exact twoCallDriver_two _ _ _ _ _
    (twoCallStep_load ⟨twoLine (4 + 2 * 2147483646), ⟨h, m, e⟩, log⟩ ⟨'L', 2, 1⟩ rfl _ _ hA)
    (twoCallStep_load _ ⟨'L', 1, 1⟩ rfl _ _ hB)

/-- C19, counterexample: `s = 0`, `E = 2`, `b = 0` and the trace `L 0`,
`L 0`, `M 1`, then `2147483646` more `M 1`, then `L 2`, `L 1`
(`2 ^ 31 + 3` records, all Load or Modify).  Under `accessMemory` the clock
of the set is `2147483649` before `L 2`, which evicts tag `0`, and `L 1` is
a hit: counters `(4294967295, 3, 1)`.  Under the driver that calls `cache`
twice per Modify the clock has wrapped to `0` before `L 2`, so `L 2` evicts
tag `1` (stamp `0`), and `L 1` is a miss with eviction: counters
`(4294967294, 4, 2)`, a different last status, and different tags in both
lines at the end. -/
theorem C19_counterexample :
    ∃ log1 log2,
      accessMemory (driver.init 0 2 0)
          ([⟨'L', 0, 1⟩, ⟨'L', 0, 1⟩, ⟨'M', 1, 1⟩] ++
            List.replicate 2147483646 ⟨'M', 1, 1⟩ ++ [⟨'L', 2, 1⟩, ⟨'L', 1, 1⟩]) =
        some ⟨pairCache 2147483651 ⟨2, 2147483650, true⟩ ⟨1, 2147483651, true⟩,
          ⟨4294967295, 3, 1⟩, log1⟩ ∧
      twoCallDriver (driver.init 0 2 0)
          ([⟨'L', 0, 1⟩, ⟨'L', 0, 1⟩, ⟨'M', 1, 1⟩] ++
            List.replicate 2147483646 ⟨'M', 1, 1⟩ ++ [⟨'L', 2, 1⟩, ⟨'L', 1, 1⟩]) =
        some ⟨pairCache 2 ⟨0, 2, true⟩ ⟨1, 2, true⟩, ⟨4294967294, 4, 2⟩, log2⟩ ∧
      log1.getLast? = some status_t.HIT ∧
      log2.getLast? = some status_t.MISS_AND_REPLACE := by
  have hp1 : accessMemory (driver.init 0 2 0) [⟨'L', 0, 1⟩, ⟨'L', 0, 1⟩, ⟨'M', 1, 1⟩] =
      some ⟨twoLine 3, ⟨2, 2, 0⟩, [status_t.MISS, status_t.HIT, status_t.MISS]⟩ := by
    decide
  have hp2 : twoCallDriver (driver.init 0 2 0) [⟨'L', 0, 1⟩, ⟨'L', 0, 1⟩, ⟨'M', 1, 1⟩] =
      some ⟨twoLine 4, ⟨2, 2, 0⟩, [status_t.MISS, status_t.HIT, status_t.MISS]⟩ := by
    decide
  have hr1 := (accessMemory_append_of _ (List.replicate 2147483646 ⟨'M', 1, 1⟩) _ _ hp1).trans
    (modify_run_one 2147483646 3 2 2 0 _ (by norm_num))
  have hr2 := (twoCallDriver_append_of _ (List.replicate 2147483646 ⟨'M', 1, 1⟩) _ _ hp2).trans
    (modify_run_two 2147483646 4 2 2 0 _)
  have hs1 := (accessMemory_append_of _ [⟨'L', 2, 1⟩, ⟨'L', 1, 1⟩] _ _ hr1).trans
    (suffix_one _ _ _ _)
  have hs2 := (twoCallDriver_append_of _ [⟨'L', 2, 1⟩, ⟨'L', 1, 1⟩] _ _ hr2).trans
    (suffix_two _ _ _ _)
  have e1 : (⟨((2 + 2 * 2147483646) % 2 ^ 32 + 1) % 2 ^ 32, (2 + 1) % 2 ^ 32,
      (0 + 1) % 2 ^ 32⟩ : counters) = ⟨4294967295, 3, 1⟩ := by decide
  have e2 : (⟨2 + 2 * 2147483646, 2 + 1 + 1, 0 + 1 + 1⟩ : counters) =
      ⟨4294967294, 4, 2⟩ := by decide
  rw [e1] at hs1
  rw [e2] at hs2
  exact ⟨_, _, hs1, hs2, List.getLast?_concat _, List.getLast?_concat _⟩

/-! ## Claim C6 -/

theorem count_of_status (c : cache_t) (k : counters) (ev : event) (st : status_t)
    (hst : cache.status c (parseAddressInfo c ev.address).1
      (parseAddressInfo c ev.address).2 = st) :
    ((ev.op = 'L' ∨ ev.op = 'S') → accessMemory.count c k ev = bump false k st) ∧
    (ev.op = 'M' → accessMemory.count c k ev = bump true k st) := by
  constructor
  · intro hop
    have hM : ¬ ev.op = 'M' := by rcases hop with h1 | h1 <;> rw [h1] <;> decide
    simp only [accessMemory.count, hst, if_neg hM, if_pos hop]
    cases st <;> simp [bump, status_t.toInt]
  · intro hM
    simp only [accessMemory.count, hst, if_pos hM]
    cases st <;> simp [bump]

theorem count_eq_bump (c : cache_t) (k : counters) (ev : event)
    (hop : ev.op = 'M' ∨ ev.op = 'L' ∨ ev.op = 'S') :
    accessMemory.count c k ev = bump (decide (ev.op = 'M')) k
      (cache.status c (parseAddressInfo c ev.address).1 (parseAddressInfo c ev.address).2) := by
  by_cases hM : ev.op = 'M'
  · rw [decide_eq_true hM]
    exact (count_of_status c k ev _ rfl).2 hM
  · rw [decide_eq_false hM]
    have hLS : ev.op = 'L' ∨ ev.op = 'S' := by
      rcases hop with h1 | h1 | h1
      · exact absurd h1 hM
      · exact Or.inl h1
      · exact Or.inr h1
    exact (count_of_status c k ev _ rfl).1 hLS

/-- What the body of the loop does for a Load, Store or Modify record on a
well-formed cache: the call has a result and the driver continues with the
counters of `accessMemory.count`, or the returned value is
`MISS_AND_REPLACE` and the scan of `findVictimLine` assigned no index. -/
theorem step_total_or (d : driver) (hc : d.cache_ptr.allocated) (ev : event)
    (hsi : (parseAddressInfo d.cache_ptr ev.address).1 < d.cache_ptr.set_number)
    (hop : ev.op = 'M' ∨ ev.op = 'L' ∨ ev.op = 'S') :
    (∃ c1, cache d.cache_ptr (parseAddressInfo d.cache_ptr ev.address).1
          (parseAddressInfo d.cache_ptr ev.address).2 =
          some (cache.status d.cache_ptr (parseAddressInfo d.cache_ptr ev.address).1
            (parseAddressInfo d.cache_ptr ev.address).2, c1) ∧
        accessMemory.step d ev =
          some ⟨c1, accessMemory.count d.cache_ptr d.count ev,
            d.log ++ [cache.status d.cache_ptr (parseAddressInfo d.cache_ptr ev.address).1
              (parseAddressInfo d.cache_ptr ev.address).2]⟩) ∨
      (cache.status d.cache_ptr (parseAddressInfo d.cache_ptr ev.address).1
          (parseAddressInfo d.cache_ptr ev.address).2 = status_t.MISS_AND_REPLACE ∧
        findVictimLine d.cache_ptr (parseAddressInfo d.cache_ptr ev.address).1 = none ∧
        accessMemory.step d ev = none) := by
  rcases cache_total_or d.cache_ptr hc _ (parseAddressInfo d.cache_ptr ev.address).2 hsi with
    ⟨c1, h1⟩ | ⟨g1, -, -, -, g2, g3⟩
  · left
    refine ⟨c1, h1, ?_⟩
    rw [step_of_cache d ev hop _ c1 h1, count_eq_bump _ _ _ hop]
  · right
    refine ⟨g1, g2, ?_⟩
    rw [step_access d ev hop, g3]
    rfl

/-- What one event does to the three counters, by the content of the set the
address decodes to. -/
theorem counter_updates (d : driver) (hc : d.cache_ptr.allocated) (ev : event)
    (hsi : (parseAddressInfo d.cache_ptr ev.address).1 < d.cache_ptr.set_number) :
    (holdsTag (linesOf d.cache_ptr (parseAddressInfo d.cache_ptr ev.address).1)
        (parseAddressInfo d.cache_ptr ev.address).2 →
      cache.status d.cache_ptr (parseAddressInfo d.cache_ptr ev.address).1
        (parseAddressInfo d.cache_ptr ev.address).2 = status_t.HIT ∧
      ((ev.op = 'L' ∨ ev.op = 'S') → accessMemory.count d.cache_ptr d.count ev =
        ⟨(d.count.hit_count + 1) % 2 ^ 32, d.count.miss_count, d.count.eviction_count⟩) ∧
      (ev.op = 'M' → accessMemory.count d.cache_ptr d.count ev =
        ⟨(d.count.hit_count + 2) % 2 ^ 32, d.count.miss_count, d.count.eviction_count⟩)) ∧
    (¬ holdsTag (linesOf d.cache_ptr (parseAddressInfo d.cache_ptr ev.address).1)
        (parseAddressInfo d.cache_ptr ev.address).2 →
      hasInvalid (linesOf d.cache_ptr (parseAddressInfo d.cache_ptr ev.address).1) →
      cache.status d.cache_ptr (parseAddressInfo d.cache_ptr ev.address).1
        (parseAddressInfo d.cache_ptr ev.address).2 = status_t.MISS ∧
      ((ev.op = 'L' ∨ ev.op = 'S') → accessMemory.count d.cache_ptr d.count ev =
        ⟨d.count.hit_count, (d.count.miss_count + 1) % 2 ^ 32, d.count.eviction_count⟩) ∧
      (ev.op = 'M' → accessMemory.count d.cache_ptr d.count ev =
        ⟨(d.count.hit_count + 1) % 2 ^ 32, (d.count.miss_count + 1) % 2 ^ 32,
          d.count.eviction_count⟩)) ∧
    (¬ holdsTag (linesOf d.cache_ptr (parseAddressInfo d.cache_ptr ev.address).1)
        (parseAddressInfo d.cache_ptr ev.address).2 →
      allValid (linesOf d.cache_ptr (parseAddressInfo d.cache_ptr ev.address).1) →
      cache.status d.cache_ptr (parseAddressInfo d.cache_ptr ev.address).1
        (parseAddressInfo d.cache_ptr ev.address).2 = status_t.MISS_AND_REPLACE ∧
      ((ev.op = 'L' ∨ ev.op = 'S') → accessMemory.count d.cache_ptr d.count ev =
        ⟨d.count.hit_count, (d.count.miss_count + 1) % 2 ^ 32,
          (d.count.eviction_count + 1) % 2 ^ 32⟩) ∧
      (ev.op = 'M' → accessMemory.count d.cache_ptr d.count ev =
        ⟨(d.count.hit_count + 1) % 2 ^ 32, (d.count.miss_count + 1) % 2 ^ 32,
          (d.count.eviction_count + 1) % 2 ^ 32⟩)) ∧
    (∀ d1, accessMemory.step d ev = some d1 →
      d1.count = accessMemory.count d.cache_ptr d.count ev) ∧
    ((ev.op = 'M' ∨ ev.op = 'L' ∨ ev.op = 'S') →
      (∃ c1, cache d.cache_ptr (parseAddressInfo d.cache_ptr ev.address).1
          (parseAddressInfo d.cache_ptr ev.address).2 =
          some (cache.status d.cache_ptr (parseAddressInfo d.cache_ptr ev.address).1
            (parseAddressInfo d.cache_ptr ev.address).2, c1) ∧
        accessMemory.step d ev =
          some ⟨c1, accessMemory.count d.cache_ptr d.count ev,
            d.log ++ [cache.status d.cache_ptr (parseAddressInfo d.cache_ptr ev.address).1
              (parseAddressInfo d.cache_ptr ev.address).2]⟩) ∨
      (cache.status d.cache_ptr (parseAddressInfo d.cache_ptr ev.address).1
          (parseAddressInfo d.cache_ptr ev.address).2 = status_t.MISS_AND_REPLACE ∧
        findVictimLine d.cache_ptr (parseAddressInfo d.cache_ptr ev.address).1 = none ∧
        accessMemory.step d ev = none)) := by
  obtain ⟨-, hlen⟩ := allocated_lines d.cache_ptr hc _ hsi
  have hcases := status_cases d.cache_ptr (parseAddressInfo d.cache_ptr ev.address).1
    (parseAddressInfo d.cache_ptr ev.address).2 hlen
  refine ⟨?_, ?_, ?_, ?_, fun hop => step_total_or d hc ev hsi hop⟩
  · intro hh
    have hst : cache.status d.cache_ptr (parseAddressInfo d.cache_ptr ev.address).1
        (parseAddressInfo d.cache_ptr ev.address).2 = status_t.HIT := by
      rcases hcases with ⟨-, g⟩ | ⟨g, -⟩ | ⟨g, -⟩
      · exact g
      · exact absurd hh g
      · exact absurd hh g
    exact ⟨hst, (count_of_status _ d.count ev _ hst).1, (count_of_status _ d.count ev _ hst).2⟩
  · intro hn hi
    have hst : cache.status d.cache_ptr (parseAddressInfo d.cache_ptr ev.address).1
        (parseAddressInfo d.cache_ptr ev.address).2 = status_t.MISS := by
      rcases hcases with ⟨g, -⟩ | ⟨-, -, g⟩ | ⟨-, g, -⟩
      · exact absurd g hn
      · exact g
      · exact absurd hi (not_hasInvalid_of_allValid _ g)
    exact ⟨hst, (count_of_status _ d.count ev _ hst).1, (count_of_status _ d.count ev _ hst).2⟩
  · intro hn ha
    have hst : cache.status d.cache_ptr (parseAddressInfo d.cache_ptr ev.address).1
        (parseAddressInfo d.cache_ptr ev.address).2 = status_t.MISS_AND_REPLACE := by
      rcases hcases with ⟨g, -⟩ | ⟨-, g, -⟩ | ⟨-, -, g⟩
      · exact absurd g hn
      · exact absurd g (not_hasInvalid_of_allValid _ ha)
      · exact g
    exact ⟨hst, (count_of_status _ d.count ev _ hst).1, (count_of_status _ d.count ev _ hst).2⟩
  · intro d1 hstep
    by_cases hop : ev.op = 'M' ∨ ev.op = 'L' ∨ ev.op = 'S'
    · rcases step_total_or d hc ev hsi hop with ⟨c1, -, h2⟩ | ⟨-, -, h2⟩
      · rw [h2] at hstep
        cases hstep
        rfl
      · rw [h2] at hstep
        cases hstep
    · rw [step_other d ev hop] at hstep
      cases hstep
      have hM : ¬ ev.op = 'M' := fun h => hop (Or.inl h)
      have hLS : ¬ (ev.op = 'L' ∨ ev.op = 'S') := fun h => hop (Or.inr h)
      simp only [accessMemory.count, if_neg hM, if_neg hLS]


/-- C6 (amended): what one event does to the three counters, on every
well-formed cache and for every value of the counters, by the content of
the set `set_index` and the tag `tag` the address decodes to; every addition is the `unsigned int`
addition of the code, that is `+ 1` or `+ 2` modulo `2 ^ 32`.  Block already
cached (the returned value is `HIT`): a Load or Store adds 1 to `hit_count`
only, a Modify adds 2 to `hit_count` only.  Fresh block in a set with an
invalid line (`MISS`): a Load or Store adds 1 to `miss_count` only, a Modify
adds 1 to `miss_count` and 1 to `hit_count`.  Fresh block in a full set
(`MISS_AND_REPLACE`): a Load or Store adds 1 to `miss_count` and 1 to
`eviction_count`, a Modify adds 1 to each of the three counters.  These are
the counters the driver continues with whenever the body of the loop has a
result, and it has one unless the returned value is `MISS_AND_REPLACE` and
the scan of `findVictimLine` assigned no index. -/
theorem C6_counter_updates (c : cache_t) (hc : c.allocated) (k : counters)
    (log : List status_t) (ev : event) (set_index tag : Nat)
    (hdec : parseAddressInfo c ev.address = (set_index, tag))
    (hsi : set_index < c.set_number) :
    (holdsTag (linesOf c set_index) tag →
      cache.status c set_index tag = status_t.HIT ∧
      ((ev.op = 'L' ∨ ev.op = 'S') → accessMemory.count c k ev =
        ⟨(k.hit_count + 1) % 2 ^ 32, k.miss_count, k.eviction_count⟩) ∧
      (ev.op = 'M' → accessMemory.count c k ev =
        ⟨(k.hit_count + 2) % 2 ^ 32, k.miss_count, k.eviction_count⟩)) ∧
    (¬ holdsTag (linesOf c set_index) tag → hasInvalid (linesOf c set_index) →
      cache.status c set_index tag = status_t.MISS ∧
      ((ev.op = 'L' ∨ ev.op = 'S') → accessMemory.count c k ev =
        ⟨k.hit_count, (k.miss_count + 1) % 2 ^ 32, k.eviction_count⟩) ∧
      (ev.op = 'M' → accessMemory.count c k ev =
        ⟨(k.hit_count + 1) % 2 ^ 32, (k.miss_count + 1) % 2 ^ 32, k.eviction_count⟩)) ∧
    (¬ holdsTag (linesOf c set_index) tag → allValid (linesOf c set_index) →
      cache.status c set_index tag = status_t.MISS_AND_REPLACE ∧
      ((ev.op = 'L' ∨ ev.op = 'S') → accessMemory.count c k ev =
        ⟨k.hit_count, (k.miss_count + 1) % 2 ^ 32, (k.eviction_count + 1) % 2 ^ 32⟩) ∧
      (ev.op = 'M' → accessMemory.count c k ev =
        ⟨(k.hit_count + 1) % 2 ^ 32, (k.miss_count + 1) % 2 ^ 32,
          (k.eviction_count + 1) % 2 ^ 32⟩)) ∧
    (∀ d1, accessMemory.step ⟨c, k, log⟩ ev = some d1 →
      d1.count = accessMemory.count c k ev) ∧
    ((ev.op = 'M' ∨ ev.op = 'L' ∨ ev.op = 'S') →
      (∃ c1, cache c set_index tag = some (cache.status c set_index tag, c1) ∧
        accessMemory.step ⟨c, k, log⟩ ev =
          some ⟨c1, accessMemory.count c k ev, log ++ [cache.status c set_index tag]⟩) ∨
      (cache.status c set_index tag = status_t.MISS_AND_REPLACE ∧
        findVictimLine c set_index = none ∧
        accessMemory.step ⟨c, k, log⟩ ev = none)) := by
  have h1 : (parseAddressInfo c ev.address).1 = set_index := by rw [hdec]
  have h2 : (parseAddressInfo c ev.address).2 = tag := by rw [hdec]
  subst h1 h2
  exact counter_updates ⟨c, k, log⟩ hc ev hsi

/-- Witness for C6: the fresh cache with `s = 0`, `E = 1`, `b = 0`, counters
`(7, 0, 0)`, and the record `M 0,1`, which decodes to set `0`, tag `0`. -/
theorem C6_counter_updates_witness :
    (holdsTag (linesOf (createCache 0 1 0) 0) 0 →
      cache.status (createCache 0 1 0) 0 0 = status_t.HIT ∧
      (('M' = 'L' ∨ 'M' = 'S') → accessMemory.count (createCache 0 1 0) ⟨7, 0, 0⟩ ⟨'M', 0, 1⟩ =
        ⟨(7 + 1) % 2 ^ 32, 0, 0⟩) ∧
      ('M' = 'M' → accessMemory.count (createCache 0 1 0) ⟨7, 0, 0⟩ ⟨'M', 0, 1⟩ =
        ⟨(7 + 2) % 2 ^ 32, 0, 0⟩)) ∧
    (¬ holdsTag (linesOf (createCache 0 1 0) 0) 0 → hasInvalid (linesOf (createCache 0 1 0) 0) →
      cache.status (createCache 0 1 0) 0 0 = status_t.MISS ∧
      (('M' = 'L' ∨ 'M' = 'S') → accessMemory.count (createCache 0 1 0) ⟨7, 0, 0⟩ ⟨'M', 0, 1⟩ =
        ⟨7, (0 + 1) % 2 ^ 32, 0⟩) ∧
      ('M' = 'M' → accessMemory.count (createCache 0 1 0) ⟨7, 0, 0⟩ ⟨'M', 0, 1⟩ =
        ⟨(7 + 1) % 2 ^ 32, (0 + 1) % 2 ^ 32, 0⟩)) ∧
    (¬ holdsTag (linesOf (createCache 0 1 0) 0) 0 → allValid (linesOf (createCache 0 1 0) 0) →
      cache.status (createCache 0 1 0) 0 0 = status_t.MISS_AND_REPLACE ∧
      (('M' = 'L' ∨ 'M' = 'S') → accessMemory.count (createCache 0 1 0) ⟨7, 0, 0⟩ ⟨'M', 0, 1⟩ =
        ⟨7, (0 + 1) % 2 ^ 32, (0 + 1) % 2 ^ 32⟩) ∧
      ('M' = 'M' → accessMemory.count (createCache 0 1 0) ⟨7, 0, 0⟩ ⟨'M', 0, 1⟩ =
        ⟨(7 + 1) % 2 ^ 32, (0 + 1) % 2 ^ 32,
          (0 + 1) % 2 ^ 32⟩)) ∧
    (∀ d1, accessMemory.step ⟨createCache 0 1 0, ⟨7, 0, 0⟩, []⟩ ⟨'M', 0, 1⟩ = some d1 →
      d1.count = accessMemory.count (createCache 0 1 0) ⟨7, 0, 0⟩ ⟨'M', 0, 1⟩) ∧
    (('M' = 'M' ∨ 'M' = 'L' ∨ 'M' = 'S') →
      (∃ c1, cache (createCache 0 1 0) 0 0 = some (cache.status (createCache 0 1 0) 0 0, c1) ∧
        accessMemory.step ⟨createCache 0 1 0, ⟨7, 0, 0⟩, []⟩ ⟨'M', 0, 1⟩ =
          some ⟨c1, accessMemory.count (createCache 0 1 0) ⟨7, 0, 0⟩ ⟨'M', 0, 1⟩,
            [] ++ [cache.status (createCache 0 1 0) 0 0]⟩) ∨
      (cache.status (createCache 0 1 0) 0 0 = status_t.MISS_AND_REPLACE ∧
        findVictimLine (createCache 0 1 0) 0 = none ∧
        accessMemory.step ⟨createCache 0 1 0, ⟨7, 0, 0⟩, []⟩ ⟨'M', 0, 1⟩ = none)) :=
  C6_counter_updates (createCache 0 1 0) ⟨by decide, by decide⟩ ⟨7, 0, 0⟩ [] ⟨'M', 0, 1⟩ 0 0
    (by decide) (by decide)

theorem twoLine_allocated (n : Nat) : (twoLine n).allocated := by
  refine ⟨rfl, ?_⟩
  intro st hst
  have h : st = (⟨n % 2 ^ 32, [⟨0, 2, true⟩, ⟨1, n % 2 ^ 32, true⟩]⟩ : set_t) :=
    List.mem_singleton.mp hst
  rw [h]
  rfl

theorem holdsTag_twoLine (n : Nat) : holdsTag (linesOf (twoLine n) 0) 1 :=
  ⟨⟨1, n % 2 ^ 32, true⟩, List.mem_cons_of_mem _ (List.mem_singleton.mpr rfl), rfl, rfl⟩

/-- C6 (as stated) fails: with `s = 0`, `E = 2`, `b = 0` the trace `L 0`,
`L 0`, `M 1` and `2147483646` more `M 1` leaves the counters at
`(4294967294, 2, 0)` in a cache that holds the block of address `1`; the next
`M 1` is a hit in both accesses and leaves `hit_count` at `0`, not at
`4294967294 + 2`: the `unsigned int` counter wraps. -/
theorem C6_counterexample :
    ∃ c log,
      accessMemory (driver.init 0 2 0)
          ([⟨'L', 0, 1⟩, ⟨'L', 0, 1⟩, ⟨'M', 1, 1⟩] ++
            List.replicate 2147483646 ⟨'M', 1, 1⟩) =
        some ⟨c, ⟨4294967294, 2, 0⟩, log⟩ ∧
      c.allocated ∧ parseAddressInfo c 1 = (0, 1) ∧ holdsTag (linesOf c 0) 1 ∧
      (∃ c1, accessMemory.step ⟨c, ⟨4294967294, 2, 0⟩, log⟩ ⟨'M', 1, 1⟩ =
        some ⟨c1, ⟨0, 2, 0⟩, log ++ [status_t.HIT]⟩) ∧
      (0 : Nat) ≠ 4294967294 + 2 := by
  have hp1 : accessMemory (driver.init 0 2 0) [⟨'L', 0, 1⟩, ⟨'L', 0, 1⟩, ⟨'M', 1, 1⟩] =
      some ⟨twoLine 3, ⟨2, 2, 0⟩, [status_t.MISS, status_t.HIT, status_t.MISS]⟩ := by
    decide
  have hr1 := (accessMemory_append_of _ (List.replicate 2147483646 ⟨'M', 1, 1⟩) _ _ hp1).trans
    (modify_run_one 2147483646 3 2 2 0 _ (by norm_num))
  have e1 : (2 + 2 * 2147483646) % 2 ^ 32 = 4294967294 := by decide
  rw [e1] at hr1
  have hstep := modify_step_one (3 + 2147483646) 4294967294 2 0 1
    ([status_t.MISS, status_t.HIT, status_t.MISS] ++
      List.replicate 2147483646 status_t.HIT)
  have e2 : (4294967294 + 2) % 2 ^ 32 = 0 := by decide
  rw [e2] at hstep
  exact ⟨_, _, hr1, twoLine_allocated _, parseAddressInfo_twoLine _, holdsTag_twoLine _,
    ⟨_, hstep⟩, by decide⟩

/-! ## Claim C8 -/

theorem wrappedCache_facts :
    (∃ out, accesses (createCache 0 1 0) (List.replicate 4294967295 (0, 0)) =
      some (out, wrappedCache)) ∧
    wrappedCache.allocated ∧
    cache.status wrappedCache 0 1 = status_t.MISS_AND_REPLACE ∧
    findVictimLine wrappedCache 0 = none ∧
    ¬ holdsTag (linesOf wrappedCache 0) 1 :=
  ⟨⟨_, accesses_fresh_hits 4294967294⟩, ⟨rfl, by decide⟩, by decide, by decide, by
    rintro ⟨l, hl, -, ht⟩
    have h : l = ⟨0, 4294967295, true⟩ := List.mem_singleton.mp hl
    rw [h] at ht
    cases ht⟩

/-- C8 fails on the code.  On every well-formed cache (in particular on
every state reached from `createCache s E b`), for every `set_index < S` and
every tag: either the call has a result, a valid line of the set then holds
the tag and a second call with the same `(set_index, tag)` returns `HIT`; or
the set is full, no valid line holds the tag and the scan of
`findVictimLine` assigns no index, the call returns `MISS_AND_REPLACE` and
its store has no line of the set as a defined target.  The second case
occurs on a reachable state: `wrappedCache` (`E = 1`) is reached from
`createCache 0 1 0` by `2 ^ 32 - 1` accesses with tag `0`, and the call with
tag `1` is such a call; as long as the line of the set is as it was, the
second call with tag `1` returns `MISS_AND_REPLACE` again, not `HIT`. -/
theorem C8_second_access_hits (c : cache_t) (hc : c.allocated) (set_index tag : Nat)
    (hsi : set_index < c.set_number) :
    ((∃ c1, cache c set_index tag = some (cache.status c set_index tag, c1) ∧
        holdsTag (linesOf c1 set_index) tag ∧
        cache.status c1 set_index tag = status_t.HIT ∧
        ∃ c2, cache c1 set_index tag = some (status_t.HIT, c2)) ∨
      (cache.status c set_index tag = status_t.MISS_AND_REPLACE ∧
        ¬ holdsTag (linesOf c set_index) tag ∧ allValid (linesOf c set_index) ∧
        findVictimLine c set_index = none ∧ cache c set_index tag = none)) ∧
    ((∃ out, accesses (createCache 0 1 0) (List.replicate 4294967295 (0, 0)) =
        some (out, wrappedCache)) ∧
      1 ≤ wrappedCache.lines_per_set ∧ 0 < wrappedCache.set_number ∧
      cache.status wrappedCache 0 1 = status_t.MISS_AND_REPLACE ∧
      findVictimLine wrappedCache 0 = none ∧
      ¬ holdsTag (linesOf wrappedCache 0) 1 ∧
      ∀ c1 : cache_t, c1.lines_per_set = 1 → linesOf c1 0 = linesOf wrappedCache 0 →
        cache.status c1 0 1 = status_t.MISS_AND_REPLACE) := by
  constructor
  · rcases cache_total_or c hc set_index tag hsi with ⟨c1, h1⟩ | ⟨g1, g2, g3, -, g4, g5⟩
    · left
      obtain ⟨hc1, hS1, -, -⟩ := cache_allocated c hc set_index tag _ c1 h1
      obtain ⟨h0, hlen⟩ := allocated_lines c hc set_index hsi
      obtain ⟨k, l, hk, hc1eq, hv, ht, -⟩ := cache_result c set_index tag h0 hlen _ c1 h1
      have hold : holdsTag (linesOf c1 set_index) tag := by
        rw [hc1eq, linesOf_touch_same c set_index k _ l h0]
        exact ⟨l, List.mem_set _ k (by omega) l, hv, ht⟩
      obtain ⟨-, glen⟩ := allocated_lines c1 hc1 set_index (by rw [hS1]; exact hsi)
      have hst : cache.status c1 set_index tag = status_t.HIT := by
        rcases status_cases c1 set_index tag glen with ⟨-, g⟩ | ⟨g, -⟩ | ⟨g, -⟩
        · exact g
        · exact absurd hold g
        · exact absurd hold g
      refine ⟨c1, h1, hold, hst, ?_⟩
      rcases cache_total_or c1 hc1 set_index tag (by rw [hS1]; exact hsi) with
        ⟨c2, h2⟩ | ⟨-, g, -⟩
      · rw [hst] at h2
        exact ⟨c2, h2⟩
      · exact absurd hold g
    · exact Or.inr ⟨g1, g2, g3, g4, g5⟩
  · obtain ⟨w1, -, w3, w4, w5⟩ := wrappedCache_facts
    refine ⟨w1, by decide, by decide, w3, w4, w5, ?_⟩
    intro c1 hE hl
    simp only [cache.status, isLineExist, findEmptyLine, hE, hl]
    decide

/-- Witness for C8: the cache with `s = 0`, `E = 1`, `b = 0` that holds tag
`1`, set `0`, tag `2` (an eviction, then a hit). -/
theorem C8_second_access_hits_witness :
    ((∃ c1, cache (touch (createCache 0 1 0) 0 0 1 ⟨1, 1, true⟩) 0 2 = some (cache.status (touch (createCache 0 1 0) 0 0 1 ⟨1, 1, true⟩) 0 2, c1) ∧
        holdsTag (linesOf c1 0) 2 ∧
        cache.status c1 0 2 = status_t.HIT ∧
        ∃ c2, cache c1 0 2 = some (status_t.HIT, c2)) ∨
      (cache.status (touch (createCache 0 1 0) 0 0 1 ⟨1, 1, true⟩) 0 2 = status_t.MISS_AND_REPLACE ∧
        ¬ holdsTag (linesOf (touch (createCache 0 1 0) 0 0 1 ⟨1, 1, true⟩) 0) 2 ∧ allValid (linesOf (touch (createCache 0 1 0) 0 0 1 ⟨1, 1, true⟩) 0) ∧
        findVictimLine (touch (createCache 0 1 0) 0 0 1 ⟨1, 1, true⟩) 0 = none ∧ cache (touch (createCache 0 1 0) 0 0 1 ⟨1, 1, true⟩) 0 2 = none)) ∧
    ((∃ out, accesses (createCache 0 1 0) (List.replicate 4294967295 (0, 0)) =
        some (out, wrappedCache)) ∧
      1 ≤ wrappedCache.lines_per_set ∧ 0 < wrappedCache.set_number ∧
      cache.status wrappedCache 0 1 = status_t.MISS_AND_REPLACE ∧
      findVictimLine wrappedCache 0 = none ∧
      ¬ holdsTag (linesOf wrappedCache 0) 1 ∧
      ∀ c1 : cache_t, c1.lines_per_set = 1 → linesOf c1 0 = linesOf wrappedCache 0 →
        cache.status c1 0 1 = status_t.MISS_AND_REPLACE) :=
  C8_second_access_hits (touch (createCache 0 1 0) 0 0 1 ⟨1, 1, true⟩)
    ⟨by decide, by decide⟩ 0 2 (by decide)

/-! ## Claim C15 -/

/-- C15 fails on the code.  On every well-formed cache, for every
`set_index < S` and every tag: either the call has a result and there is one
touched line `k < E` such that every other set keeps all its lines and its
clock, every line of the target set other than line `k` keeps its tag, valid
bit and recency, `S`, `E`, `s`, `b` (and the block size and the array sizes)
are unchanged and, when the returned value is `HIT`, the tag and the valid
bit of every line of the target set are unchanged; or the set is full, no
recency of the set is below the incremented clock, the scan of
`findVictimLine` assigns no index and the store of the call goes through
that unassigned index, so that no line `k < E` is the touched line.  The
second case occurs with `E ≥ 1` on a reachable state: `wrappedCache`
(`E = 1`, clock and recency `2 ^ 32 - 1`) is reached from `createCache 0 1 0`
by `2 ^ 32 - 1` accesses with tag `0`, and the call with tag `1` is such a
call. -/
theorem C15_frame (c : cache_t) (hc : c.allocated) (set_index tag : Nat)
    (hsi : set_index < c.set_number) :
    ((∃ c1 k, k < c.lines_per_set ∧
        cache c set_index tag = some (cache.status c set_index tag, c1) ∧
        (∀ sj, sj ≠ set_index →
          linesOf c1 sj = linesOf c sj ∧ clockOf c1 sj = clockOf c sj) ∧
        (∀ j, j ≠ k → lineAt c1 set_index j = lineAt c set_index j) ∧
        (c1.set_number = c.set_number ∧ c1.lines_per_set = c.lines_per_set ∧
          c1.set_bits = c.set_bits ∧ c1.block_bits = c.block_bits ∧
          c1.block_size = c.block_size ∧ c1.sets.length = c.sets.length ∧
          (linesOf c1 set_index).length = (linesOf c set_index).length) ∧
        (cache.status c set_index tag = status_t.HIT → ∀ j,
          (lineAt c1 set_index j).tag = (lineAt c set_index j).tag ∧
          (lineAt c1 set_index j).valid = (lineAt c set_index j).valid)) ∨
      (cache.status c set_index tag = status_t.MISS_AND_REPLACE ∧
        allValid (linesOf c set_index) ∧
        (∀ j, j < c.lines_per_set →
          (clockOf c set_index + 1) % 2 ^ 32 ≤ (lineAt c set_index j).order) ∧
        findVictimLine c set_index = none ∧ cache c set_index tag = none)) ∧
    ((∃ out, accesses (createCache 0 1 0) (List.replicate 4294967295 (0, 0)) =
        some (out, wrappedCache)) ∧
      wrappedCache.allocated ∧ wrappedCache.lines_per_set = 1 ∧
      wrappedCache.set_number = 1 ∧
      cache.status wrappedCache 0 1 = status_t.MISS_AND_REPLACE ∧
      clockOf wrappedCache 0 = 4294967295 ∧ (lineAt wrappedCache 0 0).order = 4294967295 ∧
      findVictimLine wrappedCache 0 = none) := by
  constructor
  · rcases cache_total_or c hc set_index tag hsi with ⟨c1, h1⟩ | ⟨g1, -, g3, g4, g5, g6⟩
    · left
      obtain ⟨hc1, hS, hE, -⟩ := cache_allocated c hc set_index tag _ c1 h1
      obtain ⟨hsb, hbb⟩ := cache_bits c hc set_index tag _ c1 h1
      obtain ⟨k, hk, f1, f2, f3, f4, -⟩ := cache_frame c hc set_index tag _ c1 h1
      refine ⟨c1, k, hk, h1, f1, f2, ⟨hS, hE, hsb, hbb, ?_, ?_, f3⟩, f4⟩
      · obtain ⟨h0, hlen⟩ := allocated_lines c hc set_index hsi
        obtain ⟨k2, l, -, hc1eq, -⟩ := cache_result c set_index tag h0 hlen _ c1 h1
        rw [hc1eq]
        rfl
      · rw [hc1.1, hc.1, hS]
    · exact Or.inr ⟨g1, g3, g4, g5, g6⟩
  · obtain ⟨w1, w2, w3, w4, -⟩ := wrappedCache_facts
    exact ⟨w1, w2, rfl, rfl, w3, by decide, by decide, w4⟩

/-- Witness for C15: the access with tag `2` to the cache with `s = 0`,
`E = 1`, `b = 0` that holds tag `1`. -/
theorem C15_frame_witness :
    ((∃ c1 k, k < (touch (createCache 0 1 0) 0 0 1 ⟨1, 1, true⟩).lines_per_set ∧
        cache (touch (createCache 0 1 0) 0 0 1 ⟨1, 1, true⟩) 0 2 = some (cache.status (touch (createCache 0 1 0) 0 0 1 ⟨1, 1, true⟩) 0 2, c1) ∧
        (∀ sj, sj ≠ 0 →
          linesOf c1 sj = linesOf (touch (createCache 0 1 0) 0 0 1 ⟨1, 1, true⟩) sj ∧ clockOf c1 sj = clockOf (touch (createCache 0 1 0) 0 0 1 ⟨1, 1, true⟩) sj) ∧
        (∀ j, j ≠ k → lineAt c1 0 j = lineAt (touch (createCache 0 1 0) 0 0 1 ⟨1, 1, true⟩) 0 j) ∧
        (c1.set_number = (touch (createCache 0 1 0) 0 0 1 ⟨1, 1, true⟩).set_number ∧ c1.lines_per_set = (touch (createCache 0 1 0) 0 0 1 ⟨1, 1, true⟩).lines_per_set ∧
          c1.set_bits = (touch (createCache 0 1 0) 0 0 1 ⟨1, 1, true⟩).set_bits ∧ c1.block_bits = (touch (createCache 0 1 0) 0 0 1 ⟨1, 1, true⟩).block_bits ∧
          c1.block_size = (touch (createCache 0 1 0) 0 0 1 ⟨1, 1, true⟩).block_size ∧ c1.sets.length = (touch (createCache 0 1 0) 0 0 1 ⟨1, 1, true⟩).sets.length ∧
          (linesOf c1 0).length = (linesOf (touch (createCache 0 1 0) 0 0 1 ⟨1, 1, true⟩) 0).length) ∧
        (cache.status (touch (createCache 0 1 0) 0 0 1 ⟨1, 1, true⟩) 0 2 = status_t.HIT → ∀ j,
          (lineAt c1 0 j).tag = (lineAt (touch (createCache 0 1 0) 0 0 1 ⟨1, 1, true⟩) 0 j).tag ∧
          (lineAt c1 0 j).valid = (lineAt (touch (createCache 0 1 0) 0 0 1 ⟨1, 1, true⟩) 0 j).valid)) ∨
      (cache.status (touch (createCache 0 1 0) 0 0 1 ⟨1, 1, true⟩) 0 2 = status_t.MISS_AND_REPLACE ∧
        allValid (linesOf (touch (createCache 0 1 0) 0 0 1 ⟨1, 1, true⟩) 0) ∧
        (∀ j, j < (touch (createCache 0 1 0) 0 0 1 ⟨1, 1, true⟩).lines_per_set →
          (clockOf (touch (createCache 0 1 0) 0 0 1 ⟨1, 1, true⟩) 0 + 1) % 2 ^ 32 ≤ (lineAt (touch (createCache 0 1 0) 0 0 1 ⟨1, 1, true⟩) 0 j).order) ∧
        findVictimLine (touch (createCache 0 1 0) 0 0 1 ⟨1, 1, true⟩) 0 = none ∧ cache (touch (createCache 0 1 0) 0 0 1 ⟨1, 1, true⟩) 0 2 = none)) ∧
    ((∃ out, accesses (createCache 0 1 0) (List.replicate 4294967295 (0, 0)) =
        some (out, wrappedCache)) ∧
      wrappedCache.allocated ∧ wrappedCache.lines_per_set = 1 ∧
      wrappedCache.set_number = 1 ∧
      cache.status wrappedCache 0 1 = status_t.MISS_AND_REPLACE ∧
      clockOf wrappedCache 0 = 4294967295 ∧ (lineAt wrappedCache 0 0).order = 4294967295 ∧
      findVictimLine wrappedCache 0 = none) :=
  C15_frame (touch (createCache 0 1 0) 0 0 1 ⟨1, 1, true⟩) ⟨by decide, by decide⟩ 0 2
    (by decide)

end CacheSim
